import Mathlib

/-!
# big_integer

A shallow embedding of `big_integer.cpp`: an arbitrary-precision signed integer stored as a
little-endian vector of 32-bit digits together with a sign flag.  Digits beyond the stored
vector are implicitly equal to `empty_block` (all zeros or all ones, depending on the sign).

Machine words are natural numbers; every store into a `uint32_t` is written `u32`, every
`uint64_t` accumulator is written `u64`.  Vector sizes and the `int` shift amounts are
idealised as unbounded natural numbers.
-/

set_option autoImplicit false

/-- Modelled from the spec: the header constant `BIT_DEPTH`, the width of one digit. -/
def BIT_DEPTH : Nat := 32

/-- Modelled from the spec: the header constant `BASE = 2^32`, held in a 64-bit word. -/
def BASE : Nat := 2 ^ 32

/-- The largest 32-bit word. -/
def UINT32_MAX : Nat := 4294967295

/-- A conversion to `uint32_t`. -/
def u32 (x : Nat) : Nat := x % 2 ^ 32

/-- A conversion to `uint64_t`. -/
def u64 (x : Nat) : Nat := x % 2 ^ 64

/-- The ways an operation can end without a value: the two exceptions thrown by the source,
an internal fault (undefined behaviour such as a machine division by zero or an index out of
range), and exhaustion of the recursion bound that the embedding gives to unbounded loops. -/
inductive Error where
  | division_by_zero
  | invalid_string
  | fault
  | out_of_fuel
  deriving DecidableEq, Repr

/-- Modelled from the spec: the class declared in the missing header, a vector of unsigned
32-bit digits (least significant first) and the cached sign. -/
structure big_integer where
  data : List Nat
  sign : Bool
  deriving DecidableEq, Repr

/-- The vector operation `resize(n, v)`: truncate, or pad at the end with `v`. -/
def resize (l : List Nat) (n : Nat) (v : Nat) : List Nat :=
  l.take n ++ List.replicate (n - l.length) v

namespace big_integer

/-- Source `empty_block`: the word that extends the digits beyond the stored vector. -/
def empty_block (x : big_integer) : Nat := if x.sign then UINT32_MAX else 0

/-- Source `shrink_to_fit`: pop the last digit while it equals the fill word. -/
def shrink_to_fit (x : big_integer) : big_integer :=
  { x with data := x.data.rdropWhile (fun d => d == x.empty_block) }

/-- Source `set_sign`: the sign becomes the top bit of the last digit.  It is only called
right after a resize to a positive size. -/
def set_sign (x : big_integer) : big_integer :=
  { x with sign := decide (x.data.getLastD 0 >>> 31 ≠ 0) }

/-- Source `big_integer()`: zero. -/
def zero : big_integer := ⟨[], false⟩

/-- Source `big_integer(int a)`. -/
def from_int (a : Int) : big_integer :=
  shrink_to_fit ⟨[(a % 2 ^ 32).toNat], decide (a < 0)⟩

/-- The carry loop of `operator+=`: `ds` are the digits of the left operand from index `i`
on, already resized. -/
def add_loop (rhs : big_integer) : List Nat → Nat → Nat → List Nat
  | [], _, _ => []
  | d :: ds, i, carry =>
    let c := u64 (carry + d + rhs.data.getD i rhs.empty_block)
    u32 c :: add_loop rhs ds (i + 1) (c >>> BIT_DEPTH)

/-- Source `operator+=` (and `operator+`). -/
def add (a rhs : big_integer) : big_integer :=
  let data := resize a.data (max a.data.length rhs.data.length + 1) a.empty_block
  shrink_to_fit (set_sign ⟨add_loop rhs data 0 0, a.sign⟩)

/-- Source `operator~`: complement every stored digit and flip the sign. -/
def bitwise_not (x : big_integer) : big_integer :=
  shrink_to_fit ⟨x.data.map (fun d => UINT32_MAX - d), !x.sign⟩

/-- Source unary `operator-`: `~x + 1`. -/
def negate (x : big_integer) : big_integer := add (bitwise_not x) (from_int 1)

/-- Source `operator-=` (and `operator-`): `a += (-rhs)`. -/
def subtract (a rhs : big_integer) : big_integer := add a (negate rhs)

/-- Source `abs`. -/
def abs (a : big_integer) : big_integer := if a.sign then negate a else a

/-- Source prefix `operator++`. -/
def increment (a : big_integer) : big_integer := add a (from_int 1)

/-- Source prefix `operator--`. -/
def decrement (a : big_integer) : big_integer := subtract a (from_int 1)

/-- The descending loop of `comparator`, from `index` down to `0`. -/
def comparator_loop (a b : big_integer) : Nat → Int
  | 0 =>
    let a_value := a.data.getD 0 a.empty_block
    let b_value := b.data.getD 0 b.empty_block
    if a_value ≠ b_value then (if a_value > b_value then 1 else -1) else 0
  | index + 1 =>
    let a_value := a.data.getD (index + 1) a.empty_block
    let b_value := b.data.getD (index + 1) b.empty_block
    if a_value ≠ b_value then (if a_value > b_value then 1 else -1)
    else comparator_loop a b index

/-- Source `comparator`. -/
def comparator (a b : big_integer) : Int :=
  if a.sign ≠ b.sign then (if a.sign then -1 else 1)
  else comparator_loop a b (max a.data.length b.data.length)

/-- Source `operator==`. -/
def equal (a b : big_integer) : Bool := decide (comparator a b = 0)

/-- Source `operator<`. -/
def less (a b : big_integer) : Bool := decide (comparator a b < 0)

/-- Source `operator!=`. -/
def not_equal (a b : big_integer) : Bool := decide (comparator a b ≠ 0)

/-- Source `operator>`. -/
def greater (a b : big_integer) : Bool := decide (comparator a b > 0)

/-- Source `operator<=`. -/
def less_equal (a b : big_integer) : Bool := decide (comparator a b ≤ 0)

/-- Source `operator>=`. -/
def greater_equal (a b : big_integer) : Bool := decide (comparator a b ≥ 0)

/-- The loop of `mul_by_uint32_t`: the low digits of the product and the final carry. -/
def mul_loop (rhs : Nat) : List Nat → Nat → List Nat × Nat
  | [], carry => ([], carry)
  | d :: ds, carry =>
    let c := u64 (d * rhs + carry)
    let rest := mul_loop rhs ds (c >>> BIT_DEPTH)
    (u32 c :: rest.1, rest.2)

/-- Source `mul_by_uint32_t`: multiply the stored digits by one 32-bit word. -/
def mul_by_uint32_t (x : big_integer) (rhs : Nat) : big_integer :=
  let r := mul_loop rhs x.data 0
  shrink_to_fit ⟨r.1 ++ [if r.2 > 0 then u32 r.2 else 0], false⟩

/-- The loop of `div_by_uint32_t`, from the most significant digit down: the quotient
digits and the running remainder `temp`. -/
def div_loop (rhs : Nat) : List Nat → List Nat × Nat
  | [] => ([], 0)
  | d :: ds =>
    let rest := div_loop rhs ds
    let temp := u64 ((rest.2 <<< BIT_DEPTH) + d)
    (u32 (temp / rhs) :: rest.1, temp % rhs)

/-- Source `div_by_uint32_t`: divide the stored digits by one 32-bit word. -/
def div_by_uint32_t (x : big_integer) (rhs : Nat) : Except Error (big_integer × Nat) :=
  if rhs = 0 then .error .division_by_zero
  else
    let r := div_loop rhs x.data
    .ok (shrink_to_fit ⟨r.1, false⟩, u32 r.2)

/-- The loop of `common_fun_bits`. -/
def bits_loop (fn : Nat → Nat → Nat) (rhs : big_integer) : List Nat → Nat → List Nat
  | [], _ => []
  | d :: ds, i => fn d (rhs.data.getD i rhs.empty_block) :: bits_loop fn rhs ds (i + 1)

/-- Source `common_fun_bits`. -/
def common_fun_bits (a rhs : big_integer) (fn : Nat → Nat → Nat) : big_integer :=
  let data := resize a.data (max a.data.length rhs.data.length + 1) a.empty_block
  shrink_to_fit (set_sign ⟨bits_loop fn rhs data 0, a.sign⟩)

/-- Source `operator&=`. -/
def bit_and (a rhs : big_integer) : big_integer := common_fun_bits a rhs (fun x y => x &&& y)

/-- Source `operator|=`. -/
def bit_or (a rhs : big_integer) : big_integer := common_fun_bits a rhs (fun x y => x ||| y)

/-- Source `operator^=`. -/
def bit_xor (a rhs : big_integer) : big_integer := common_fun_bits a rhs (fun x y => x ^^^ y)

/-- The digit that one iteration of the loop of `operator<<=` stores at index `i`, read
from the current contents `data` of the vector. -/
def shl_digit (shiftBlocks shiftBits : Nat) (data : List Nat) (i : Nat) : Nat :=
  let current_digit := if shiftBlocks ≤ i then data.getD (i - shiftBlocks) 0 else 0
  let previous_digit :=
    if shiftBlocks ≤ i then (if shiftBlocks + 1 ≤ i then data.getD (i - shiftBlocks - 1) 0 else 0)
    else 0
  u32 (u32 (current_digit <<< shiftBits) +
    (if shiftBits = 0 then 0 else previous_digit >>> (BIT_DEPTH - shiftBits)))

/-- The in-place loop of `operator<<=`, by descending index: `n` iterations remain, the
next one writes index `n - 1`. -/
def shl_loop (shiftBlocks shiftBits : Nat) : Nat → List Nat → List Nat
  | 0, data => data
  | i + 1, data => shl_loop shiftBlocks shiftBits i (data.set i (shl_digit shiftBlocks shiftBits data i))

/-- Source `operator<<=`. -/
def shift_left (x : big_integer) (rhs : Nat) : big_integer :=
  if rhs = 0 then x
  else
    let shiftBlocks := rhs / BIT_DEPTH
    let shiftBits := rhs % BIT_DEPTH
    let data := resize x.data (x.data.length + shiftBlocks + (if shiftBits > 0 then 1 else 0))
      x.empty_block
    shrink_to_fit ⟨shl_loop shiftBlocks shiftBits data.length data, x.sign⟩

/-- The digit that one iteration of the loop of `operator>>=` stores at index `i`, read
from the current contents `data` of the vector. -/
def shr_digit (shiftBlocks shiftBits fill : Nat) (data : List Nat) (i : Nat) : Nat :=
  let current_digit := if i + shiftBlocks < data.length then data.getD (i + shiftBlocks) 0 else fill
  let next_digit :=
    if i + shiftBlocks < data.length then
      (if i + shiftBlocks + 1 < data.length then data.getD (i + shiftBlocks + 1) 0 else fill)
    else fill
  u32 ((current_digit >>> shiftBits) +
    (if shiftBits = 0 then 0 else u32 (next_digit <<< (BIT_DEPTH - shiftBits))))

/-- The in-place loop of `operator>>=`, by ascending index: `n` iterations remain, the next
one writes index `i`. -/
def shr_loop (shiftBlocks shiftBits : Nat) (fill : Nat) : Nat → Nat → List Nat → List Nat
  | 0, _, data => data
  | n + 1, i, data =>
    shr_loop shiftBlocks shiftBits fill n (i + 1)
      (data.set i (shr_digit shiftBlocks shiftBits fill data i))

/-- Source `operator>>=`. -/
def shift_right (x : big_integer) (rhs : Nat) : big_integer :=
  if rhs = 0 then x
  else
    let shiftBlocks := rhs / BIT_DEPTH
    let shiftBits := rhs % BIT_DEPTH
    shrink_to_fit
      ⟨shr_loop shiftBlocks shiftBits x.empty_block x.data.length 0 x.data, x.sign⟩

/-- The inner loop of `square_mul`: add `temp`, shifted by `i` digits, into `result`.  `j`
is the loop variable and the first argument counts the iterations left before `j + i`
reaches the size of `result`. -/
def square_inner (temp : List Nat) (i : Nat) : Nat → Nat → List Nat → Nat → List Nat × Nat
  | 0, _, result, carry => (result, carry)
  | cnt + 1, j, result, carry =>
    if carry = 0 ∧ temp.length ≤ j then (result, carry)
    else
      let c := u64 (carry + result.getD (i + j) 0 + (if j < temp.length then temp.getD j 0 else 0))
      square_inner temp i cnt (j + 1) (result.set (i + j) (u32 c)) (c >>> BIT_DEPTH)

/-- The outer loop of `square_mul` over the digits of the right operand; the carry is
declared outside both loops and so is threaded through. -/
def square_outer (left : big_integer) : List Nat → Nat → List Nat → Nat → List Nat × Nat
  | [], _, result, carry => (result, carry)
  | rd :: rs, i, result, carry =>
    let temp := mul_by_uint32_t left rd
    let st := square_inner temp.data i (result.length - i) 0 result carry
    square_outer left rs (i + 1) st.1 st.2

/-- Source `square_mul`: schoolbook multiplication of the stored digits. -/
def square_mul (left right : big_integer) : big_integer :=
  let result := List.replicate (left.data.length + right.data.length) 0
  shrink_to_fit ⟨(square_outer left right.data 0 result 0).1, false⟩

/-- Source `copy`: the digits with index in `[l, r)`, not shrunk. -/
def copy (left : big_integer) (l r : Nat) : big_integer :=
  if l ≥ r then zero
  else ⟨(List.range' l (r - l)).map (fun i => left.data.getD i 0), false⟩

/-- Source `Karatsuba_mul`; the first argument bounds the depth of the recursion. -/
def Karatsuba_mul_fuel : Nat → big_integer → big_integer → Except Error big_integer
  | 0, _, _ => .error .out_of_fuel
  | fuel + 1, left, right =>
    if left.data.isEmpty ∨ right.data.isEmpty then .ok (from_int 0)
    else if left.data.length = 1 then .ok (mul_by_uint32_t right (left.data.getLastD 0))
    else if right.data.length = 1 then .ok (mul_by_uint32_t left (right.data.getLastD 0))
    else if left.data.length < 16 ∨ right.data.length < 16 then .ok (square_mul left right)
    else
      let n := max left.data.length right.data.length
      let ndiv2 := n / 2
      let left_l := copy left ndiv2 left.data.length
      let left_r := copy left 0 (min ndiv2 left.data.length)
      let right_l := copy right ndiv2 right.data.length
      let right_r := copy right 0 (min ndiv2 right.data.length)
      match Karatsuba_mul_fuel fuel left_l right_l with
      | .error e => .error e
      | .ok product_1 =>
        match Karatsuba_mul_fuel fuel left_r right_r with
        | .error e => .error e
        | .ok product_2 =>
          match Karatsuba_mul_fuel fuel (add left_l left_r) (add right_l right_r) with
          | .error e => .error e
          | .ok product_3 =>
            .ok (add (add (shift_left product_1 (BIT_DEPTH * 2 * ndiv2))
              (shift_left (subtract (subtract product_3 product_1) product_2)
                (BIT_DEPTH * ndiv2))) product_2)

/-- Source `Karatsuba_mul`, with a recursion bound that is never reached. -/
def Karatsuba_mul (left right : big_integer) : Except Error big_integer :=
  Karatsuba_mul_fuel (max left.data.length right.data.length + 1) left right

/-- Source `operator*=` (and `operator*`). -/
def multiply (a rhs : big_integer) : Except Error big_integer :=
  let left := abs a
  let right := abs rhs
  let result_sign := xor a.sign rhs.sign
  match Karatsuba_mul left right with
  | .error e => .error e
  | .ok result => .ok (if result_sign then negate result else result)

/-- A checked read `v[i]`: an index outside the vector (also one that wrapped around below
zero) is a fault. -/
def at_index (v : List Nat) (i : Int) : Except Error Nat :=
  if 0 ≤ i ∧ i < v.length then .ok (v.getD i.toNat 0) else .error .fault

/-- The quotient-digit loop of `operator/=`: the first argument is `k + 1` for the next
digit position `k`; `fill` is the fill word of the dividend. -/
def divide_loop (d : big_integer) (n m fill : Nat) :
    Nat → big_integer → List Nat → Except Error (List Nat)
  | 0, _, result => .ok result
  | k + 1, r, result =>
    let r : big_integer := ⟨resize r.data (m + n + 1) fill, r.sign⟩
    match at_index r.data (n + k), at_index r.data (n + k - 1), at_index r.data (n + k - 2),
      at_index d.data (n - 1), at_index d.data (n - 2) with
    | .ok r2, .ok r1, .ok r0, .ok d1, .ok d0 =>
      let dividend := (r2 * 2 ^ BIT_DEPTH + r1) * 2 ^ BIT_DEPTH + r0
      let divisor := u64 (u64 (d1 <<< BIT_DEPTH) + d0)
      if divisor = 0 then .error .fault
      else
        let qt := u32 (if dividend / divisor > BASE - 1 then BASE - 1 else dividend / divisor)
        let temp := mul_by_uint32_t d qt
        let dq : big_integer := ⟨List.replicate k 0 ++ temp.data, false⟩
        let lt := decide (comparator r dq < 0)
        let qt := if lt then u32 (qt + UINT32_MAX) else qt
        let dq := if lt then shift_left (mul_by_uint32_t d qt) (BIT_DEPTH * k) else dq
        divide_loop d n m fill k (subtract r dq) (result.set k qt)
    | _, _, _, _, _ => .error .fault

/-- Source `operator/=` (and `operator/`). -/
def divide (a rhs : big_integer) : Except Error big_integer :=
  if comparator rhs (from_int 0) = 0 then .error .division_by_zero
  else
    let result_sign := xor a.sign rhs.sign
    let rhs_abs := abs rhs
    let this_abs := abs a
    if comparator rhs_abs this_abs > 0 then .ok (from_int 0)
    else if rhs_abs.data.length = 1 then
      match div_by_uint32_t this_abs (rhs_abs.data.getLastD 0) with
      | .error e => .error e
      | .ok qr => .ok (if result_sign then negate qr.1 else qr.1)
    else
      let n := rhs_abs.data.length
      let m := this_abs.data.length
      match at_index rhs_abs.data (n - 1) with
      | .error e => .error e
      | .ok back =>
        let denominator := u64 (u32 (back + 1))
        if denominator = 0 then .error .fault
        else if m + 1 < n then .error .fault
        else
          let f := BASE / denominator
          let r := mul_by_uint32_t this_abs (u32 f)
          let d := mul_by_uint32_t rhs_abs (u32 f)
          let result := List.replicate (m + 1 - n) this_abs.empty_block
          match divide_loop d n m this_abs.empty_block (m + 1 - n) r result with
          | .error e => .error e
          | .ok digits =>
            let result : big_integer := ⟨digits, false⟩
            .ok (shrink_to_fit (if result_sign then negate result else result))

/-- The normalization factor of `operator/=` for a divisor whose last digit is `back`:
`BASE / static_cast<uint64_t>(back + 1)`, the sum being taken in 32 bits (the expression that
`divide` evaluates, see `divide_eq_of_long`). -/
def normalization_factor (back : Nat) : Except Error Nat :=
  let denominator := u64 (u32 (back + 1))
  if denominator = 0 then .error .fault else .ok (BASE / denominator)

/-- The estimate of a quotient digit in `operator/=`: the three digits `r2 r1 r0` of the
remainder divided by the two digits `d1 d0` of the divisor, at most `BASE - 1` (the
expression that `divide_loop` evaluates, see `divide_loop_succ`). -/
def trial_quotient (r2 r1 r0 d1 d0 : Nat) : Except Error Nat :=
  let dividend := (r2 * 2 ^ BIT_DEPTH + r1) * 2 ^ BIT_DEPTH + r0
  let divisor := u64 (u64 (d1 <<< BIT_DEPTH) + d0)
  if divisor = 0 then .error .fault
  else .ok (u32 (if dividend / divisor > BASE - 1 then BASE - 1 else dividend / divisor))

/-- One iteration of the quotient-digit loop of `operator/=`, for the digit position `k`:
the new remainder and the result vector with digit `k` stored (the body of `divide_loop`,
see `divide_loop_succ`). -/
def divide_step (d : big_integer) (n m fill k : Nat) (r : big_integer) (result : List Nat) :
    Except Error (big_integer × List Nat) :=
  let r : big_integer := ⟨resize r.data (m + n + 1) fill, r.sign⟩
  match at_index r.data (n + k), at_index r.data (n + k - 1), at_index r.data (n + k - 2),
    at_index d.data (n - 1), at_index d.data (n - 2) with
  | .ok r2, .ok r1, .ok r0, .ok d1, .ok d0 =>
    match trial_quotient r2 r1 r0 d1 d0 with
    | .error e => .error e
    | .ok qt =>
      let temp := mul_by_uint32_t d qt
      let dq : big_integer := ⟨List.replicate k 0 ++ temp.data, false⟩
      let lt := decide (comparator r dq < 0)
      let qt := if lt then u32 (qt + UINT32_MAX) else qt
      let dq := if lt then shift_left (mul_by_uint32_t d qt) (BIT_DEPTH * k) else dq
      .ok (subtract r dq, result.set k qt)
  | _, _, _, _, _ => .error .fault

/-- Source `operator%=` (and `operator%`): `a - (a / rhs) * rhs`. -/
def modulo (a rhs : big_integer) : Except Error big_integer :=
  match divide a rhs with
  | .error e => .error e
  | .ok q =>
    match multiply q rhs with
    | .error e => .error e
    | .ok p => .ok (subtract a p)

/-- The loop of the constructor from a decimal string; `i` is the index of the next
character. -/
def from_string_loop : List Char → Nat → big_integer → Except Error big_integer
  | [], _, acc => .ok acc
  | c :: cs, i, acc =>
    if (c = '+' ∨ c = '-') ∧ i = 0 then from_string_loop cs (i + 1) acc
    else if c.toNat < '0'.toNat ∨ '9'.toNat < c.toNat then .error .invalid_string
    else
      from_string_loop cs (i + 1)
        (add (mul_by_uint32_t acc 10) (from_int (u32 (c.toNat - '0'.toNat))))

/-- Source `big_integer(const std::string &)`. -/
def from_decimal_string (s : List Char) : Except Error big_integer :=
  match from_string_loop s 0 zero with
  | .error e => .error e
  | .ok r => .ok (shrink_to_fit (if s.head? = some '-' then negate r else r))

/-- The loop of `to_string`: while `x > 0`, push the last decimal digit of `x`.  The first
argument bounds the number of iterations. -/
def to_string_loop : Nat → big_integer → List Char → Except Error (List Char)
  | 0, _, _ => .error .out_of_fuel
  | fuel + 1, x, res =>
    if comparator x (from_int 0) > 0 then
      match div_by_uint32_t x 10 with
      | .error e => .error e
      | .ok div_mod_10 =>
        to_string_loop fuel div_mod_10.1 (res ++ [Char.ofNat (div_mod_10.2 + '0'.toNat)])
    else .ok res

/-- Source `to_string`; every digit yields at most ten decimal characters, which bounds the
loop. -/
def to_string (rhs : big_integer) : Except Error (List Char) :=
  if comparator rhs (from_int 0) = 0 then .ok ['0']
  else
    let x := abs rhs
    match to_string_loop (10 * x.data.length + 1) x [] with
    | .error e => .error e
    | .ok res => .ok (if rhs.sign then res ++ ['-'] else res).reverse

end big_integer

/-! ## The integer a value represents -/

/-- The natural number written by little-endian base-`2^32` digits. -/
def natVal : List Nat → Nat
  | [] => 0
  | d :: ds => d + 2 ^ 32 * natVal ds

/-- Every stored digit is a 32-bit word. -/
def digits_ok (l : List Nat) : Prop := ∀ d ∈ l, d < 2 ^ 32

instance (l : List Nat) : Decidable (digits_ok l) := by
  unfold digits_ok; infer_instance

namespace big_integer

/-- The integer represented: the stored digits extended for ever by the fill word, read in
two's complement.  With `n` stored digits this is the digit value, minus `2^(32 n)` when the
sign is set. -/
def toInt (x : big_integer) : Int :=
  (natVal x.data : Int) - (if x.sign then 2 ^ (32 * x.data.length) else 0)

/-- The digits with index `i .. i + n - 1` of the infinite sign-extended digit sequence of
`x` (an auxiliary view used in the proofs). -/
def ext (x : big_integer) (i n : Nat) : List Nat :=
  (List.range' i n).map (fun j => x.data.getD j x.empty_block)

/-- Well-formed values: all stored digits are 32-bit words. -/
def wf (x : big_integer) : Prop := digits_ok x.data

instance (x : big_integer) : Decidable (wf x) := by
  unfold wf; infer_instance

/-- Canonical form: the last stored digit, if any, differs from the fill word. -/
def canonical (x : big_integer) : Prop := x.data.getLast? ≠ some x.empty_block

instance (x : big_integer) : Decidable (canonical x) := by
  unfold canonical; infer_instance

/-- The form in which an operation leaves its result: well-formed, canonical, and with zero
stored as the empty digit vector with the sign flag cleared. -/
def normal_form (x : big_integer) : Prop :=
  wf x ∧ canonical x ∧ (toInt x = 0 → x.data = [] ∧ x.sign = false)

end big_integer

/-- The value of decimal digit characters, least significant first. -/
def lsbVal : List Char → Nat
  | [] => 0
  | c :: cs => (c.toNat - 48) + 10 * lsbVal cs

/-- A decimal digit character. -/
def is_digit (c : Char) : Prop := 48 ≤ c.toNat ∧ c.toNat ≤ 57

/-! ## Digit values -/


theorem natVal_nil : natVal [] = 0 := rfl

theorem natVal_cons (d : Nat) (ds : List Nat) : natVal (d :: ds) = d + 2 ^ 32 * natVal ds := rfl

theorem pow_succ_32 (n : Nat) : 2 ^ (32 * (n + 1)) = 2 ^ 32 * 2 ^ (32 * n) := by
  rw [show 32 * (n + 1) = 32 + 32 * n by ring, pow_add]

theorem natVal_append (l1 l2 : List Nat) :
    natVal (l1 ++ l2) = natVal l1 + 2 ^ (32 * l1.length) * natVal l2 := by
  induction l1 with
  | nil => simp [natVal_nil]
  | cons d ds ih =>
    rw [List.cons_append, natVal_cons, natVal_cons, ih, List.length_cons, pow_succ_32]
    ring

theorem natVal_lt (l : List Nat) (h : digits_ok l) : natVal l < 2 ^ (32 * l.length) := by
  induction l with
  | nil => simp [natVal_nil]
  | cons d ds ih =>
    have hd : d < 2 ^ 32 := h d (List.mem_cons_self _ _)
    have hds : natVal ds < 2 ^ (32 * ds.length) := ih (fun e he => h e (List.mem_cons_of_mem _ he))
    rw [natVal_cons, List.length_cons, pow_succ_32]
    have : 2 ^ 32 * (natVal ds + 1) ≤ 2 ^ 32 * 2 ^ (32 * ds.length) := Nat.mul_le_mul_left _ hds
    omega

theorem natVal_replicate_zero (n : Nat) : natVal (List.replicate n 0) = 0 := by
  induction n with
  | zero => rfl
  | succ n ih => rw [List.replicate_succ, natVal_cons, ih]; rfl

theorem natVal_replicate_max (n : Nat) :
    natVal (List.replicate n UINT32_MAX) + 1 = 2 ^ (32 * n) := by
  induction n with
  | zero => rfl
  | succ n ih =>
    rw [List.replicate_succ, natVal_cons, pow_succ_32, ← ih, UINT32_MAX]
    omega

theorem digits_ok_append {l1 l2 : List Nat} :
    digits_ok (l1 ++ l2) ↔ digits_ok l1 ∧ digits_ok l2 := by
  simp only [digits_ok, List.mem_append]
  constructor
  · intro h
    exact ⟨fun d hd => h d (Or.inl hd), fun d hd => h d (Or.inr hd)⟩
  · rintro ⟨h1, h2⟩ d (hd | hd)
    · exact h1 d hd
    · exact h2 d hd

theorem digits_ok_cons {d : Nat} {ds : List Nat} :
    digits_ok (d :: ds) ↔ d < 2 ^ 32 ∧ digits_ok ds := by
  simp [digits_ok]

theorem digits_ok_replicate {n v : Nat} (hv : v < 2 ^ 32) : digits_ok (List.replicate n v) := by
  intro d hd
  rw [List.eq_of_mem_replicate hd]; exact hv

theorem digits_ok_take {l : List Nat} (n : Nat) (h : digits_ok l) : digits_ok (l.take n) :=
  fun d hd => h d (List.mem_of_mem_take hd)

theorem digits_ok_drop {l : List Nat} (n : Nat) (h : digits_ok l) : digits_ok (l.drop n) :=
  fun d hd => h d (List.mem_of_mem_drop hd)

theorem resize_length (l : List Nat) (n v : Nat) : (resize l n v).length = n := by
  simp only [resize, List.length_append, List.length_take, List.length_replicate]
  omega

theorem resize_of_le {l : List Nat} {n : Nat} (v : Nat) (h : l.length ≤ n) :
    resize l n v = l ++ List.replicate (n - l.length) v := by
  rw [resize, List.take_of_length_le h]

theorem digits_ok_resize {l : List Nat} (n : Nat) {v : Nat} (h : digits_ok l) (hv : v < 2 ^ 32) :
    digits_ok (resize l n v) :=
  digits_ok_append.2 ⟨digits_ok_take n h, digits_ok_replicate hv⟩

theorem rdropWhile_eq_append (v : Nat) (l : List Nat) :
    ∃ k, l = l.rdropWhile (fun d => d == v) ++ List.replicate k v := by
  induction l using List.reverseRecOn with
  | nil => exact ⟨0, by simp⟩
  | append_singleton l a ih =>
    by_cases h : a = v
    · obtain ⟨k, hk⟩ := ih
      refine ⟨k + 1, ?_⟩
      rw [List.rdropWhile_concat_pos _ _ _ (by simp [h])]
      rw [List.replicate_succ', ← List.append_assoc, ← hk, h]
    · refine ⟨0, ?_⟩
      rw [List.rdropWhile_concat_neg _ _ _ (by simp [h])]
      simp

theorem rdropWhile_getLast (v : Nat) (l : List Nat) :
    (l.rdropWhile (fun d => d == v)).getLast? ≠ some v := by
  induction l using List.reverseRecOn with
  | nil => simp
  | append_singleton l a ih =>
    by_cases h : a = v
    · rw [List.rdropWhile_concat_pos _ _ _ (by simp [h])]; exact ih
    · rw [List.rdropWhile_concat_neg _ _ _ (by simp [h])]
      simp [h]

theorem rdropWhile_of_getLast {v : Nat} {l : List Nat} (h : l.getLast? ≠ some v) :
    l.rdropWhile (fun d => d == v) = l := by
  induction l using List.reverseRecOn with
  | nil => simp
  | append_singleton l a _ =>
    have : a ≠ v := by simpa using h
    rw [List.rdropWhile_concat_neg _ _ _ (by simp [this])]

namespace big_integer

theorem empty_block_lt (x : big_integer) : x.empty_block < 2 ^ 32 := by
  unfold empty_block UINT32_MAX; split <;> omega

theorem toInt_append_fill (l : List Nat) (s : Bool) (k : Nat) :
    toInt ⟨l ++ List.replicate k (empty_block ⟨l, s⟩), s⟩ = toInt ⟨l, s⟩ := by
  cases s with
  | false =>
    simp [toInt, empty_block, natVal_append, natVal_replicate_zero]
  | true =>
    have h := natVal_replicate_max k
    simp only [toInt, empty_block, natVal_append, if_true, List.length_append,
      List.length_replicate]
    have h2 : (natVal (List.replicate k UINT32_MAX) : Int) = 2 ^ (32 * k) - 1 := by
      have : ((natVal (List.replicate k UINT32_MAX) + 1 : Nat) : Int) = ((2 ^ (32 * k) : Nat) : Int) := by
        rw [h]
      push_cast at this; linarith
    push_cast
    rw [h2, show 32 * (l.length + k) = 32 * l.length + 32 * k by ring, pow_add]
    ring

theorem shrink_to_fit_sign (x : big_integer) : (shrink_to_fit x).sign = x.sign := rfl

theorem toInt_shrink_to_fit (x : big_integer) : toInt (shrink_to_fit x) = toInt x := by
  obtain ⟨k, hk⟩ := rdropWhile_eq_append x.empty_block x.data
  have h := toInt_append_fill (x.data.rdropWhile (fun d => d == x.empty_block)) x.sign k
  have e : empty_block ⟨x.data.rdropWhile (fun d => d == x.empty_block), x.sign⟩ = x.empty_block := rfl
  rw [e, ← hk] at h
  exact h.symm

theorem wf_shrink_to_fit {x : big_integer} (h : wf x) : wf (shrink_to_fit x) := by
  intro d hd
  exact h d ((List.rdropWhile_prefix _ _).subset hd)

theorem canonical_shrink_to_fit (x : big_integer) : canonical (shrink_to_fit x) :=
  rdropWhile_getLast x.empty_block x.data

theorem shrink_to_fit_of_canonical {x : big_integer} (h : canonical x) : shrink_to_fit x = x := by
  unfold shrink_to_fit
  rw [rdropWhile_of_getLast h]

theorem length_shrink_to_fit_le (x : big_integer) :
    (shrink_to_fit x).data.length ≤ x.data.length :=
  (List.rdropWhile_prefix _ _).length_le

theorem toInt_resize (x : big_integer) {n : Nat} (h : x.data.length ≤ n) :
    toInt ⟨resize x.data n x.empty_block, x.sign⟩ = toInt x := by
  rw [resize_of_le _ h]
  exact toInt_append_fill x.data x.sign _

/-- The sign flag of a well-formed value tells whether the integer is negative. -/
theorem toInt_bounds {x : big_integer} (h : wf x) :
    (x.sign = false → 0 ≤ toInt x ∧ toInt x < 2 ^ (32 * x.data.length)) ∧
    (x.sign = true → -(2 ^ (32 * x.data.length)) ≤ toInt x ∧ toInt x < 0) := by
  have hlt : (natVal x.data : Int) < 2 ^ (32 * x.data.length) := by
    exact_mod_cast natVal_lt x.data h
  have h0 : (0 : Int) ≤ natVal x.data := Int.natCast_nonneg _
  constructor
  · intro hs
    simp only [toInt, hs]
    constructor <;> simp [h0, hlt]
  · intro hs
    simp only [toInt, hs, if_true]
    constructor <;> linarith

theorem sign_iff_neg {x : big_integer} (h : wf x) : x.sign = true ↔ toInt x < 0 := by
  have hb := toInt_bounds h
  constructor
  · intro hs; exact (hb.2 hs).2
  · intro hn
    by_contra hs
    have := (hb.1 (by simpa using hs)).1
    omega

end big_integer

/-! ## Addition, complement and negation -/

theorem u32_lt (x : Nat) : u32 x < 2 ^ 32 := Nat.mod_lt _ (by norm_num)

theorem u32_of_lt {x : Nat} (h : x < 2 ^ 32) : u32 x = x := Nat.mod_eq_of_lt h

theorem u64_of_lt {x : Nat} (h : x < 2 ^ 64) : u64 x = x := Nat.mod_eq_of_lt h

theorem getD_lt_of_digits_ok {l : List Nat} (h : digits_ok l) (i : Nat) {v : Nat}
    (hv : v < 2 ^ 32) : l.getD i v < 2 ^ 32 := by
  rw [List.getD_eq_getElem?_getD]
  cases hg : l[i]? with
  | none => simpa using hv
  | some d => exact h d (List.getElem?_mem hg)

theorem mod_step (x y M : Nat) :
    x % 2 ^ 32 + 2 ^ 32 * ((y + x / 2 ^ 32) % M) = (x + 2 ^ 32 * y) % (2 ^ 32 * M) := by
  rw [Nat.mod_mul, Nat.add_mul_mod_self_left, Nat.add_mul_div_left _ _ (by norm_num : 0 < 2 ^ 32),
    Nat.add_comm y]

namespace big_integer

theorem ext_succ (x : big_integer) (i n : Nat) :
    ext x i (n + 1) = x.data.getD i x.empty_block :: ext x (i + 1) n := by
  simp [ext, List.range'_succ]

theorem ext_length (x : big_integer) (i n : Nat) : (ext x i n).length = n := by
  simp [ext]

theorem digits_ok_ext {x : big_integer} (h : wf x) (i n : Nat) : digits_ok (ext x i n) := by
  intro d hd
  simp only [ext, List.mem_map] at hd
  obtain ⟨j, _, rfl⟩ := hd
  exact getD_lt_of_digits_ok h j (empty_block_lt x)

theorem ext_eq_resize (x : big_integer) (n : Nat) :
    ext x 0 n = resize x.data n x.empty_block := by
  apply List.ext_getElem
  · rw [ext_length, resize_length]
  · intro j h1 h2
    rw [ext_length] at h1
    simp only [ext, resize, List.getElem_map, List.getElem_range', List.getElem_append,
      List.length_take, List.getElem_take, List.getElem_replicate]
    by_cases hj : j < x.data.length
    · have : j < min n x.data.length := by omega
      simp [this, List.getD_eq_getElem?_getD, hj]
    · have : ¬ j < min n x.data.length := by omega
      simp [this, List.getD_eq_getElem?_getD, List.getElem?_eq_none (Nat.le_of_not_lt hj)]

/-- The digits of the sign extension are the integer modulo `2^(32 n)`. -/
theorem natVal_ext (x : big_integer) {n : Nat} (h : x.data.length ≤ n) :
    (natVal (ext x 0 n) : Int) = toInt x + (if x.sign then 2 ^ (32 * n) else 0) := by
  have h1 := toInt_resize x h
  rw [ext_eq_resize]
  rw [← h1]
  simp only [toInt, resize_length]
  ring

theorem add_loop_length (rhs : big_integer) (ds : List Nat) (i c : Nat) :
    (add_loop rhs ds i c).length = ds.length := by
  induction ds generalizing i c with
  | nil => rfl
  | cons d ds ih => simp [add_loop, ih]

theorem digits_ok_add_loop (rhs : big_integer) (ds : List Nat) (i c : Nat) :
    digits_ok (add_loop rhs ds i c) := by
  induction ds generalizing i c with
  | nil => intro d hd; simp [add_loop] at hd
  | cons d ds ih =>
    rw [add_loop]
    exact digits_ok_cons.2 ⟨u32_lt _, ih _ _⟩

theorem natVal_add_loop {rhs : big_integer} (hr : wf rhs) (ds : List Nat) (hd : digits_ok ds)
    (i c : Nat) (hc : c ≤ 1) :
    natVal (add_loop rhs ds i c) =
      (natVal ds + natVal (ext rhs i ds.length) + c) % 2 ^ (32 * ds.length) := by
  induction ds generalizing i c with
  | nil => simp [add_loop, natVal_nil, Nat.mod_one]
  | cons d ds ih =>
    have hd1 : d < 2 ^ 32 := (digits_ok_cons.1 hd).1
    have he : rhs.data.getD i rhs.empty_block < 2 ^ 32 :=
      getD_lt_of_digits_ok hr i (empty_block_lt rhs)
    have hs : u64 (c + d + rhs.data.getD i rhs.empty_block) = c + d + rhs.data.getD i rhs.empty_block :=
      u64_of_lt (by omega)
    have hc2 : (c + d + rhs.data.getD i rhs.empty_block) / 2 ^ 32 ≤ 1 := by omega
    rw [add_loop, List.length_cons, ext_succ]
    simp only [natVal_cons]
    rw [hs, BIT_DEPTH, Nat.shiftRight_eq_div_pow, ih (digits_ok_cons.1 hd).2 _ _ hc2,
      pow_succ_32, u32]
    rw [show natVal ds + natVal (ext rhs (i + 1) ds.length) +
        (c + d + rhs.data.getD i rhs.empty_block) / 2 ^ 32 =
        (natVal ds + natVal (ext rhs (i + 1) ds.length)) +
        (c + d + rhs.data.getD i rhs.empty_block) / 2 ^ 32 by ring, mod_step]
    congr 1
    ring

end big_integer

theorem pow_succ_32_int (n : Nat) : (2 : Int) ^ (32 * (n + 1)) = 2 ^ 32 * 2 ^ (32 * n) := by
  rw [show 32 * (n + 1) = 32 + 32 * n by ring, pow_add]

namespace big_integer

theorem set_sign_data (x : big_integer) : (set_sign x).data = x.data := rfl

/-- Two's-complement decoding: if `n + 1` digits hold `z` modulo `2^(32 (n + 1))` and `z`
fits in that many digits with its sign bit, then `set_sign` recovers `z`. -/
theorem toInt_set_sign {ds : List Nat} {n : Nat} (s : Bool) (z : Int)
    (hlen : ds.length = n + 1) (hok : digits_ok ds)
    (hlo : -(2 ^ 31 * 2 ^ (32 * n)) ≤ z) (hhi : z < 2 ^ 31 * 2 ^ (32 * n))
    (hval : (natVal ds : Int) = z % (2 ^ 32 * 2 ^ (32 * n))) :
    toInt (set_sign ⟨ds, s⟩) = z := by
  have hne : ds ≠ [] := by intro h; rw [h] at hlen; simp at hlen
  obtain ⟨init, top, rfl⟩ : ∃ init top, ds = init ++ [top] :=
    ⟨ds.dropLast, ds.getLast hne, (List.dropLast_append_getLast hne).symm⟩
  have hil : init.length = n := by simpa using hlen
  have hok' := digits_ok_append.1 hok
  have htop : top < 2 ^ 32 := hok'.2 top (List.mem_singleton_self _)
  have hinit : natVal init < 2 ^ (32 * n) := hil ▸ natVal_lt init hok'.1
  have hnv : natVal (init ++ [top]) = natVal init + 2 ^ (32 * n) * top := by
    rw [natVal_append, hil, natVal_cons, natVal_nil]; ring
  have hP : (0 : Int) < 2 ^ (32 * n) := by positivity
  generalize hPdef : (2 : Int) ^ (32 * n) = P at *
  have hinit' : (natVal init : Int) < P := by rw [← hPdef]; exact_mod_cast hinit
  have hnv' : (natVal (init ++ [top]) : Int) = natVal init + P * top := by
    rw [hnv, ← hPdef]; push_cast; ring
  have h0 : (0 : Int) ≤ natVal init := Int.natCast_nonneg _
  have htop' : (top : Int) < 2 ^ 32 := by exact_mod_cast htop
  have hlast : (init ++ [top]).getLastD 0 = top := by simp
  simp only [toInt, set_sign, hlast, Nat.shiftRight_eq_div_pow, List.length_append,
    List.length_singleton, hil, pow_succ_32_int]
  rw [hPdef, hnv']
  rw [hnv'] at hval
  by_cases hz : 0 ≤ z
  · rw [Int.emod_eq_of_lt hz (by nlinarith)] at hval
    have ht : top < 2 ^ 31 := by
      by_contra hc
      have : (2 : Int) ^ 31 ≤ top := by exact_mod_cast Nat.le_of_not_lt hc
      nlinarith
    have : top / 2147483648 = 0 := Nat.div_eq_of_lt ht
    simp [this, hval]
  · have hz' : z < 0 := by omega
    have hmod : z % (2 ^ 32 * P) = z + 2 ^ 32 * P := by
      rw [← Int.add_mul_emod_self_left z (2 ^ 32 * P) 1, mul_one]
      exact Int.emod_eq_of_lt (by nlinarith) (by nlinarith)
    rw [hmod] at hval
    have ht : 2 ^ 31 ≤ top := by
      by_contra hc
      have : (top : Int) + 1 ≤ 2 ^ 31 := by exact_mod_cast Nat.lt_of_not_le hc
      nlinarith
    have : top / 2147483648 ≠ 0 := by omega
    simp only [Nat.reducePow, this, ne_eq, not_false_eq_true, decide_True, if_true]
    linarith

theorem wf_add (a rhs : big_integer) : wf (add a rhs) :=
  wf_shrink_to_fit (digits_ok_add_loop _ _ _ _)

theorem canonical_add (a rhs : big_integer) : canonical (add a rhs) :=
  canonical_shrink_to_fit _

theorem length_add_le (a rhs : big_integer) :
    (add a rhs).data.length ≤ max a.data.length rhs.data.length + 1 := by
  refine le_trans (length_shrink_to_fit_le _) ?_
  simp [set_sign_data, add_loop_length, resize_length]

theorem pow_le_pow_32 {m n : Nat} (h : m ≤ n) : (2 : Int) ^ (32 * m) ≤ 2 ^ (32 * n) :=
  pow_le_pow_right₀ (by norm_num) (by omega)

theorem toInt_abs_le {x : big_integer} (h : wf x) {n : Nat} (hn : x.data.length ≤ n) :
    -(2 ^ (32 * n)) ≤ toInt x ∧ toInt x < 2 ^ (32 * n) := by
  have hb := toInt_bounds h
  have hp := pow_le_pow_32 hn
  have hp0 : (0 : Int) < 2 ^ (32 * x.data.length) := by positivity
  cases hs : x.sign with
  | false => have := hb.1 hs; constructor <;> linarith
  | true => have := hb.2 hs; constructor <;> linarith

/-- `operator+=` computes the integer sum. -/
theorem toInt_add {a rhs : big_integer} (ha : wf a) (hr : wf rhs) :
    toInt (add a rhs) = toInt a + toInt rhs := by
  unfold add
  rw [toInt_shrink_to_fit]
  have hla0 : a.data.length ≤ max a.data.length rhs.data.length := le_max_left _ _
  have hlr0 : rhs.data.length ≤ max a.data.length rhs.data.length := le_max_right _ _
  generalize max a.data.length rhs.data.length = n at *
  have hla : a.data.length ≤ n + 1 := by omega
  have hlr : rhs.data.length ≤ n + 1 := by omega
  have hA := toInt_abs_le ha hla0
  have hB := toInt_abs_le hr hlr0
  have hP : (0 : Int) < 2 ^ (32 * n) := by positivity
  apply toInt_set_sign (n := n)
  · rw [add_loop_length, resize_length]
  · exact digits_ok_add_loop _ _ _ _
  · nlinarith
  · nlinarith
  · rw [natVal_add_loop hr _ (digits_ok_resize _ ha (empty_block_lt a)) 0 0 (by omega),
      resize_length, ← ext_eq_resize]
    push_cast
    rw [natVal_ext a hla, natVal_ext rhs hlr, pow_succ_32_int]
    have e : ∀ (u v : Bool) (M x y : Int), (x + (if u then M else 0) + (y + (if v then M else 0)) + 0) % M
        = (x + y) % M := by
      intro u v M x y
      cases u <;> cases v <;> simp only [if_true, if_false, Bool.false_eq_true]
      · rw [show x + 0 + (y + 0) + 0 = x + y by ring]
      · rw [show x + 0 + (y + M) + 0 = x + y + M * 1 by ring, Int.add_mul_emod_self_left]
      · rw [show x + M + (y + 0) + 0 = x + y + M * 1 by ring, Int.add_mul_emod_self_left]
      · rw [show x + M + (y + M) + 0 = x + y + M * 2 by ring, Int.add_mul_emod_self_left]
    exact e _ _ _ _ _

end big_integer

theorem natVal_complement (l : List Nat) (h : digits_ok l) :
    natVal (l.map (fun d => UINT32_MAX - d)) + natVal l + 1 = 2 ^ (32 * l.length) := by
  induction l with
  | nil => rfl
  | cons d ds ih =>
    have hd : d < 2 ^ 32 := (digits_ok_cons.1 h).1
    have := ih (digits_ok_cons.1 h).2
    rw [List.map_cons, List.length_cons, pow_succ_32, ← this]
    simp only [natVal_cons, UINT32_MAX]
    omega

namespace big_integer

theorem wf_bitwise_not (x : big_integer) : wf (bitwise_not x) := by
  apply wf_shrink_to_fit
  intro d hd
  simp only [List.mem_map] at hd
  obtain ⟨e, _, rfl⟩ := hd
  simp only [UINT32_MAX]; omega

/-- `operator~` computes `-x - 1`. -/
theorem toInt_bitwise_not {x : big_integer} (h : wf x) :
    toInt (bitwise_not x) = -toInt x - 1 := by
  unfold bitwise_not
  rw [toInt_shrink_to_fit]
  have hc : ((natVal (x.data.map (fun d => UINT32_MAX - d)) + natVal x.data + 1 : Nat) : Int)
      = ((2 ^ (32 * x.data.length) : Nat) : Int) := by rw [natVal_complement _ h]
  push_cast at hc
  cases hs : x.sign <;> simp only [toInt, hs, List.length_map, Bool.not_true, Bool.not_false,
    if_true, if_false, Bool.false_eq_true] <;> linarith

theorem wf_from_int (a : Int) : wf (from_int a) := by
  apply wf_shrink_to_fit
  intro d hd
  simp only [List.mem_singleton] at hd
  rw [hd]
  have := Int.emod_lt_of_pos a (by norm_num : (0 : Int) < 2 ^ 32)
  have := Int.emod_nonneg a (by norm_num : (2 : Int) ^ 32 ≠ 0)
  omega

/-- `big_integer(int a)` represents `a`. -/
theorem toInt_from_int {a : Int} (hlo : -(2 ^ 32) ≤ a) (hhi : a < 2 ^ 32) :
    toInt (from_int a) = a := by
  unfold from_int
  rw [toInt_shrink_to_fit]
  simp only [toInt, natVal_cons, natVal_nil, List.length_singleton]
  by_cases h : a < 0
  · simp only [h, decide_True, if_true]
    omega
  · simp only [h, decide_False, if_false, Bool.false_eq_true]
    omega

theorem wf_negate (x : big_integer) : wf (negate x) := wf_add _ _

/-- Unary `operator-` computes `-x`. -/
theorem toInt_negate {x : big_integer} (h : wf x) : toInt (negate x) = -toInt x := by
  unfold negate
  rw [toInt_add (wf_bitwise_not x) (wf_from_int 1), toInt_bitwise_not h,
    toInt_from_int (by norm_num) (by norm_num)]
  ring

theorem wf_subtract (a rhs : big_integer) : wf (subtract a rhs) := wf_add _ _

/-- `operator-=` computes the integer difference. -/
theorem toInt_subtract {a rhs : big_integer} (ha : wf a) (hr : wf rhs) :
    toInt (subtract a rhs) = toInt a - toInt rhs := by
  unfold subtract
  rw [toInt_add ha (wf_negate rhs), toInt_negate hr]
  ring

theorem wf_abs {a : big_integer} (h : wf a) : wf (abs a) := by
  unfold abs; split
  · exact wf_negate a
  · exact h

/-- `abs` computes the absolute value. -/
theorem toInt_abs {a : big_integer} (h : wf a) : toInt (abs a) = |toInt a| := by
  unfold abs
  have hb := toInt_bounds h
  cases hs : a.sign with
  | true =>
    simp only [if_true]
    rw [toInt_negate h, abs_of_neg (hb.2 hs).2]
  | false =>
    simp only [Bool.false_eq_true, if_false]
    rw [abs_of_nonneg (hb.1 hs).1]

theorem abs_sign {a : big_integer} (h : wf a) : (abs a).sign = false := by
  have h1 := toInt_abs h
  have h2 := sign_iff_neg (wf_abs h)
  have h3 : ¬ toInt (abs a) < 0 := by rw [h1]; exact not_lt.2 (abs_nonneg _)
  cases hs : (abs a).sign with
  | false => rfl
  | true => exact absurd (h2.1 hs) h3

end big_integer

/-! ## Comparison -/

namespace big_integer

theorem ext_succ_right (x : big_integer) (n : Nat) :
    ext x 0 (n + 1) = ext x 0 n ++ [x.data.getD n x.empty_block] := by
  simp [ext, List.range'_concat]

theorem natVal_ext_succ (x : big_integer) (n : Nat) :
    natVal (ext x 0 (n + 1)) =
      natVal (ext x 0 n) + 2 ^ (32 * n) * x.data.getD n x.empty_block := by
  rw [ext_succ_right, natVal_append, ext_length, natVal_cons, natVal_nil]; ring

/-- The loop of `comparator` orders the sign-extended digit sequences as numbers. -/
theorem comparator_loop_spec {a b : big_integer} (ha : wf a) (hb : wf b) (k : Nat) :
    (natVal (ext a 0 (k + 1)) < natVal (ext b 0 (k + 1)) → comparator_loop a b k = -1) ∧
    (natVal (ext a 0 (k + 1)) = natVal (ext b 0 (k + 1)) → comparator_loop a b k = 0) ∧
    (natVal (ext b 0 (k + 1)) < natVal (ext a 0 (k + 1)) → comparator_loop a b k = 1) := by
  induction k with
  | zero =>
    rw [natVal_ext_succ a 0, natVal_ext_succ b 0]
    simp only [ext, List.range'_zero, List.map_nil, natVal_nil, comparator_loop, Nat.mul_zero,
      pow_zero, one_mul, zero_add]
    refine ⟨fun h => ?_, fun h => ?_, fun h => ?_⟩
    · rw [if_pos (by omega), if_neg (by omega)]
    · rw [if_neg (by omega)]
    · rw [if_pos (by omega), if_pos (by omega)]
  | succ k ih =>
    have hA := natVal_lt _ (digits_ok_ext ha 0 (k + 1))
    have hB := natVal_lt _ (digits_ok_ext hb 0 (k + 1))
    rw [ext_length] at hA hB
    rw [natVal_ext_succ a (k + 1), natVal_ext_succ b (k + 1)]
    generalize natVal (ext a 0 (k + 1)) = A at *
    generalize natVal (ext b 0 (k + 1)) = B at *
    generalize (2 : Nat) ^ (32 * (k + 1)) = P at *
    rw [comparator_loop]
    generalize a.data.getD (k + 1) a.empty_block = da at *
    generalize b.data.getD (k + 1) b.empty_block = db at *
    by_cases hne : da = db
    · subst hne
      rw [if_neg (by simp)]
      refine ⟨fun h => ih.1 (by omega), fun h => ih.2.1 (by omega), fun h => ih.2.2 (by omega)⟩
    · rw [if_pos hne]
      rcases Nat.lt_or_gt_of_ne hne with hlt | hgt
      · have h1 : P * (da + 1) ≤ P * db := Nat.mul_le_mul_left _ hlt
        rw [if_neg (by omega)]
        refine ⟨fun _ => rfl, fun h => ?_, fun h => ?_⟩
        · rw [Nat.mul_add] at h1; omega
        · rw [Nat.mul_add] at h1; omega
      · have h1 : P * (db + 1) ≤ P * da := Nat.mul_le_mul_left _ hgt
        rw [if_pos hgt]
        refine ⟨fun h => ?_, fun h => ?_, fun _ => rfl⟩
        · rw [Nat.mul_add] at h1; omega
        · rw [Nat.mul_add] at h1; omega

/-- `comparator` returns `-1`, `0` or `1` as the represented integers compare. -/
theorem comparator_spec {a b : big_integer} (ha : wf a) (hb : wf b) :
    (toInt a < toInt b → comparator a b = -1) ∧
    (toInt a = toInt b → comparator a b = 0) ∧
    (toInt b < toInt a → comparator a b = 1) := by
  have hba := toInt_bounds ha
  have hbb := toInt_bounds hb
  unfold comparator
  cases hsa : a.sign <;> cases hsb : b.sign
  · have h := comparator_loop_spec ha hb (max a.data.length b.data.length)
    have e1 := natVal_ext a (n := max a.data.length b.data.length + 1)
      (by have := le_max_left a.data.length b.data.length; omega)
    have e2 := natVal_ext b (n := max a.data.length b.data.length + 1)
      (by have := le_max_right a.data.length b.data.length; omega)
    simp only [hsa, hsb, Bool.false_eq_true, if_false, add_zero] at e1 e2
    simp only [ne_eq, not_true_eq_false, if_false]
    refine ⟨fun h1 => h.1 ?_, fun h1 => h.2.1 ?_, fun h1 => h.2.2 ?_⟩ <;> omega
  · have h1 := (hba.1 hsa).1
    have h2 := (hbb.2 hsb).2
    simp only [ne_eq, Bool.false_eq_true, not_false_eq_true, if_true, if_false]
    refine ⟨fun h => ?_, fun h => ?_, fun _ => trivial⟩ <;> omega
  · have h1 := (hba.2 hsa).2
    have h2 := (hbb.1 hsb).1
    simp only [ne_eq, Bool.true_eq_false, not_false_eq_true, if_true]
    refine ⟨fun _ => trivial, fun h => ?_, fun h => ?_⟩ <;> omega
  · have h := comparator_loop_spec ha hb (max a.data.length b.data.length)
    have e1 := natVal_ext a (n := max a.data.length b.data.length + 1)
      (by have := le_max_left a.data.length b.data.length; omega)
    have e2 := natVal_ext b (n := max a.data.length b.data.length + 1)
      (by have := le_max_right a.data.length b.data.length; omega)
    simp only [hsa, hsb, if_true] at e1 e2
    simp only [ne_eq, not_true_eq_false, if_false]
    refine ⟨fun h1 => h.1 ?_, fun h1 => h.2.1 ?_, fun h1 => h.2.2 ?_⟩ <;> omega

theorem comparator_lt_iff {a b : big_integer} (ha : wf a) (hb : wf b) :
    comparator a b < 0 ↔ toInt a < toInt b := by
  have h := comparator_spec ha hb
  rcases lt_trichotomy (toInt a) (toInt b) with h1 | h1 | h1
  · simp [h.1 h1, h1]
  · simp [h.2.1 h1, h1]
  · simp [h.2.2 h1, h1, not_lt.2 h1.le]

theorem comparator_eq_iff {a b : big_integer} (ha : wf a) (hb : wf b) :
    comparator a b = 0 ↔ toInt a = toInt b := by
  have h := comparator_spec ha hb
  rcases lt_trichotomy (toInt a) (toInt b) with h1 | h1 | h1
  · simp [h.1 h1, h1.ne]
  · simp [h.2.1 h1, h1]
  · simp [h.2.2 h1, h1.ne']

theorem comparator_gt_iff {a b : big_integer} (ha : wf a) (hb : wf b) :
    comparator a b > 0 ↔ toInt b < toInt a := by
  have h := comparator_spec ha hb
  rcases lt_trichotomy (toInt a) (toInt b) with h1 | h1 | h1
  · simp [h.1 h1, h1, not_lt.2 h1.le]
  · simp [h.2.1 h1, h1]
  · simp [h.2.2 h1, h1]

end big_integer

/-! ## Uniqueness of the canonical form -/

theorem natVal_inj {l1 l2 : List Nat} (h1 : digits_ok l1) (h2 : digits_ok l2)
    (hl : l1.length = l2.length) (hv : natVal l1 = natVal l2) : l1 = l2 := by
  induction l1 generalizing l2 with
  | nil =>
    cases l2 with
    | nil => rfl
    | cons e es => simp at hl
  | cons d ds ih =>
    cases l2 with
    | nil => simp at hl
    | cons e es =>
      have hd := (digits_ok_cons.1 h1).1
      have he := (digits_ok_cons.1 h2).1
      simp only [natVal_cons] at hv
      have hde : d = e := by omega
      have hrest : natVal ds = natVal es := by omega
      rw [hde, ih (digits_ok_cons.1 h1).2 (digits_ok_cons.1 h2).2 (by simpa using hl) hrest]

namespace big_integer

theorem ext_self (x : big_integer) : ext x 0 x.data.length = x.data := by
  rw [ext_eq_resize, resize_of_le _ (le_refl _)]; simp

theorem data_eq_of_le {a b : big_integer} (ha : wf a) (hb : wf b) (hcb : canonical b)
    (hs : a.sign = b.sign) (hv : toInt a = toInt b) (hl : a.data.length ≤ b.data.length) :
    a.data = b.data := by
  have e1 := natVal_ext a hl
  have e2 := natVal_ext b (le_refl _)
  rw [hs, hv, ← e2, ext_self] at e1
  have hnv : natVal (ext a 0 b.data.length) = natVal b.data := by exact_mod_cast e1
  have hd := natVal_inj (digits_ok_ext ha 0 _) hb (ext_length _ _ _) hnv
  rw [ext_eq_resize, resize_of_le _ hl] at hd
  by_cases hlt : a.data.length < b.data.length
  · exfalso
    apply hcb
    rw [← hd]
    obtain ⟨k, hk⟩ : ∃ k, b.data.length - a.data.length = k + 1 := ⟨_, (Nat.succ_pred_eq_of_pos (by omega)).symm⟩
    rw [hk, List.replicate_succ', ← List.append_assoc, List.getLast?_append]
    simp [empty_block, hs]
  · have : b.data.length - a.data.length = 0 := by omega
    rw [this] at hd
    simpa using hd

/-- Two well-formed canonical values that represent the same integer are identical. -/
theorem eq_of_toInt_eq {a b : big_integer} (ha : wf a) (hb : wf b) (hca : canonical a)
    (hcb : canonical b) (hv : toInt a = toInt b) : a = b := by
  have hs : a.sign = b.sign := by
    have h1 := sign_iff_neg ha
    have h2 := sign_iff_neg hb
    rw [hv] at h1
    cases hsa : a.sign <;> cases hsb : b.sign <;> simp_all
    omega
  have hd : a.data = b.data := by
    rcases le_total a.data.length b.data.length with h | h
    · exact data_eq_of_le ha hb hcb hs hv h
    · exact (data_eq_of_le hb ha hca hs.symm hv.symm h).symm
  cases a; cases b; simp_all

end big_integer

/-! ## The bits of a value -/

theorem natVal_testBit (l : List Nat) (h : digits_ok l) (k : Nat) :
    (natVal l).testBit k = (l.getD (k / 32) 0).testBit (k % 32) := by
  induction l generalizing k with
  | nil => simp [natVal_nil]
  | cons d ds ih =>
    have hd := (digits_ok_cons.1 h).1
    rw [natVal_cons, Nat.add_comm, Nat.testBit_mul_pow_two_add _ hd]
    by_cases hk : k < 32
    · rw [if_pos hk, Nat.div_eq_of_lt hk, Nat.mod_eq_of_lt hk]; rfl
    · rw [if_neg hk, ih (digits_ok_cons.1 h).2]
      obtain ⟨q, hq⟩ : ∃ q, k / 32 = q + 1 := ⟨k / 32 - 1, by omega⟩
      have h1 : (k - 32) / 32 = q := by omega
      have h2 : (k - 32) % 32 = k % 32 := by omega
      rw [hq, h1, h2]; rfl

theorem Int.eq_of_testBit_eq {m n : Int} (h : ∀ k, m.testBit k = n.testBit k) : m = n := by
  have key : ∀ a b : Nat, ∃ k, a.testBit k = false ∧ b.testBit k = false := by
    intro a b
    refine ⟨a + b, Nat.testBit_lt_two_pow ?_, Nat.testBit_lt_two_pow ?_⟩
    · exact lt_of_lt_of_le (Nat.lt_two_pow a) (Nat.pow_le_pow_right (by norm_num) (by omega))
    · exact lt_of_lt_of_le (Nat.lt_two_pow b) (Nat.pow_le_pow_right (by norm_num) (by omega))
  cases m with
  | ofNat a =>
    cases n with
    | ofNat b =>
      congr 1
      exact Nat.eq_of_testBit_eq h
    | negSucc b =>
      exfalso
      obtain ⟨k, h1, h2⟩ := key a b
      have := h k
      simp only [Int.testBit] at this
      rw [h1, h2] at this
      simp at this
  | negSucc a =>
    cases n with
    | ofNat b =>
      exfalso
      obtain ⟨k, h1, h2⟩ := key a b
      have := h k
      simp only [Int.testBit] at this
      rw [h1, h2] at this
      simp at this
    | negSucc b =>
      congr 1
      apply Nat.eq_of_testBit_eq
      intro k
      have := h k
      simp only [Int.testBit] at this
      simpa using this

namespace big_integer

/-- Every bit of the fill word is the sign. -/
theorem empty_block_testBit (x : big_integer) {j : Nat} (hj : j < 32) :
    x.empty_block.testBit j = x.sign := by
  unfold empty_block
  cases x.sign with
  | false => simp
  | true =>
    simp only [if_true, UINT32_MAX]
    rw [show 4294967295 = 2 ^ 32 - 1 by norm_num, Nat.testBit_two_pow_sub_one]
    simpa using hj

/-- The bits of the represented integer are the bits of the sign-extended digits. -/
theorem testBit_toInt {x : big_integer} (h : wf x) (p : Nat) :
    (toInt x).testBit p = (x.data.getD (p / 32) x.empty_block).testBit (p % 32) := by
  have hj : p % 32 < 32 := Nat.mod_lt _ (by norm_num)
  cases hs : x.sign with
  | false =>
    have e : toInt x = Int.ofNat (natVal x.data) := by simp [toInt, hs]
    rw [e]
    simp only [Int.testBit]
    rw [natVal_testBit _ h, empty_block, hs]
    rfl
  | true =>
    have hc := natVal_complement _ h
    have e : toInt x = Int.negSucc (natVal (x.data.map (fun d => UINT32_MAX - d))) := by
      have hc' : ((natVal (x.data.map (fun d => UINT32_MAX - d)) + natVal x.data + 1 : Nat) : Int)
          = ((2 ^ (32 * x.data.length) : Nat) : Int) := by rw [hc]
      push_cast at hc'
      rw [Int.negSucc_eq]
      simp only [toInt, hs, if_true]
      linarith
    have hok : digits_ok (x.data.map (fun d => UINT32_MAX - d)) := by
      intro d hd
      simp only [List.mem_map] at hd
      obtain ⟨e, _, rfl⟩ := hd
      simp only [UINT32_MAX]; omega
    rw [e]
    simp only [Int.testBit]
    rw [natVal_testBit _ hok]
    by_cases hi : p / 32 < x.data.length
    · have hd : x.data[p / 32] < 2 ^ 32 := h _ (List.getElem_mem _)
      rw [List.getD_eq_getElem _ _ (by simpa using hi), List.getD_eq_getElem _ _ hi,
        List.getElem_map]
      rw [show UINT32_MAX - x.data[p / 32] = 2 ^ 32 - (x.data[p / 32] + 1) by
        simp only [UINT32_MAX]; omega, Nat.testBit_two_pow_sub_succ hd]
      simp [hj]
    · rw [List.getD_eq_default _ _ (by simpa using hi), List.getD_eq_default _ _ (by omega),
        empty_block_testBit x hj, hs]
      simp

end big_integer

/-! ## Bitwise operators -/

theorem top_bit_eq {t : Nat} (ht : t < 2 ^ 32) : decide (t >>> 31 ≠ 0) = t.testBit 31 := by
  rw [Nat.testBit_to_div_mod, Nat.shiftRight_eq_div_pow]
  norm_num
  have : t / 2147483648 < 2 := by omega
  by_cases h : t / 2147483648 = 0
  · simp [h]
  · have h1 : t / 2147483648 = 1 := by omega
    simp [h1]

namespace big_integer

theorem ext_getD (x : big_integer) {n j : Nat} (hj : j < n) (d : Nat) :
    (ext x 0 n).getD j d = x.data.getD j x.empty_block := by
  rw [List.getD_eq_getElem _ _ (by simpa [ext] using hj)]
  simp [ext]

theorem bits_loop_length (fn : Nat → Nat → Nat) (rhs : big_integer) (ds : List Nat) (i : Nat) :
    (bits_loop fn rhs ds i).length = ds.length := by
  induction ds generalizing i with
  | nil => rfl
  | cons d ds ih => simp [bits_loop, ih]

theorem bits_loop_getD (fn : Nat → Nat → Nat) (rhs : big_integer) (ds : List Nat) (i j : Nat)
    (hj : j < ds.length) (d0 : Nat) :
    (bits_loop fn rhs ds i).getD j d0 =
      fn (ds.getD j 0) (rhs.data.getD (i + j) rhs.empty_block) := by
  induction ds generalizing i j with
  | nil => simp at hj
  | cons d ds ih =>
    rw [bits_loop]
    cases j with
    | zero => simp
    | succ j =>
      have := ih (i + 1) j (by simpa using hj)
      simp only [List.getD_cons_succ]
      rw [this, show i + 1 + j = i + (j + 1) by ring]

theorem digits_ok_bits_loop {fn : Nat → Nat → Nat}
    (hfn : ∀ x y, x < 2 ^ 32 → y < 2 ^ 32 → fn x y < 2 ^ 32) {rhs : big_integer} (hr : wf rhs)
    (ds : List Nat) (hd : digits_ok ds) (i : Nat) : digits_ok (bits_loop fn rhs ds i) := by
  induction ds generalizing i with
  | nil => intro d hd; simp [bits_loop] at hd
  | cons d ds ih =>
    rw [bits_loop]
    exact digits_ok_cons.2 ⟨hfn _ _ (digits_ok_cons.1 hd).1
      (getD_lt_of_digits_ok hr i (empty_block_lt rhs)), ih (digits_ok_cons.1 hd).2 _⟩

theorem wf_common_fun_bits {fn : Nat → Nat → Nat}
    (hfn : ∀ x y, x < 2 ^ 32 → y < 2 ^ 32 → fn x y < 2 ^ 32) {a rhs : big_integer}
    (ha : wf a) (hr : wf rhs) : wf (common_fun_bits a rhs fn) :=
  wf_shrink_to_fit (digits_ok_bits_loop hfn hr _ (digits_ok_resize _ ha (empty_block_lt a)) 0)

/-- Bit by bit, `common_fun_bits` combines the sign-extended operands with the boolean
operator that `fn` applies to the bits of two words. -/
theorem testBit_common_fun_bits {fn : Nat → Nat → Nat} {f : Bool → Bool → Bool}
    (hfn : ∀ x y, x < 2 ^ 32 → y < 2 ^ 32 → fn x y < 2 ^ 32)
    (hf : ∀ x y j, (fn x y).testBit j = f (x.testBit j) (y.testBit j))
    {a rhs : big_integer} (ha : wf a) (hr : wf rhs) (p : Nat) :
    (toInt (common_fun_bits a rhs fn)).testBit p =
      f ((toInt a).testBit p) ((toInt rhs).testBit p) := by
  have hwf : wf (set_sign ⟨bits_loop fn rhs
      (resize a.data (max a.data.length rhs.data.length + 1) a.empty_block) 0, a.sign⟩) :=
    digits_ok_bits_loop hfn hr _ (digits_ok_resize _ ha (empty_block_lt a)) 0
  unfold common_fun_bits
  rw [toInt_shrink_to_fit, testBit_toInt hwf, testBit_toInt ha, testBit_toInt hr]
  have hla : a.data.length ≤ max a.data.length rhs.data.length := le_max_left _ _
  have hlr : rhs.data.length ≤ max a.data.length rhs.data.length := le_max_right _ _
  generalize max a.data.length rhs.data.length = n at *
  have hj : p % 32 < 32 := Nat.mod_lt _ (by norm_num)
  rw [← ext_eq_resize] at hwf ⊢
  by_cases hi : p / 32 < n + 1
  · simp only [set_sign_data]
    rw [bits_loop_getD _ _ _ _ _ (by rw [ext_length]; exact hi), ext_getD _ hi, hf, Nat.zero_add]
  · have hlen : (bits_loop fn rhs (ext a 0 (n + 1)) 0).length = n + 1 := by
      rw [bits_loop_length, ext_length]
    rw [List.getD_eq_default _ _ (by rw [set_sign_data, hlen]; omega),
      List.getD_eq_default _ _ (by omega), List.getD_eq_default _ _ (by omega),
      empty_block_testBit _ hj, empty_block_testBit _ hj, empty_block_testBit _ hj]
    have hlast : (bits_loop fn rhs (ext a 0 (n + 1)) 0).getLastD 0 =
        fn a.empty_block rhs.empty_block := by
      have hne : bits_loop fn rhs (ext a 0 (n + 1)) 0 ≠ [] := by
        intro h; rw [h] at hlen; simp at hlen
      rw [List.getLastD_eq_getLast?, List.getLast?_eq_getLast _ hne, List.getLast_eq_getElem]
      simp only [Option.getD_some]
      rw [← List.getD_eq_getElem _ 0, bits_loop_getD _ _ _ _ _ (by rw [ext_length]; omega),
        ext_getD _ (by omega)]
      simp only [hlen, Nat.add_sub_cancel, Nat.zero_add]
      rw [List.getD_eq_default _ _ hla, List.getD_eq_default _ _ hlr]
    simp only [set_sign]
    rw [hlast, top_bit_eq (hfn _ _ (empty_block_lt a) (empty_block_lt rhs)), hf,
      empty_block_testBit _ (by norm_num), empty_block_testBit _ (by norm_num)]

/-- `operator&=` is the two's-complement AND of the integers. -/
theorem toInt_bit_and {a rhs : big_integer} (ha : wf a) (hr : wf rhs) :
    toInt (bit_and a rhs) = Int.land (toInt a) (toInt rhs) := by
  apply Int.eq_of_testBit_eq
  intro k
  rw [Int.testBit_land]
  exact testBit_common_fun_bits (fun x y _ hy => Nat.and_lt_two_pow x hy)
    (fun x y j => Nat.testBit_and x y j) ha hr k

/-- `operator|=` is the two's-complement OR of the integers. -/
theorem toInt_bit_or {a rhs : big_integer} (ha : wf a) (hr : wf rhs) :
    toInt (bit_or a rhs) = Int.lor (toInt a) (toInt rhs) := by
  apply Int.eq_of_testBit_eq
  intro k
  rw [Int.testBit_lor]
  exact testBit_common_fun_bits (fun x y hx hy => Nat.or_lt_two_pow hx hy)
    (fun x y j => Nat.testBit_or x y j) ha hr k

/-- `operator^=` is the two's-complement XOR of the integers. -/
theorem toInt_bit_xor {a rhs : big_integer} (ha : wf a) (hr : wf rhs) :
    toInt (bit_xor a rhs) = Int.xor (toInt a) (toInt rhs) := by
  apply Int.eq_of_testBit_eq
  intro k
  rw [Int.testBit_lxor]
  exact testBit_common_fun_bits (fun x y hx hy => Nat.xor_lt_two_pow hx hy)
    (fun x y j => Nat.testBit_xor x y j) ha hr k

end big_integer

/-! ## Shifts -/

theorem getD_set_ne (l : List Nat) {i j : Nat} (h : i ≠ j) (v d : Nat) :
    (l.set i v).getD j d = l.getD j d := by
  simp [List.getD_eq_getElem?_getD, List.getElem?_set_ne h]

theorem getD_set_self (l : List Nat) {i : Nat} (h : i < l.length) (v d : Nat) :
    (l.set i v).getD i d = v := by
  simp [List.getD_eq_getElem?_getD, List.getElem?_set_self h]

theorem Int.testBit_shiftRight_nat (z : Int) (n p : Nat) :
    (z >>> n).testBit p = z.testBit (p + n) := by
  cases z with
  | ofNat m =>
    show Int.testBit (Int.ofNat (m >>> n)) p = Int.testBit (Int.ofNat m) (p + n)
    simp only [Int.testBit, Nat.testBit_shiftRight, Nat.add_comm]
  | negSucc m =>
    show Int.testBit (Int.negSucc (m >>> n)) p = Int.testBit (Int.negSucc m) (p + n)
    simp only [Int.testBit, Nat.testBit_shiftRight, Nat.add_comm]

namespace big_integer

theorem shr_digit_set (sb bits fill : Nat) (data : List Nat) {i j : Nat} (h : i < j) (v : Nat) :
    shr_digit sb bits fill (data.set i v) j = shr_digit sb bits fill data j := by
  unfold shr_digit
  rw [List.length_set, getD_set_ne _ (by omega : i ≠ j + sb),
    getD_set_ne _ (by omega : i ≠ j + sb + 1)]

theorem shr_loop_length (sb bits fill n i : Nat) (data : List Nat) :
    (shr_loop sb bits fill n i data).length = data.length := by
  induction n generalizing i data with
  | zero => rfl
  | succ n ih => rw [shr_loop, ih, List.length_set]

/-- The ascending in-place loop of `operator>>=` stores at every index the digit computed
from the original vector. -/
theorem shr_loop_getD (sb bits fill n i : Nat) (data : List Nat) (j d0 : Nat) :
    (shr_loop sb bits fill n i data).getD j d0 =
      if i ≤ j ∧ j < i + n ∧ j < data.length then shr_digit sb bits fill data j
      else data.getD j d0 := by
  induction n generalizing i data with
  | zero =>
    rw [shr_loop, if_neg (by omega)]
  | succ n ih =>
    rw [shr_loop, ih, List.length_set]
    by_cases h1 : i + 1 ≤ j ∧ j < i + 1 + n ∧ j < data.length
    · rw [if_pos h1, if_pos (by omega), shr_digit_set _ _ _ _ (by omega)]
    · rw [if_neg h1]
      by_cases h2 : j = i
      · subst h2
        by_cases h3 : j < data.length
        · rw [getD_set_self _ h3, if_pos (by omega)]
        · rw [if_neg (by omega), List.getD_eq_default _ _ (by simpa using h3),
            List.getD_eq_default _ _ (by omega)]
      · rw [getD_set_ne _ (Ne.symm h2), if_neg (by omega)]

theorem shr_digit_lt (sb bits fill : Nat) (data : List Nat) (i : Nat) :
    shr_digit sb bits fill data i < 2 ^ 32 := u32_lt _

/-- The bits of the digit stored by `operator>>=`: the low part comes from the current
digit, the high part from the next one. -/
theorem shr_digit_testBit {sb bits fill : Nat} {data : List Nat} (hd : digits_ok data)
    (hf : fill < 2 ^ 32) (hb : bits < 32) (i : Nat) {j : Nat} (hj : j < 32) :
    (shr_digit sb bits fill data i).testBit j =
      if j + bits < 32 then (data.getD (i + sb) fill).testBit (j + bits)
      else (data.getD (i + sb + 1) fill).testBit (j + bits - 32) := by
  have hcur : (if i + sb < data.length then data.getD (i + sb) 0 else fill) =
      data.getD (i + sb) fill := by
    split
    · rw [List.getD_eq_getElem _ _ (by assumption), List.getD_eq_getElem _ _ (by assumption)]
    · rw [List.getD_eq_default _ _ (by omega)]
  have hnext : (if i + sb < data.length then
      (if i + sb + 1 < data.length then data.getD (i + sb + 1) 0 else fill) else fill) =
      data.getD (i + sb + 1) fill := by
    split
    · split
      · rw [List.getD_eq_getElem _ _ (by assumption), List.getD_eq_getElem _ _ (by assumption)]
      · rw [List.getD_eq_default _ _ (by omega)]
    · rw [List.getD_eq_default _ _ (by omega)]
  unfold shr_digit
  simp only [hcur, hnext]
  have hc : data.getD (i + sb) fill < 2 ^ 32 := getD_lt_of_digits_ok hd _ hf
  generalize data.getD (i + sb) fill = cur at *
  generalize data.getD (i + sb + 1) fill = next at *
  by_cases h0 : bits = 0
  · subst h0
    simp only [if_true, Nat.shiftRight_zero, Nat.add_zero]
    rw [u32_of_lt hc, if_pos hj]
  · rw [if_neg h0, BIT_DEPTH, Nat.shiftLeft_eq, Nat.shiftRight_eq_div_pow, u32, u32]
    have hpow : 2 ^ 32 = 2 ^ (32 - bits) * 2 ^ bits := by
      rw [← pow_add]; congr 1; omega
    have hlow : cur / 2 ^ bits < 2 ^ (32 - bits) := by
      apply Nat.div_lt_of_lt_mul
      rw [Nat.mul_comm, ← hpow]; exact hc
    have e1 : next * 2 ^ (32 - bits) % 2 ^ 32 = 2 ^ (32 - bits) * (next % 2 ^ bits) := by
      rw [Nat.mul_comm next, hpow, Nat.mul_mod_mul_left]
    have hlt : cur / 2 ^ bits + 2 ^ (32 - bits) * (next % 2 ^ bits) < 2 ^ 32 := by
      have : next % 2 ^ bits < 2 ^ bits := Nat.mod_lt _ (by positivity)
      have : 2 ^ (32 - bits) * (next % 2 ^ bits + 1) ≤ 2 ^ (32 - bits) * 2 ^ bits :=
        Nat.mul_le_mul_left _ this
      rw [Nat.mul_add] at this
      omega
    rw [e1, Nat.mod_eq_of_lt hlt, Nat.add_comm, Nat.testBit_mul_pow_two_add _ hlow,
      Nat.testBit_mod_two_pow, ← Nat.shiftRight_eq_div_pow, Nat.testBit_shiftRight]
    by_cases h1 : j + bits < 32
    · rw [if_pos (by omega), if_pos h1, Nat.add_comm]
    · rw [if_neg (by omega), if_neg h1]
      have : j - (32 - bits) = j + bits - 32 := by omega
      rw [this]
      simp; omega

theorem wf_shift_right {x : big_integer} (h : wf x) (rhs : Nat) : wf (shift_right x rhs) := by
  unfold shift_right
  split
  · exact h
  · apply wf_shrink_to_fit
    intro d hd
    obtain ⟨j, hj, rfl⟩ := List.getElem_of_mem hd
    rw [← List.getD_eq_getElem _ 0, shr_loop_getD]
    split
    · exact shr_digit_lt _ _ _ _ _
    · exact getD_lt_of_digits_ok h _ (by norm_num)

/-- The bits of `x >> rhs` are the bits of `x` moved down by `rhs` places. -/
theorem testBit_shift_right {x : big_integer} (h : wf x) (rhs p : Nat) :
    (toInt (shift_right x rhs)).testBit p = (toInt x).testBit (p + rhs) := by
  by_cases h0 : rhs = 0
  · subst h0; rfl
  have hw := wf_shift_right h rhs
  unfold shift_right at hw ⊢
  rw [if_neg h0] at hw ⊢
  have hw' : wf ⟨shr_loop (rhs / BIT_DEPTH) (rhs % BIT_DEPTH) x.empty_block x.data.length 0 x.data,
      x.sign⟩ := by
    intro d hd
    obtain ⟨j, hj, rfl⟩ := List.getElem_of_mem hd
    rw [← List.getD_eq_getElem _ 0, shr_loop_getD]
    split
    · exact shr_digit_lt _ _ _ _ _
    · exact getD_lt_of_digits_ok h _ (by norm_num)
  rw [toInt_shrink_to_fit, testBit_toInt hw', testBit_toInt h]
  simp only [BIT_DEPTH] at *
  have hj : p % 32 < 32 := Nat.mod_lt _ (by norm_num)
  have hb : rhs % 32 < 32 := Nat.mod_lt _ (by norm_num)
  show ((shr_loop (rhs / 32) (rhs % 32) x.empty_block x.data.length 0 x.data).getD (p / 32)
    x.empty_block).testBit (p % 32) = _
  rw [shr_loop_getD]
  by_cases hi : p / 32 < x.data.length
  · rw [if_pos (by omega), shr_digit_testBit h (empty_block_lt x) hb _ hj]
    by_cases h1 : p % 32 + rhs % 32 < 32
    · rw [if_pos h1]
      have e1 : (p + rhs) / 32 = p / 32 + rhs / 32 := by omega
      have e2 : (p + rhs) % 32 = p % 32 + rhs % 32 := by omega
      rw [e1, e2]
    · rw [if_neg h1]
      have e1 : (p + rhs) / 32 = p / 32 + rhs / 32 + 1 := by omega
      have e2 : (p + rhs) % 32 = p % 32 + rhs % 32 - 32 := by omega
      rw [e1, e2]
  · rw [if_neg (by omega), List.getD_eq_default _ _ (by omega),
      List.getD_eq_default _ _ (by omega), empty_block_testBit _ hj,
      empty_block_testBit _ (Nat.mod_lt _ (by norm_num))]

/-- `operator>>=` is the arithmetic shift: the floor of `x / 2^rhs`. -/
theorem toInt_shift_right {x : big_integer} (h : wf x) (rhs : Nat) :
    toInt (shift_right x rhs) = toInt x / 2 ^ rhs := by
  have e : toInt x / 2 ^ rhs = toInt x >>> rhs := by
    rw [Int.shiftRight_eq_div_pow]; norm_cast
  rw [e]
  apply Int.eq_of_testBit_eq
  intro p
  rw [testBit_shift_right h, Int.testBit_shiftRight_nat]

end big_integer

theorem Int.testBit_mul_two_pow (z : Int) (n p : Nat) :
    (z * 2 ^ n).testBit p = (decide (n ≤ p) && z.testBit (p - n)) := by
  cases z with
  | ofNat m =>
    have e : Int.ofNat m * 2 ^ n = Int.ofNat (2 ^ n * m) := by
      simp only [Int.ofNat_eq_coe]; push_cast; ring
    rw [e]
    simp only [Int.testBit, Nat.testBit_mul_pow_two]
  | negSucc m =>
    have hpos : 0 < 2 ^ n := by positivity
    have e : Int.negSucc m * 2 ^ n = Int.negSucc (2 ^ n * m + (2 ^ n - 1)) := by
      rw [Int.negSucc_eq, Int.negSucc_eq]
      have : ((2 ^ n - 1 : Nat) : Int) = 2 ^ n - 1 := by
        rw [Nat.cast_sub hpos]; push_cast; ring
      push_cast
      rw [this]; ring
    rw [e]
    simp only [Int.testBit]
    rw [Nat.testBit_mul_pow_two_add _ (by omega), Nat.testBit_two_pow_sub_one]
    by_cases h : p < n
    · simp [h]
    · simp [h, Nat.le_of_not_lt h]

namespace big_integer

theorem shl_digit_set (sb bits : Nat) (data : List Nat) {i j : Nat} (h : j < i) (v : Nat) :
    shl_digit sb bits (data.set i v) j = shl_digit sb bits data j := by
  unfold shl_digit
  rw [getD_set_ne _ (by omega : i ≠ j - sb), getD_set_ne _ (by omega : i ≠ j - sb - 1)]

theorem shl_loop_length (sb bits n : Nat) (data : List Nat) :
    (shl_loop sb bits n data).length = data.length := by
  induction n generalizing data with
  | zero => rfl
  | succ n ih => rw [shl_loop, ih, List.length_set]

/-- The descending in-place loop of `operator<<=` stores at every index the digit computed
from the original vector. -/
theorem shl_loop_getD (sb bits n : Nat) (data : List Nat) (j d0 : Nat) :
    (shl_loop sb bits n data).getD j d0 =
      if j < n ∧ j < data.length then shl_digit sb bits data j else data.getD j d0 := by
  induction n generalizing data with
  | zero => rw [shl_loop, if_neg (by omega)]
  | succ n ih =>
    rw [shl_loop, ih, List.length_set]
    by_cases h1 : j < n ∧ j < data.length
    · rw [if_pos h1, if_pos (by omega), shl_digit_set _ _ _ (by omega)]
    · rw [if_neg h1]
      by_cases h2 : j = n
      · subst h2
        by_cases h3 : j < data.length
        · rw [getD_set_self _ h3, if_pos (by omega)]
        · rw [if_neg (by omega), List.getD_eq_default _ _ (by simpa using h3),
            List.getD_eq_default _ _ (by omega)]
      · rw [getD_set_ne _ (Ne.symm h2), if_neg (by omega)]

theorem shl_digit_lt (sb bits : Nat) (data : List Nat) (i : Nat) :
    shl_digit sb bits data i < 2 ^ 32 := u32_lt _

/-- The bits of the digit stored by `operator<<=`: the high part comes from the current
digit, the low part from the previous one. -/
theorem shl_digit_testBit {sb bits : Nat} {data : List Nat} (hd : digits_ok data)
    (hb : bits < 32) (i : Nat) {j : Nat} (hj : j < 32) :
    (shl_digit sb bits data i).testBit j =
      if bits ≤ j then (if sb ≤ i then data.getD (i - sb) 0 else 0).testBit (j - bits)
      else (if sb + 1 ≤ i then data.getD (i - sb - 1) 0 else 0).testBit (32 - bits + j) := by
  have hprev : (if sb ≤ i then (if sb + 1 ≤ i then data.getD (i - sb - 1) 0 else 0) else 0) =
      (if sb + 1 ≤ i then data.getD (i - sb - 1) 0 else 0) := by
    by_cases h1 : sb + 1 ≤ i
    · rw [if_pos (by omega), if_pos h1]
    · rw [if_neg h1]; split <;> rfl
  unfold shl_digit
  simp only [hprev]
  have hc : (if sb ≤ i then data.getD (i - sb) 0 else 0) < 2 ^ 32 := by
    split
    · exact getD_lt_of_digits_ok hd _ (by norm_num)
    · norm_num
  have hp : (if sb + 1 ≤ i then data.getD (i - sb - 1) 0 else 0) < 2 ^ 32 := by
    split
    · exact getD_lt_of_digits_ok hd _ (by norm_num)
    · norm_num
  generalize (if sb ≤ i then data.getD (i - sb) 0 else 0) = cur at *
  generalize (if sb + 1 ≤ i then data.getD (i - sb - 1) 0 else 0) = prev at *
  by_cases h0 : bits = 0
  · subst h0
    simp only [if_true, Nat.shiftLeft_zero, Nat.add_zero, Nat.zero_le, Nat.sub_zero]
    rw [u32_of_lt hc, u32_of_lt hc]
  · rw [if_neg h0, BIT_DEPTH, Nat.shiftLeft_eq, Nat.shiftRight_eq_div_pow, u32, u32]
    have hpow : 2 ^ 32 = 2 ^ bits * 2 ^ (32 - bits) := by
      rw [← pow_add]; congr 1; omega
    have e1 : cur * 2 ^ bits % 2 ^ 32 = 2 ^ bits * (cur % 2 ^ (32 - bits)) := by
      rw [Nat.mul_comm cur, hpow, Nat.mul_mod_mul_left]
    have hlow : prev / 2 ^ (32 - bits) < 2 ^ bits := by
      apply Nat.div_lt_of_lt_mul
      rw [Nat.mul_comm, ← hpow]; exact hp
    have hlt : 2 ^ bits * (cur % 2 ^ (32 - bits)) + prev / 2 ^ (32 - bits) < 2 ^ 32 := by
      have : cur % 2 ^ (32 - bits) < 2 ^ (32 - bits) := Nat.mod_lt _ (by positivity)
      have : 2 ^ bits * (cur % 2 ^ (32 - bits) + 1) ≤ 2 ^ bits * 2 ^ (32 - bits) :=
        Nat.mul_le_mul_left _ this
      rw [Nat.mul_add] at this
      omega
    rw [e1, Nat.mod_eq_of_lt hlt, Nat.testBit_mul_pow_two_add _ hlow,
      Nat.testBit_mod_two_pow, ← Nat.shiftRight_eq_div_pow, Nat.testBit_shiftRight]
    by_cases h1 : bits ≤ j
    · rw [if_neg (by omega), if_pos h1]
      simp; omega
    · rw [if_pos (by omega), if_neg h1]

end big_integer

namespace big_integer

theorem digits_ok_shl_loop {sb bits n : Nat} {data : List Nat} (hd : digits_ok data) :
    digits_ok (shl_loop sb bits n data) := by
  intro d hmem
  obtain ⟨j, hj, rfl⟩ := List.getElem_of_mem hmem
  rw [← List.getD_eq_getElem _ 0, shl_loop_getD]
  split
  · exact shl_digit_lt _ _ _ _
  · exact getD_lt_of_digits_ok hd _ (by norm_num)

theorem wf_shift_left {x : big_integer} (h : wf x) (rhs : Nat) : wf (shift_left x rhs) := by
  unfold shift_left
  split
  · exact h
  · exact wf_shrink_to_fit (digits_ok_shl_loop (digits_ok_resize _ h (empty_block_lt x)))

/-- The bits of `x << rhs` are the bits of `x` moved up by `rhs` places, above `rhs` zero
bits. -/
theorem testBit_shift_left {x : big_integer} (h : wf x) (rhs p : Nat) :
    (toInt (shift_left x rhs)).testBit p =
      (decide (rhs ≤ p) && (toInt x).testBit (p - rhs)) := by
  by_cases h0 : rhs = 0
  · subst h0; simp [shift_left]
  unfold shift_left
  rw [if_neg h0]
  simp only [BIT_DEPTH]
  have hb : rhs % 32 < 32 := Nat.mod_lt _ (by norm_num)
  have hj : p % 32 < 32 := Nat.mod_lt _ (by norm_num)
  generalize hNdef : x.data.length + rhs / 32 + (if rhs % 32 > 0 then 1 else 0) = N at *
  have hNval : (rhs % 32 = 0 ∧ N = x.data.length + rhs / 32) ∨
      (0 < rhs % 32 ∧ N = x.data.length + rhs / 32 + 1) := by
    by_cases hz : rhs % 32 > 0
    · rw [if_pos hz] at hNdef; right; exact ⟨hz, hNdef.symm⟩
    · rw [if_neg hz] at hNdef; left; exact ⟨by omega, hNdef.symm⟩
  have hok : digits_ok (resize x.data N x.empty_block) :=
    digits_ok_resize _ h (empty_block_lt x)
  have hw : wf ⟨shl_loop (rhs / 32) (rhs % 32) (resize x.data N x.empty_block).length
      (resize x.data N x.empty_block), x.sign⟩ := digits_ok_shl_loop hok
  rw [toInt_shrink_to_fit, testBit_toInt hw, testBit_toInt h]
  show ((shl_loop (rhs / 32) (rhs % 32) (resize x.data N x.empty_block).length
    (resize x.data N x.empty_block)).getD (p / 32) x.empty_block).testBit (p % 32) = _
  rw [shl_loop_getD, resize_length]
  by_cases hi : p / 32 < N
  · rw [if_pos ⟨hi, hi⟩, shl_digit_testBit hok hb _ hj, ← ext_eq_resize]
    by_cases h1 : rhs % 32 ≤ p % 32
    · rw [if_pos h1]
      by_cases h2 : rhs / 32 ≤ p / 32
      · rw [if_pos h2, ext_getD _ (by omega)]
        have e0 : rhs ≤ p := by omega
        have e1 : (p - rhs) / 32 = p / 32 - rhs / 32 := by omega
        have e2 : (p - rhs) % 32 = p % 32 - rhs % 32 := by omega
        rw [e1, e2]; simp [e0]
      · rw [if_neg h2]
        have e0 : ¬ rhs ≤ p := by omega
        simp [e0]
    · rw [if_neg h1]
      by_cases h2 : rhs / 32 + 1 ≤ p / 32
      · rw [if_pos h2, ext_getD _ (by omega)]
        have e0 : rhs ≤ p := by omega
        have e1 : (p - rhs) / 32 = p / 32 - rhs / 32 - 1 := by omega
        have e2 : (p - rhs) % 32 = 32 - rhs % 32 + p % 32 := by omega
        rw [e1, e2]; simp [e0]
      · rw [if_neg h2]
        have e0 : ¬ rhs ≤ p := by omega
        simp [e0]
  · rw [if_neg (by omega), List.getD_eq_default _ _ (by rw [resize_length]; omega),
      empty_block_testBit _ hj]
    have e0 : rhs ≤ p := by omega
    have e1 : x.data.length ≤ (p - rhs) / 32 := by omega
    rw [List.getD_eq_default _ _ e1, empty_block_testBit _ (Nat.mod_lt _ (by norm_num))]
    simp [e0]

/-- `operator<<=` multiplies by `2^rhs`. -/
theorem toInt_shift_left {x : big_integer} (h : wf x) (rhs : Nat) :
    toInt (shift_left x rhs) = toInt x * 2 ^ rhs := by
  apply Int.eq_of_testBit_eq
  intro p
  rw [testBit_shift_left h, Int.testBit_mul_two_pow]

end big_integer

/-! ## Multiplication and division by one digit -/

theorem mul_loop_spec {rhs : Nat} (hr : rhs < 2 ^ 32) (ds : List Nat) (hd : digits_ok ds)
    (c : Nat) (hc : c < 2 ^ 32) :
    natVal (big_integer.mul_loop rhs ds c).1 +
        2 ^ (32 * ds.length) * (big_integer.mul_loop rhs ds c).2 = natVal ds * rhs + c ∧
      (big_integer.mul_loop rhs ds c).2 < 2 ^ 32 ∧
      digits_ok (big_integer.mul_loop rhs ds c).1 ∧
      (big_integer.mul_loop rhs ds c).1.length = ds.length := by
  induction ds generalizing c with
  | nil =>
    exact ⟨by simp [big_integer.mul_loop, natVal_nil], hc,
      fun d hd => by simp [big_integer.mul_loop] at hd, rfl⟩
  | cons d ds ih =>
    have hd1 := (digits_ok_cons.1 hd).1
    have hprod : d * rhs ≤ (2 ^ 32 - 1) * (2 ^ 32 - 1) := Nat.mul_le_mul (by omega) (by omega)
    have hs : u64 (d * rhs + c) = d * rhs + c := u64_of_lt (by norm_num at hprod ⊢; omega)
    have hc2 : (d * rhs + c) / 2 ^ 32 < 2 ^ 32 := by norm_num at hprod ⊢; omega
    obtain ⟨h1, h2, h3, h4⟩ := ih (digits_ok_cons.1 hd).2 _ hc2
    simp only [big_integer.mul_loop, hs, BIT_DEPTH, Nat.shiftRight_eq_div_pow, natVal_cons,
      List.length_cons, pow_succ_32, u32]
    refine ⟨?_, h2, digits_ok_cons.2 ⟨Nat.mod_lt _ (by norm_num), h3⟩, by rw [h4]⟩
    have := Nat.mod_add_div (d * rhs + c) (2 ^ 32)
    calc (d * rhs + c) % 2 ^ 32 + 2 ^ 32 * natVal (big_integer.mul_loop rhs ds ((d * rhs + c) / 2 ^ 32)).1
          + 2 ^ 32 * 2 ^ (32 * ds.length) * (big_integer.mul_loop rhs ds ((d * rhs + c) / 2 ^ 32)).2
        = (d * rhs + c) % 2 ^ 32 + 2 ^ 32 * (natVal (big_integer.mul_loop rhs ds ((d * rhs + c) / 2 ^ 32)).1
          + 2 ^ (32 * ds.length) * (big_integer.mul_loop rhs ds ((d * rhs + c) / 2 ^ 32)).2) := by ring
      _ = (d * rhs + c) % 2 ^ 32 + 2 ^ 32 * (natVal ds * rhs + (d * rhs + c) / 2 ^ 32) := by rw [h1]
      _ = ((d * rhs + c) % 2 ^ 32 + 2 ^ 32 * ((d * rhs + c) / 2 ^ 32)) + 2 ^ 32 * (natVal ds * rhs) := by ring
      _ = (d + 2 ^ 32 * natVal ds) * rhs + c := by rw [this]; ring

namespace big_integer

theorem mul_by_uint32_t_sign (x : big_integer) (rhs : Nat) :
    (mul_by_uint32_t x rhs).sign = false := rfl

theorem canonical_mul_by_uint32_t (x : big_integer) (rhs : Nat) :
    canonical (mul_by_uint32_t x rhs) := canonical_shrink_to_fit _

theorem mul_by_uint32_t_aux {x : big_integer} (h : wf x) {rhs : Nat} (hr : rhs < 2 ^ 32) :
    (if (mul_loop rhs x.data 0).2 > 0 then u32 (mul_loop rhs x.data 0).2 else 0) =
      (mul_loop rhs x.data 0).2 := by
  obtain ⟨_, h2, _, _⟩ := mul_loop_spec hr x.data h 0 (by norm_num)
  by_cases hc : (mul_loop rhs x.data 0).2 > 0
  · rw [if_pos hc]; exact u32_of_lt h2
  · rw [if_neg hc]; omega

theorem wf_mul_by_uint32_t {x : big_integer} (h : wf x) {rhs : Nat} (hr : rhs < 2 ^ 32) :
    wf (mul_by_uint32_t x rhs) := by
  obtain ⟨_, h2, h3, _⟩ := mul_loop_spec hr x.data h 0 (by norm_num)
  apply wf_shrink_to_fit
  show digits_ok (_ ++ [_])
  rw [mul_by_uint32_t_aux h hr]
  exact digits_ok_append.2 ⟨h3, digits_ok_cons.2 ⟨h2, fun d hd => by simp at hd⟩⟩

theorem length_mul_by_uint32_t_le (x : big_integer) (rhs : Nat) :
    (mul_by_uint32_t x rhs).data.length ≤ x.data.length + 1 := by
  refine le_trans (length_shrink_to_fit_le _) ?_
  show (_ ++ [_]).length ≤ _
  have : ∀ (ds : List Nat) (c : Nat), (mul_loop rhs ds c).1.length = ds.length := by
    intro ds
    induction ds with
    | nil => intro c; rfl
    | cons d ds ih => intro c; simp [mul_loop, ih]
  simp [this]

/-- `mul_by_uint32_t` multiplies the stored digits by the word. -/
theorem toInt_mul_by_uint32_t {x : big_integer} (h : wf x) {rhs : Nat} (hr : rhs < 2 ^ 32) :
    toInt (mul_by_uint32_t x rhs) = (natVal x.data * rhs : Nat) := by
  obtain ⟨h1, _, _, h4⟩ := mul_loop_spec hr x.data h 0 (by norm_num)
  unfold mul_by_uint32_t
  rw [toInt_shrink_to_fit]
  simp only [toInt, Bool.false_eq_true, if_false, sub_zero]
  rw [mul_by_uint32_t_aux h hr, natVal_append, natVal_cons, natVal_nil, h4]
  have e : natVal (mul_loop rhs x.data 0).1 +
      2 ^ (32 * x.data.length) * ((mul_loop rhs x.data 0).2 + 2 ^ 32 * 0) =
      natVal x.data * rhs := by
    rw [Nat.mul_zero, Nat.add_zero, h1, Nat.add_zero]
  rw [e]

theorem toInt_of_sign_false {x : big_integer} (hs : x.sign = false) :
    toInt x = (natVal x.data : Int) := by
  simp [toInt, hs]

end big_integer

theorem div_loop_spec {rhs : Nat} (h0 : 0 < rhs) (hr : rhs < 2 ^ 32) (ds : List Nat)
    (hd : digits_ok ds) :
    natVal (big_integer.div_loop rhs ds).1 * rhs + (big_integer.div_loop rhs ds).2 = natVal ds ∧
      (big_integer.div_loop rhs ds).2 < rhs ∧
      digits_ok (big_integer.div_loop rhs ds).1 ∧
      (big_integer.div_loop rhs ds).1.length = ds.length := by
  induction ds with
  | nil =>
    exact ⟨by simp [big_integer.div_loop, natVal_nil], h0,
      fun d hd => by simp [big_integer.div_loop] at hd, rfl⟩
  | cons d ds ih =>
    have hd1 := (digits_ok_cons.1 hd).1
    obtain ⟨h1, h2, h3, h4⟩ := ih (digits_ok_cons.1 hd).2
    rw [big_integer.div_loop]
    generalize big_integer.div_loop rhs ds = rest at *
    have hmul : (rest.2 + 1) * 2 ^ 32 ≤ rhs * 2 ^ 32 := Nat.mul_le_mul_right _ h2
    have hmul2 : rhs * 2 ^ 32 ≤ 2 ^ 32 * 2 ^ 32 := Nat.mul_le_mul_right _ hr.le
    have hs : u64 (rest.2 <<< BIT_DEPTH + d) = rest.2 * 2 ^ 32 + d := by
      rw [BIT_DEPTH, Nat.shiftLeft_eq]
      exact u64_of_lt (by norm_num at hmul hmul2 ⊢; omega)
    have hq : (rest.2 * 2 ^ 32 + d) / rhs < 2 ^ 32 := by
      apply Nat.div_lt_of_lt_mul
      omega
    simp only [hs, natVal_cons, List.length_cons, u32_of_lt hq]
    refine ⟨?_, Nat.mod_lt _ h0, digits_ok_cons.2 ⟨hq, h3⟩, by rw [h4]⟩
    have := Nat.div_add_mod (rest.2 * 2 ^ 32 + d) rhs
    calc ((rest.2 * 2 ^ 32 + d) / rhs + 2 ^ 32 * natVal rest.1) * rhs + (rest.2 * 2 ^ 32 + d) % rhs
        = (rhs * ((rest.2 * 2 ^ 32 + d) / rhs) + (rest.2 * 2 ^ 32 + d) % rhs)
          + 2 ^ 32 * (natVal rest.1 * rhs) := by ring
      _ = (rest.2 * 2 ^ 32 + d) + 2 ^ 32 * (natVal rest.1 * rhs) := by rw [this]
      _ = d + 2 ^ 32 * (natVal rest.1 * rhs + rest.2) := by ring
      _ = d + 2 ^ 32 * natVal ds := by rw [h1]

namespace big_integer

/-- `div_by_uint32_t` by a nonzero word returns the quotient and remainder of the stored
digits. -/
theorem div_by_uint32_t_spec {x : big_integer} (h : wf x) {rhs : Nat} (h0 : 0 < rhs)
    (hr : rhs < 2 ^ 32) :
    ∃ q r, div_by_uint32_t x rhs = .ok (q, r) ∧ wf q ∧ canonical q ∧ q.sign = false ∧
      toInt q = (natVal x.data / rhs : Nat) ∧ r = natVal x.data % rhs := by
  obtain ⟨h1, h2, h3, h4⟩ := div_loop_spec h0 hr x.data h
  refine ⟨shrink_to_fit ⟨(div_loop rhs x.data).1, false⟩, u32 (div_loop rhs x.data).2, ?_,
    wf_shrink_to_fit h3, canonical_shrink_to_fit _, rfl, ?_, ?_⟩
  · unfold div_by_uint32_t
    rw [if_neg (by omega)]
  · rw [toInt_shrink_to_fit, toInt_of_sign_false rfl]
    congr 1
    show natVal (div_loop rhs x.data).1 = _
    rw [← h1, Nat.mul_comm, Nat.mul_add_div h0, Nat.div_eq_of_lt h2, Nat.add_zero]
  · rw [u32_of_lt (by omega), ← h1, Nat.mul_comm, Nat.mul_add_mod, Nat.mod_eq_of_lt h2]

end big_integer

/-! ## Schoolbook multiplication -/

theorem natVal_set (l : List Nat) {k : Nat} (hk : k < l.length) (v : Nat) :
    natVal (l.set k v) + l.getD k 0 * 2 ^ (32 * k) = natVal l + v * 2 ^ (32 * k) := by
  induction l generalizing k with
  | nil => simp at hk
  | cons d ds ih =>
    cases k with
    | zero => simp [natVal_cons]; ring
    | succ k =>
      have := ih (k := k) (by simpa using hk)
      simp only [List.set_cons_succ, natVal_cons, List.getD_cons_succ, pow_succ_32]
      calc d + 2 ^ 32 * natVal (ds.set k v) + ds.getD k 0 * (2 ^ 32 * 2 ^ (32 * k))
          = d + 2 ^ 32 * (natVal (ds.set k v) + ds.getD k 0 * 2 ^ (32 * k)) := by ring
        _ = d + 2 ^ 32 * (natVal ds + v * 2 ^ (32 * k)) := by rw [this]
        _ = d + 2 ^ 32 * natVal ds + v * (2 ^ 32 * 2 ^ (32 * k)) := by ring

theorem natVal_drop (l : List Nat) (j : Nat) :
    natVal (l.drop j) = l.getD j 0 + 2 ^ 32 * natVal (l.drop (j + 1)) := by
  by_cases h : j < l.length
  · rw [List.drop_eq_getElem_cons h, natVal_cons, List.getD_eq_getElem _ _ h]
  · rw [List.drop_of_length_le (by omega), List.drop_of_length_le (by omega),
      List.getD_eq_default _ _ (by omega), natVal_nil]; rfl

theorem digits_ok_set {l : List Nat} (h : digits_ok l) (k : Nat) {v : Nat} (hv : v < 2 ^ 32) :
    digits_ok (l.set k v) := by
  intro d hd
  rcases List.mem_or_eq_of_mem_set hd with h1 | h1
  · exact h d h1
  · rw [h1]; exact hv

namespace big_integer

/-- The inner loop of `square_mul` adds `temp`, from digit `j` on, and the carry into the
result at offset `i + j`; whatever does not fit is the final carry. -/
theorem square_inner_spec (temp : List Nat) (ht : digits_ok temp) (i : Nat) (cnt j : Nat)
    (result : List Nat) (hres : digits_ok result) (carry : Nat) (hc : carry ≤ 1)
    (hlen : i + j + cnt = result.length) (hfit : i + temp.length ≤ result.length) :
    natVal (square_inner temp i cnt j result carry).1 +
        (square_inner temp i cnt j result carry).2 * 2 ^ (32 * result.length) =
      natVal result + (natVal (temp.drop j) + carry) * 2 ^ (32 * (i + j)) ∧
    digits_ok (square_inner temp i cnt j result carry).1 ∧
    (square_inner temp i cnt j result carry).1.length = result.length ∧
    (square_inner temp i cnt j result carry).2 ≤ 1 := by
  induction cnt generalizing j result carry with
  | zero =>
    rw [square_inner]
    refine ⟨?_, hres, rfl, hc⟩
    rw [List.drop_of_length_le (by omega), natVal_nil, Nat.zero_add,
      show i + j = result.length by omega]
  | succ cnt ih =>
    rw [square_inner]
    by_cases hbr : carry = 0 ∧ temp.length ≤ j
    · rw [if_pos hbr]
      refine ⟨?_, hres, rfl, hc⟩
      rw [List.drop_of_length_le hbr.2, natVal_nil, hbr.1]
      simp
    · rw [if_neg hbr]
      have htj : (if j < temp.length then temp.getD j 0 else 0) = temp.getD j 0 := by
        split
        · rfl
        · rw [List.getD_eq_default _ _ (by omega)]
      have hr1 : result.getD (i + j) 0 < 2 ^ 32 := getD_lt_of_digits_ok hres _ (by norm_num)
      have ht1 : temp.getD j 0 < 2 ^ 32 := getD_lt_of_digits_ok ht _ (by norm_num)
      rw [htj]
      have hs : u64 (carry + result.getD (i + j) 0 + temp.getD j 0) =
          carry + result.getD (i + j) 0 + temp.getD j 0 := u64_of_lt (by omega)
      simp only [hs, BIT_DEPTH, Nat.shiftRight_eq_div_pow]
      generalize hcdef : carry + result.getD (i + j) 0 + temp.getD j 0 = c at *
      have hc2 : c / 2 ^ 32 ≤ 1 := by omega
      have hset : digits_ok (result.set (i + j) (u32 c)) := digits_ok_set hres _ (u32_lt _)
      obtain ⟨h1, h2, h3, h4⟩ := ih (j + 1) (result.set (i + j) (u32 c)) hset (c / 2 ^ 32) hc2
        (by rw [List.length_set]; omega) (by rw [List.length_set]; exact hfit)
      rw [List.length_set] at h1 h3
      refine ⟨?_, h2, h3, h4⟩
      have hs2 := natVal_set result (k := i + j) (by omega) (u32 c)
      have hd := natVal_drop temp j
      have hcm : u32 c + 2 ^ 32 * (c / 2 ^ 32) = c := Nat.mod_add_div c (2 ^ 32)
      rw [show i + (j + 1) = (i + j) + 1 by ring, pow_succ_32] at h1
      rw [hd]
      generalize natVal (square_inner temp i cnt (j + 1) (result.set (i + j) (u32 c))
        (c / 2 ^ 32)).1 = X at *
      generalize (square_inner temp i cnt (j + 1) (result.set (i + j) (u32 c))
        (c / 2 ^ 32)).2 * 2 ^ (32 * result.length) = Y at *
      generalize natVal (result.set (i + j) (u32 c)) = R2 at *
      generalize (2 : Nat) ^ (32 * (i + j)) = P at *
      generalize natVal (temp.drop (j + 1)) = D at *
      generalize natVal result = R at *
      generalize result.getD (i + j) 0 = r at *
      generalize temp.getD j 0 = t at *
      have e1 : X + Y + r * P = R + (t + 2 ^ 32 * D + carry) * P + r * P := by
        calc X + Y + r * P = R2 + r * P + (D + c / 2 ^ 32) * (2 ^ 32 * P) := by rw [h1]; ring
          _ = R + (u32 c + 2 ^ 32 * (c / 2 ^ 32)) * P + D * (2 ^ 32 * P) := by rw [hs2]; ring
          _ = R + c * P + D * (2 ^ 32 * P) := by rw [hcm]
          _ = R + (t + 2 ^ 32 * D + carry) * P + r * P := by rw [← hcdef]; ring
      omega

end big_integer

namespace big_integer

theorem natVal_mul_by_uint32_t {x : big_integer} (h : wf x) {rhs : Nat} (hr : rhs < 2 ^ 32) :
    natVal (mul_by_uint32_t x rhs).data = natVal x.data * rhs := by
  have h1 := toInt_mul_by_uint32_t h hr
  rw [toInt_of_sign_false (mul_by_uint32_t_sign x rhs)] at h1
  exact_mod_cast h1

/-- The outer loop of `square_mul` adds `left * rs * 2^(32 i)` to the result, and the carry
that it threads through the iterations is zero after each of them. -/
theorem square_outer_spec {left : big_integer} (hl : wf left) (rs : List Nat)
    (hrs : digits_ok rs) (i : Nat) (result : List Nat) (hres : digits_ok result)
    (hlen : left.data.length + i + rs.length ≤ result.length)
    (hbound : natVal result < 2 ^ (32 * (left.data.length + i))) :
    natVal (square_outer left rs i result 0).1 =
        natVal result + natVal left.data * natVal rs * 2 ^ (32 * i) ∧
      digits_ok (square_outer left rs i result 0).1 ∧
      (square_outer left rs i result 0).1.length = result.length ∧
      (square_outer left rs i result 0).2 = 0 := by
  induction rs generalizing i result with
  | nil =>
    rw [square_outer]
    exact ⟨by simp [natVal_nil], hres, rfl, rfl⟩
  | cons rd rs ih =>
    have hrd := (digits_ok_cons.1 hrs).1
    rw [square_outer]
    simp only [List.length_cons] at hlen
    have hwt := wf_mul_by_uint32_t hl hrd
    have hlt := length_mul_by_uint32_t_le left rd
    have hnv := natVal_mul_by_uint32_t hl hrd
    obtain ⟨h1, h2, h3, h4⟩ := square_inner_spec (mul_by_uint32_t left rd).data hwt i
      (result.length - i) 0 result hres 0 (by omega) (by omega) (by omega)
    simp only [List.drop_zero, Nat.add_zero, hnv] at h1
    have hA := natVal_lt _ hl
    have hR := natVal_lt _ h2
    rw [h3] at hR
    have hpow1 : 2 ^ (32 * (left.data.length + (i + 1))) =
        2 ^ (32 * left.data.length) * 2 ^ 32 * 2 ^ (32 * i) := by
      rw [show 32 * (left.data.length + (i + 1)) = 32 * left.data.length + 32 + 32 * i by ring,
        pow_add, pow_add]
    have hpow0 : 2 ^ (32 * (left.data.length + i)) =
        2 ^ (32 * left.data.length) * 2 ^ (32 * i) := by
      rw [Nat.mul_add, pow_add]
    have hpowL : 2 ^ (32 * (left.data.length + (i + 1))) ≤ 2 ^ (32 * result.length) :=
      Nat.pow_le_pow_right (by norm_num) (by omega)
    have hprod : natVal left.data * rd ≤ 2 ^ (32 * left.data.length) * (2 ^ 32 - 1) :=
      Nat.mul_le_mul hA.le (by omega)
    have hprodP : natVal left.data * rd * 2 ^ (32 * i) ≤
        2 ^ (32 * left.data.length) * (2 ^ 32 - 1) * 2 ^ (32 * i) :=
      Nat.mul_le_mul_right _ hprod
    have htot : natVal result + natVal left.data * rd * 2 ^ (32 * i) <
        2 ^ (32 * (left.data.length + (i + 1))) := by
      rw [hpow1]
      rw [hpow0] at hbound
      have e : 2 ^ (32 * left.data.length) * 2 ^ 32 * 2 ^ (32 * i) =
          2 ^ (32 * left.data.length) * 2 ^ (32 * i) +
          2 ^ (32 * left.data.length) * (2 ^ 32 - 1) * 2 ^ (32 * i) := by
        have : (2 : Nat) ^ 32 = 1 + (2 ^ 32 - 1) := by norm_num
        conv_lhs => rw [this]
        ring
      rw [e]
      omega
    have hc0 : (square_inner (mul_by_uint32_t left rd).data i (result.length - i) 0 result 0).2
        = 0 := by
      by_contra hne
      have hpos : 1 ≤ (square_inner (mul_by_uint32_t left rd).data i (result.length - i) 0
        result 0).2 := Nat.one_le_iff_ne_zero.2 hne
      have := Nat.mul_le_mul_right (2 ^ (32 * result.length)) hpos
      omega
    rw [hc0] at h1 ⊢
    simp only [Nat.zero_mul, Nat.add_zero] at h1
    obtain ⟨g1, g2, g3, g4⟩ := ih (digits_ok_cons.1 hrs).2 (i + 1) _ h2
      (by rw [h3]; omega) (by rw [h1]; exact htot)
    refine ⟨?_, g2, by rw [g3, h3], g4⟩
    rw [g1, h1, natVal_cons, pow_succ_32]
    ring

theorem wf_square_mul {left right : big_integer} (hl : wf left) (hr : wf right) :
    wf (square_mul left right) := by
  have h := square_outer_spec hl right.data hr 0
    (List.replicate (left.data.length + right.data.length) 0)
    (digits_ok_replicate (by norm_num)) (by simp)
    (by rw [natVal_replicate_zero]; positivity)
  exact wf_shrink_to_fit h.2.1

theorem canonical_square_mul (left right : big_integer) : canonical (square_mul left right) :=
  canonical_shrink_to_fit _

/-- `square_mul` multiplies the stored digits. -/
theorem toInt_square_mul {left right : big_integer} (hl : wf left) (hr : wf right) :
    toInt (square_mul left right) = (natVal left.data * natVal right.data : Nat) := by
  have h := square_outer_spec hl right.data hr 0
    (List.replicate (left.data.length + right.data.length) 0)
    (digits_ok_replicate (by norm_num)) (by simp)
    (by rw [natVal_replicate_zero]; positivity)
  unfold square_mul
  rw [toInt_shrink_to_fit, toInt_of_sign_false rfl]
  simp only []
  rw [h.1, natVal_replicate_zero]
  simp

end big_integer

/-! ## Karatsuba multiplication -/

theorem natVal_take_drop (l : List Nat) (k : Nat) :
    natVal l = natVal (l.take k) + 2 ^ (32 * k) * natVal (l.drop k) := by
  by_cases h : k ≤ l.length
  · conv_lhs => rw [← List.take_append_drop k l]
    rw [natVal_append, List.length_take, Nat.min_eq_left h]
  · rw [List.take_of_length_le (by omega), List.drop_of_length_le (by omega), natVal_nil]
    simp

namespace big_integer

theorem copy_sign (left : big_integer) (l r : Nat) : (copy left l r).sign = false := by
  unfold copy; split <;> rfl

theorem copy_data (left : big_integer) {l r : Nat} (hr : r ≤ left.data.length) :
    (copy left l r).data = (left.data.take r).drop l := by
  unfold copy
  by_cases h : l ≥ r
  · rw [if_pos h, List.drop_of_length_le (by rw [List.length_take]; omega)]; rfl
  · rw [if_neg h]
    apply List.ext_getElem
    · simp only [List.length_map, List.length_range', List.length_drop, List.length_take]
      omega
    · intro j h1 h2
      simp only [List.getElem_map, List.getElem_range', List.getElem_drop, List.getElem_take,
        Nat.one_mul]
      rw [List.getD_eq_getElem]

theorem copy_high (left : big_integer) (k : Nat) :
    (copy left k left.data.length).data = left.data.drop k := by
  rw [copy_data left (le_refl _), List.take_length]

theorem copy_low (left : big_integer) (k : Nat) :
    (copy left 0 (min k left.data.length)).data = left.data.take k := by
  rw [copy_data left (Nat.min_le_right _ _), List.drop_zero]
  by_cases h : k ≤ left.data.length
  · rw [Nat.min_eq_left h]
  · rw [Nat.min_eq_right (by omega), List.take_length, List.take_of_length_le (by omega)]

theorem wf_copy_high {left : big_integer} (h : wf left) (k : Nat) :
    wf (copy left k left.data.length) := by
  unfold wf; rw [copy_high]; exact digits_ok_drop k h

theorem wf_copy_low {left : big_integer} (h : wf left) (k : Nat) :
    wf (copy left 0 (min k left.data.length)) := by
  unfold wf; rw [copy_low]; exact digits_ok_take k h

theorem natVal_add_of_sign_false {a b : big_integer} (ha : wf a) (hb : wf b)
    (hsa : a.sign = false) (hsb : b.sign = false) :
    natVal (add a b).data = natVal a.data + natVal b.data := by
  have h := toInt_add ha hb
  rw [toInt_of_sign_false hsa, toInt_of_sign_false hsb] at h
  have hs : (add a b).sign = false := by
    cases hs : (add a b).sign with
    | false => rfl
    | true =>
      have := (sign_iff_neg (wf_add a b)).1 hs
      rw [h] at this
      have h0 : (0 : Int) ≤ natVal a.data + natVal b.data := by positivity
      omega
  rw [toInt_of_sign_false hs] at h
  exact_mod_cast h

theorem toInt_zero_from_int : toInt (from_int 0) = 0 := toInt_from_int (by norm_num) (by norm_num)

/-- The result of the Karatsuba recursion, once the three products are right. -/
theorem karatsuba_combine {p1 p2 p3 : big_integer} (h1 : wf p1) (h2 : wf p2) (h3 : wf p3)
    (lh ll rh rl k : Nat) (e1 : toInt p1 = (lh * rh : Nat)) (e2 : toInt p2 = (ll * rl : Nat))
    (e3 : toInt p3 = ((lh + ll) * (rh + rl) : Nat)) :
    toInt (add (add (shift_left p1 (BIT_DEPTH * 2 * k))
      (shift_left (subtract (subtract p3 p1) p2) (BIT_DEPTH * k))) p2) =
      ((ll + 2 ^ (32 * k) * lh) * (rl + 2 ^ (32 * k) * rh) : Nat) := by
  have w1 := wf_shift_left h1 (BIT_DEPTH * 2 * k)
  have w2 : wf (subtract (subtract p3 p1) p2) := wf_subtract _ _
  have w3 := wf_shift_left w2 (BIT_DEPTH * k)
  rw [toInt_add (wf_add _ _) h2, toInt_add w1 w3, toInt_shift_left h1, toInt_shift_left w2,
    toInt_subtract (wf_subtract _ _) h2, toInt_subtract h3 h1, e1, e2, e3, BIT_DEPTH]
  push_cast
  rw [show 32 * 2 * k = 32 * k + 32 * k by ring, pow_add]
  ring

end big_integer

namespace big_integer

/-- With fuel above the longer operand, `Karatsuba_mul` returns the canonical product of
the stored digits. -/
theorem Karatsuba_mul_fuel_spec (fuel : Nat) : ∀ (left right : big_integer), wf left →
    wf right → max left.data.length right.data.length < fuel →
    ∃ p, Karatsuba_mul_fuel fuel left right = .ok p ∧ wf p ∧ canonical p ∧
      toInt p = (natVal left.data * natVal right.data : Nat) := by
  induction fuel with
  | zero => intro left right _ _ h; omega
  | succ fuel ih =>
    intro left right hl hr hfuel
    rw [Karatsuba_mul_fuel]
    by_cases hE : left.data.isEmpty ∨ right.data.isEmpty
    · rw [if_pos hE]
      refine ⟨_, rfl, wf_from_int 0, canonical_shrink_to_fit _, ?_⟩
      rw [toInt_zero_from_int]
      rcases hE with h | h
      · rw [List.isEmpty_iff.1 h, natVal_nil]; simp
      · rw [List.isEmpty_iff.1 h, natVal_nil]; simp
    rw [if_neg hE]
    by_cases h1 : left.data.length = 1
    · rw [if_pos h1]
      obtain ⟨d, hd⟩ := List.length_eq_one.1 h1
      have hd32 : d < 2 ^ 32 := hl d (by rw [hd]; simp)
      refine ⟨_, rfl, ?_, canonical_mul_by_uint32_t _ _, ?_⟩
      · rw [hd]; exact wf_mul_by_uint32_t hr hd32
      · rw [hd]
        simp only [List.getLastD_cons, List.getLastD_nil, natVal_cons, natVal_nil]
        rw [toInt_mul_by_uint32_t hr hd32]
        push_cast; ring
    rw [if_neg h1]
    by_cases h2 : right.data.length = 1
    · rw [if_pos h2]
      obtain ⟨d, hd⟩ := List.length_eq_one.1 h2
      have hd32 : d < 2 ^ 32 := hr d (by rw [hd]; simp)
      refine ⟨_, rfl, ?_, canonical_mul_by_uint32_t _ _, ?_⟩
      · rw [hd]; exact wf_mul_by_uint32_t hl hd32
      · rw [hd]
        simp only [List.getLastD_cons, List.getLastD_nil, natVal_cons, natVal_nil]
        rw [toInt_mul_by_uint32_t hl hd32]
        push_cast; ring
    rw [if_neg h2]
    by_cases h3 : left.data.length < 16 ∨ right.data.length < 16
    · rw [if_pos h3]
      exact ⟨_, rfl, wf_square_mul hl hr, canonical_square_mul _ _, toInt_square_mul hl hr⟩
    rw [if_neg h3]
    simp only []
    have hn16 : 16 ≤ max left.data.length right.data.length := by
      have := le_max_left left.data.length right.data.length
      omega
    have hlm := le_max_left left.data.length right.data.length
    have hrm := le_max_right left.data.length right.data.length
    generalize hn : max left.data.length right.data.length = n at *
    have wll := wf_copy_high hl (n / 2)
    have wlr := wf_copy_low hl (n / 2)
    have wrl := wf_copy_high hr (n / 2)
    have wrr := wf_copy_low hr (n / 2)
    have lll : (copy left (n / 2) left.data.length).data.length ≤ n - n / 2 := by
      rw [copy_high, List.length_drop]; omega
    have llr : (copy left 0 (min (n / 2) left.data.length)).data.length ≤ n / 2 := by
      rw [copy_low, List.length_take]; omega
    have lrl : (copy right (n / 2) right.data.length).data.length ≤ n - n / 2 := by
      rw [copy_high, List.length_drop]; omega
    have lrr : (copy right 0 (min (n / 2) right.data.length)).data.length ≤ n / 2 := by
      rw [copy_low, List.length_take]; omega
    have lsl := length_add_le (copy left (n / 2) left.data.length)
      (copy left 0 (min (n / 2) left.data.length))
    have lsr := length_add_le (copy right (n / 2) right.data.length)
      (copy right 0 (min (n / 2) right.data.length))
    obtain ⟨p1, hp1, w1, _, e1⟩ := ih _ _ wll wrl (by omega)
    obtain ⟨p2, hp2, w2, _, e2⟩ := ih _ _ wlr wrr (by omega)
    obtain ⟨p3, hp3, w3, _, e3⟩ := ih _ _ (wf_add (copy left (n / 2) left.data.length)
      (copy left 0 (min (n / 2) left.data.length))) (wf_add (copy right (n / 2) right.data.length)
      (copy right 0 (min (n / 2) right.data.length))) (by omega)
    rw [hp1]
    simp only []
    rw [hp2]
    simp only []
    rw [hp3]
    simp only []
    refine ⟨_, rfl, wf_add _ _, canonical_add _ _, ?_⟩
    rw [natVal_add_of_sign_false wll wlr (copy_sign _ _ _) (copy_sign _ _ _),
      natVal_add_of_sign_false wrl wrr (copy_sign _ _ _) (copy_sign _ _ _)] at e3
    rw [copy_high] at e1 e3
    rw [copy_high] at e1 e3
    rw [copy_low] at e2 e3
    rw [copy_low] at e2 e3
    rw [karatsuba_combine w1 w2 w3 _ _ _ _ (n / 2) e1 e2 e3,
      ← natVal_take_drop, ← natVal_take_drop]

theorem Karatsuba_mul_spec {left right : big_integer} (hl : wf left) (hr : wf right) :
    ∃ p, Karatsuba_mul left right = .ok p ∧ wf p ∧ canonical p ∧
      toInt p = (natVal left.data * natVal right.data : Nat) :=
  Karatsuba_mul_fuel_spec _ left right hl hr (Nat.lt_succ_self _)

end big_integer

/-! ## Multiplication -/

namespace big_integer

theorem natVal_abs {a : big_integer} (h : wf a) : (natVal (abs a).data : Int) = |toInt a| := by
  rw [← toInt_of_sign_false (abs_sign h), toInt_abs h]

/-- `operator*=` returns the canonical representation of the integer product. -/
theorem multiply_spec {a rhs : big_integer} (ha : wf a) (hr : wf rhs) :
    ∃ p, multiply a rhs = .ok p ∧ wf p ∧ canonical p ∧ toInt p = toInt a * toInt rhs := by
  obtain ⟨r, hk, wr, cr, er⟩ := Karatsuba_mul_spec (wf_abs ha) (wf_abs hr)
  unfold multiply
  simp only [hk]
  have hsa := sign_iff_neg ha
  have hsr := sign_iff_neg hr
  have er' : toInt r = |toInt a| * |toInt rhs| := by
    rw [er]; push_cast; rw [natVal_abs ha, natVal_abs hr]
  by_cases hx : xor a.sign rhs.sign = true
  · refine ⟨negate r, by rw [if_pos hx], wf_negate r, canonical_add _ _, ?_⟩
    rw [toInt_negate wr, er']
    cases hs1 : a.sign <;> cases hs2 : rhs.sign <;> simp only [hs1, hs2] at hx hsa hsr
    · simp at hx
    · have h1 : 0 ≤ toInt a := by
        by_contra h; exact absurd (hsa.2 (by omega)) (by simp)
      have h2 : toInt rhs < 0 := hsr.1 trivial
      rw [abs_of_nonneg h1, abs_of_neg h2]; ring
    · have h1 : toInt a < 0 := hsa.1 trivial
      have h2 : 0 ≤ toInt rhs := by
        by_contra h; exact absurd (hsr.2 (by omega)) (by simp)
      rw [abs_of_neg h1, abs_of_nonneg h2]; ring
    · simp at hx
  · refine ⟨r, by rw [if_neg hx], wr, cr, ?_⟩
    rw [er', ← abs_mul]
    apply abs_of_nonneg
    cases hs1 : a.sign <;> cases hs2 : rhs.sign <;> simp only [hs1, hs2] at hx hsa hsr
    · have h1 : 0 ≤ toInt a := by
        by_contra h; exact absurd (hsa.2 (by omega)) (by simp)
      have h2 : 0 ≤ toInt rhs := by
        by_contra h; exact absurd (hsr.2 (by omega)) (by simp)
      positivity
    · simp at hx
    · simp at hx
    · have h1 : toInt a < 0 := hsa.1 trivial
      have h2 : toInt rhs < 0 := hsr.1 trivial
      nlinarith

end big_integer

/-! ## Decimal strings -/

theorem zero_char_toNat : '0'.toNat = 48 := rfl

theorem nine_char_toNat : '9'.toNat = 57 := rfl

theorem digit_char_toNat {r : Nat} (h : r < 10) : (Char.ofNat (r + '0'.toNat)).toNat = r + 48 := by
  rw [zero_char_toNat]
  interval_cases r <;> rfl

theorem is_digit_ne_sign {c : Char} (h : is_digit c) : ¬ (c = '+' ∨ c = '-') := by
  rintro (rfl | rfl)
  · have := h.1; revert this; decide
  · have := h.1; revert this; decide

theorem foldl_reverse_lsb (cs : List Char) :
    cs.reverse.foldl (fun a c => a * 10 + (c.toNat - 48)) 0 = lsbVal cs := by
  induction cs with
  | nil => rfl
  | cons c cs ih =>
    rw [List.reverse_cons, List.foldl_append, ih]
    simp only [List.foldl_cons, List.foldl_nil, lsbVal]
    ring

namespace big_integer

theorem from_int_digit_sign {d : Nat} : (from_int (d : Int)).sign = false := by
  unfold from_int
  rw [shrink_to_fit_sign]
  simp

theorem natVal_from_int_digit {d : Nat} (h : d < 2 ^ 32) :
    natVal (from_int (d : Int)).data = d := by
  have h1 := toInt_from_int (a := (d : Int)) (by omega) (by exact_mod_cast h)
  rw [toInt_of_sign_false from_int_digit_sign] at h1
  exact_mod_cast h1

/-- On digit characters the loop of the string constructor accumulates their decimal
value. -/
theorem from_string_loop_digits (cs : List Char) (hcs : ∀ c ∈ cs, is_digit c) (i : Nat)
    (acc : big_integer) (hacc : wf acc) (hs : acc.sign = false) :
    ∃ r, from_string_loop cs i acc = .ok r ∧ wf r ∧ r.sign = false ∧
      natVal r.data = cs.foldl (fun a c => a * 10 + (c.toNat - 48)) (natVal acc.data) := by
  induction cs generalizing i acc with
  | nil => exact ⟨acc, rfl, hacc, hs, rfl⟩
  | cons c cs ih =>
    have hc := hcs c (List.mem_cons_self _ _)
    rw [from_string_loop, if_neg (fun h => is_digit_ne_sign hc h.1),
      if_neg (by rw [zero_char_toNat, nine_char_toNat]; have := hc.1; have := hc.2; omega)]
    have hd : c.toNat - '0'.toNat < 10 := by
      rw [zero_char_toNat]; have := hc.1; have := hc.2; omega
    have hu : u32 (c.toNat - '0'.toNat) = c.toNat - '0'.toNat := u32_of_lt (by omega)
    have hw := wf_add (mul_by_uint32_t acc 10) (from_int (u32 (c.toNat - '0'.toNat) : Nat))
    have hv := natVal_add_of_sign_false (wf_mul_by_uint32_t hacc (by norm_num : 10 < 2 ^ 32))
      (wf_from_int (u32 (c.toNat - '0'.toNat) : Nat)) (mul_by_uint32_t_sign acc 10)
      from_int_digit_sign
    have hsg : (add (mul_by_uint32_t acc 10) (from_int (u32 (c.toNat - '0'.toNat) : Nat))).sign
        = false := by
      cases hsg : (add (mul_by_uint32_t acc 10)
          (from_int (u32 (c.toNat - '0'.toNat) : Nat))).sign with
      | false => rfl
      | true =>
        have h1 := (sign_iff_neg hw).1 hsg
        have h2 := toInt_add (wf_mul_by_uint32_t hacc (by norm_num : 10 < 2 ^ 32))
          (wf_from_int (u32 (c.toNat - '0'.toNat) : Nat))
        rw [toInt_mul_by_uint32_t hacc (by norm_num), toInt_of_sign_false from_int_digit_sign]
          at h2
        rw [h2] at h1
        have : (0 : Int) ≤ ((natVal acc.data * 10 : Nat) : Int) +
          (natVal (from_int (u32 (c.toNat - '0'.toNat) : Nat)).data : Int) := by positivity
        omega
    obtain ⟨r, hr, wr, sr, er⟩ := ih (fun c hc => hcs c (List.mem_cons_of_mem _ hc)) (i + 1) _ hw hsg
    refine ⟨r, hr, wr, sr, ?_⟩
    rw [er, hv, natVal_mul_by_uint32_t hacc (by norm_num), natVal_from_int_digit (u32_lt _), hu,
      zero_char_toNat]
    rfl

end big_integer

namespace big_integer

theorem comparator_zero_gt_iff {x : big_integer} (h : wf x) (hs : x.sign = false) :
    comparator x (from_int 0) > 0 ↔ 0 < natVal x.data := by
  rw [comparator_gt_iff h (wf_from_int 0), toInt_zero_from_int, toInt_of_sign_false hs]
  exact_mod_cast Iff.rfl

/-- With enough fuel the loop of `to_string` appends the decimal digits of `x`, least
significant first. -/
theorem to_string_loop_spec (fuel : Nat) : ∀ (x : big_integer) (res : List Char), wf x →
    x.sign = false → natVal x.data < 10 ^ fuel →
    ∃ out, to_string_loop (fuel + 1) x res = .ok (res ++ out) ∧ (∀ c ∈ out, is_digit c) ∧
      lsbVal out = natVal x.data := by
  induction fuel with
  | zero =>
    intro x res hx hs hlt
    rw [to_string_loop, if_neg (by rw [comparator_zero_gt_iff hx hs]; omega)]
    exact ⟨[], by simp, by simp, by simp [lsbVal]; omega⟩
  | succ fuel ih =>
    intro x res hx hs hlt
    rw [to_string_loop]
    by_cases hpos : 0 < natVal x.data
    · rw [if_pos ((comparator_zero_gt_iff hx hs).2 hpos)]
      obtain ⟨q, r, hdiv, wq, _, sq, eq, er⟩ :=
        div_by_uint32_t_spec hx (by norm_num : 0 < 10) (by norm_num)
      rw [hdiv]
      simp only []
      have hq : natVal q.data = natVal x.data / 10 := by
        rw [toInt_of_sign_false sq] at eq; exact_mod_cast eq
      have hr10 : r < 10 := by rw [er]; exact Nat.mod_lt _ (by norm_num)
      obtain ⟨out, ho, hdig, hval⟩ := ih q (res ++ [Char.ofNat (r + '0'.toNat)]) wq sq
        (by rw [hq]; apply Nat.div_lt_of_lt_mul; rw [← pow_succ']; exact hlt)
      refine ⟨Char.ofNat (r + '0'.toNat) :: out, ?_, ?_, ?_⟩
      · rw [ho]; simp
      · intro c hc
        rcases List.mem_cons.1 hc with h | h
        · rw [h]; unfold is_digit; rw [digit_char_toNat hr10]; omega
        · exact hdig c h
      · rw [lsbVal, hval, hq, digit_char_toNat hr10, er]
        omega
    · rw [if_neg (by rw [comparator_zero_gt_iff hx hs]; exact hpos)]
      exact ⟨[], by simp, by simp, by simp [lsbVal]; omega⟩

theorem natVal_lt_pow_ten (l : List Nat) (h : digits_ok l) : natVal l < 10 ^ (10 * l.length) := by
  refine lt_of_lt_of_le (natVal_lt l h) ?_
  rw [pow_mul, pow_mul]
  exact Nat.pow_le_pow_left (by norm_num) _

/-- Printing a value and parsing the text gives the canonical representation of the same
integer. -/
theorem from_decimal_string_to_string {v : big_integer} (hv : wf v) :
    ∃ s r, to_string v = .ok s ∧ from_decimal_string s = .ok r ∧ wf r ∧ canonical r ∧
      toInt r = toInt v := by
  unfold to_string
  by_cases h0 : comparator v (from_int 0) = 0
  · rw [if_pos h0]
    rw [comparator_eq_iff hv (wf_from_int 0), toInt_zero_from_int] at h0
    refine ⟨['0'], zero, rfl, rfl, by decide, by decide, ?_⟩
    rw [h0]; rfl
  · rw [if_neg h0]
    rw [comparator_eq_iff hv (wf_from_int 0), toInt_zero_from_int] at h0
    have hx := wf_abs hv
    have hsx := abs_sign hv
    obtain ⟨out, ho, hdig, hval⟩ := to_string_loop_spec (10 * (abs v).data.length) (abs v) []
      hx hsx (natVal_lt_pow_ten _ hx)
    dsimp only
    rw [ho]
    simp only [List.nil_append]
    have hz : wf zero := by intro d hd; simp [zero] at hd
    have hdr : ∀ c ∈ out.reverse, is_digit c := fun c hc => hdig c (List.mem_reverse.1 hc)
    have hnv := natVal_abs hv
    cases hs : v.sign with
    | true =>
      have hneg := (sign_iff_neg hv).1 hs
      obtain ⟨r, hr, wr, sr, er⟩ := from_string_loop_digits out.reverse hdr 1 zero hz rfl
      refine ⟨_, shrink_to_fit (negate r), rfl, ?_, wf_shrink_to_fit (wf_negate r),
        canonical_shrink_to_fit _, ?_⟩
      · simp only [if_true, List.reverse_append, List.reverse_cons, List.reverse_nil,
          List.nil_append, List.singleton_append]
        unfold from_decimal_string
        rw [from_string_loop, if_pos ⟨Or.inr rfl, rfl⟩, hr]
        simp
      · rw [toInt_shrink_to_fit, toInt_negate wr, toInt_of_sign_false sr, er]
        have : natVal zero.data = 0 := rfl
        rw [this, foldl_reverse_lsb, hval, hnv, abs_of_neg hneg]
        ring
    | false =>
      have hnn : 0 ≤ toInt v := by
        by_contra h
        have := (sign_iff_neg hv).2 (by omega)
        rw [hs] at this; simp at this
      obtain ⟨r, hr, wr, sr, er⟩ := from_string_loop_digits out.reverse hdr 0 zero hz rfl
      refine ⟨_, shrink_to_fit r, rfl, ?_, wf_shrink_to_fit wr, canonical_shrink_to_fit _, ?_⟩
      · simp only [Bool.false_eq_true, if_false]
        unfold from_decimal_string
        rw [hr]
        have hh : out.reverse.head? ≠ some '-' := by
          intro h
          have hm : '-' ∈ out.reverse := List.mem_of_mem_head? h
          exact is_digit_ne_sign (hdr _ hm) (Or.inr rfl)
        simp only [hh, if_false]
      · rw [toInt_shrink_to_fit, toInt_of_sign_false sr, er]
        have : natVal zero.data = 0 := rfl
        rw [this, foldl_reverse_lsb, hval, hnv, abs_of_nonneg hnn]

end big_integer

/-! ## The claims -/

namespace big_integer

set_option maxRecDepth 100000 in
/-- C1 (the code at the failing input): the divisor `2^64 - 1` is a nonzero canonical value
whose last digit is `0xFFFFFFFF`; dividing it into itself, `operator/=` computes
`rhs_abs.data.back() + 1` in 32 bits, gets `0`, and divides `BASE` by it, so neither
`divide` nor `modulo` returns a value.  The divisor is the value that the string constructor
builds from `18446744073709551615`. -/
theorem C1_divide_faults_on_full_top_digit :
    from_decimal_string ['1', '8', '4', '4', '6', '7', '4', '4', '0', '7', '3', '7', '0', '9',
      '5', '5', '1', '6', '1', '5'] = .ok ⟨[4294967295, 4294967295], false⟩ ∧
    wf ⟨[4294967295, 4294967295], false⟩ ∧ canonical ⟨[4294967295, 4294967295], false⟩ ∧
    toInt ⟨[4294967295, 4294967295], false⟩ = 2 ^ 64 - 1 ∧
    divide ⟨[4294967295, 4294967295], false⟩ ⟨[4294967295, 4294967295], false⟩ =
      .error .fault ∧
    modulo ⟨[4294967295, 4294967295], false⟩ ⟨[4294967295, 4294967295], false⟩ =
      .error .fault :=
  ⟨rfl, by decide, by decide, by decide, rfl, rfl⟩

/-- C2: for all values `a` and `b`, `multiply a b` returns a value that represents exactly
the product of the integers of `a` and `b`; its magnitude is `|a| * |b|` and it is negative
exactly when the operand signs differ and the product is nonzero. -/
theorem C2_multiply_exact (a b : big_integer) (ha : wf a) (hb : wf b) :
    ∃ p, multiply a b = .ok p ∧ toInt p = toInt a * toInt b ∧
      |toInt p| = |toInt a| * |toInt b| ∧
      (p.sign = true ↔ (a.sign ≠ b.sign ∧ toInt p ≠ 0)) := by
  obtain ⟨p, hp, wp, _, ep⟩ := multiply_spec ha hb
  refine ⟨p, hp, ep, by rw [ep, abs_mul], ?_⟩
  rw [sign_iff_neg wp, ep]
  have hsa := sign_iff_neg ha
  have hsb := sign_iff_neg hb
  constructor
  · intro h
    refine ⟨?_, h.ne⟩
    intro hs
    rw [hs] at hsa
    by_cases h1 : toInt b < 0
    · have h2 : toInt a < 0 := hsa.1 (hsb.2 h1)
      nlinarith
    · have h2 : ¬ toInt a < 0 := fun h3 => h1 (hsb.1 (hsa.2 h3))
      nlinarith
  · rintro ⟨hs, hne⟩
    have ha0 : toInt a ≠ 0 := fun h => hne (by rw [h, zero_mul])
    have hb0 : toInt b ≠ 0 := fun h => hne (by rw [h, mul_zero])
    by_cases h1 : toInt a < 0
    · have h2 : ¬ toInt b < 0 := by
        intro h3
        exact hs ((hsa.2 h1).trans (hsb.2 h3).symm)
      have h3 : 0 < toInt b := by omega
      nlinarith
    · have h2 : toInt b < 0 := by
        by_contra h3
        apply hs
        cases hs1 : a.sign <;> cases hs2 : b.sign <;> simp_all
      have h3 : 0 < toInt a := by omega
      nlinarith

theorem C2_multiply_exact_witness :
    wf ⟨[7, 1], false⟩ ∧ wf ⟨[4294967293], true⟩ ∧
    ∃ p, multiply ⟨[7, 1], false⟩ ⟨[4294967293], true⟩ = .ok p ∧
      toInt p = toInt ⟨[7, 1], false⟩ * toInt ⟨[4294967293], true⟩ ∧
      |toInt p| = |toInt ⟨[7, 1], false⟩| * |toInt ⟨[4294967293], true⟩| ∧
      (p.sign = true ↔
        ((⟨[7, 1], false⟩ : big_integer).sign ≠ (⟨[4294967293], true⟩ : big_integer).sign ∧
          toInt p ≠ 0)) :=
  ⟨by decide, by decide, C2_multiply_exact ⟨[7, 1], false⟩ ⟨[4294967293], true⟩
    (by decide) (by decide)⟩

/-- C3: for every value `v`, printing `v` succeeds and parsing the text succeeds with a
value equal to `v` (`operator==` holds, the integers agree, and for a canonical `v` the
result is `v` itself). -/
theorem C3_string_round_trip (v : big_integer) (hv : wf v) :
    ∃ s r, to_string v = .ok s ∧ from_decimal_string s = .ok r ∧ equal r v = true ∧
      toInt r = toInt v ∧ (canonical v → r = v) := by
  obtain ⟨s, r, hs, hr, wr, cr, er⟩ := from_decimal_string_to_string hv
  refine ⟨s, r, hs, hr, ?_, er, fun hc => eq_of_toInt_eq wr hv cr hc er⟩
  unfold equal
  rw [decide_eq_true_eq, comparator_eq_iff wr hv]
  exact er

theorem C3_string_round_trip_witness :
    wf ⟨[4294967173, 5], true⟩ ∧
    ∃ s r, to_string ⟨[4294967173, 5], true⟩ = .ok s ∧
      from_decimal_string s = .ok r ∧ equal r ⟨[4294967173, 5], true⟩ = true ∧
      toInt r = toInt ⟨[4294967173, 5], true⟩ ∧
      (canonical ⟨[4294967173, 5], true⟩ → r = ⟨[4294967173, 5], true⟩) :=
  ⟨by decide, C3_string_round_trip ⟨[4294967173, 5], true⟩ (by decide)⟩

/-- C4: for all values `a` and `b`, `add a b` represents the integer sum and
`subtract a b` the integer difference: no carry is lost and no sign is wrong. -/
theorem C4_add_subtract_exact (a b : big_integer) (ha : wf a) (hb : wf b) :
    toInt (add a b) = toInt a + toInt b ∧ toInt (subtract a b) = toInt a - toInt b :=
  ⟨toInt_add ha hb, toInt_subtract ha hb⟩

theorem C4_add_subtract_exact_witness :
    wf ⟨[4294967295, 2147483648], false⟩ ∧ wf ⟨[1, 2147483648], true⟩ ∧
    toInt (add ⟨[4294967295, 2147483648], false⟩ ⟨[1, 2147483648], true⟩) =
      toInt ⟨[4294967295, 2147483648], false⟩ + toInt ⟨[1, 2147483648], true⟩ ∧
    toInt (subtract ⟨[4294967295, 2147483648], false⟩ ⟨[1, 2147483648], true⟩) =
      toInt ⟨[4294967295, 2147483648], false⟩ - toInt ⟨[1, 2147483648], true⟩ :=
  ⟨by decide, by decide,
    C4_add_subtract_exact ⟨[4294967295, 2147483648], false⟩ ⟨[1, 2147483648], true⟩
      (by decide) (by decide)⟩

/-- C5: for every pair of operands, of any lengths and so on both sides of the 16-digit
threshold, the Karatsuba path returns exactly the value that the schoolbook path
`square_mul` returns. -/
theorem C5_karatsuba_eq_square_mul (l r : big_integer) (hl : wf l) (hr : wf r) :
    Karatsuba_mul l r = .ok (square_mul l r) := by
  obtain ⟨p, hp, wp, cp, ep⟩ := Karatsuba_mul_spec hl hr
  rw [hp]
  congr 1
  exact eq_of_toInt_eq wp (wf_square_mul hl hr) cp (canonical_square_mul l r)
    (by rw [ep, toInt_square_mul hl hr])

theorem C5_karatsuba_eq_square_mul_witness :
    wf ⟨List.replicate 17 4294967295, false⟩ ∧ wf ⟨List.replicate 16 2147483649, false⟩ ∧
    Karatsuba_mul ⟨List.replicate 17 4294967295, false⟩ ⟨List.replicate 16 2147483649, false⟩ =
      .ok (square_mul ⟨List.replicate 17 4294967295, false⟩
        ⟨List.replicate 16 2147483649, false⟩) :=
  ⟨by decide, by decide,
    C5_karatsuba_eq_square_mul ⟨List.replicate 17 4294967295, false⟩
      ⟨List.replicate 16 2147483649, false⟩ (by decide) (by decide)⟩

end big_integer

namespace big_integer

/-- C6: for all values `a` and `b`, `bit_and`, `bit_or` and `bit_xor` represent the
two's-complement AND, OR and XOR of the integers: every bit of the result is the boolean
combination of the bits of the infinite sign-extended operands; and `5 & -1 == 5`. -/
theorem C6_bitwise_twos_complement (a b : big_integer) (ha : wf a) (hb : wf b) :
    toInt (bit_and a b) = Int.land (toInt a) (toInt b) ∧
    toInt (bit_or a b) = Int.lor (toInt a) (toInt b) ∧
    toInt (bit_xor a b) = Int.xor (toInt a) (toInt b) ∧
    (∀ k, (toInt (bit_and a b)).testBit k = ((toInt a).testBit k && (toInt b).testBit k)) ∧
    (∀ k, (toInt (bit_or a b)).testBit k = ((toInt a).testBit k || (toInt b).testBit k)) ∧
    (∀ k, (toInt (bit_xor a b)).testBit k = xor ((toInt a).testBit k) ((toInt b).testBit k)) ∧
    bit_and (from_int 5) (from_int (-1)) = from_int 5 := by
  refine ⟨toInt_bit_and ha hb, toInt_bit_or ha hb, toInt_bit_xor ha hb, ?_, ?_, ?_, by decide⟩
  · intro k; rw [toInt_bit_and ha hb, Int.testBit_land]
  · intro k; rw [toInt_bit_or ha hb, Int.testBit_lor]
  · intro k; rw [toInt_bit_xor ha hb, Int.testBit_lxor]

theorem C6_bitwise_twos_complement_witness :
    wf ⟨[5, 9], false⟩ ∧ wf ⟨[4294967290], true⟩ ∧
    toInt (bit_and ⟨[5, 9], false⟩ ⟨[4294967290], true⟩) =
      Int.land (toInt ⟨[5, 9], false⟩) (toInt ⟨[4294967290], true⟩) ∧
    toInt (bit_or ⟨[5, 9], false⟩ ⟨[4294967290], true⟩) =
      Int.lor (toInt ⟨[5, 9], false⟩) (toInt ⟨[4294967290], true⟩) ∧
    toInt (bit_xor ⟨[5, 9], false⟩ ⟨[4294967290], true⟩) =
      Int.xor (toInt ⟨[5, 9], false⟩) (toInt ⟨[4294967290], true⟩) ∧
    (∀ k, (toInt (bit_and ⟨[5, 9], false⟩ ⟨[4294967290], true⟩)).testBit k =
      ((toInt ⟨[5, 9], false⟩).testBit k && (toInt ⟨[4294967290], true⟩).testBit k)) ∧
    (∀ k, (toInt (bit_or ⟨[5, 9], false⟩ ⟨[4294967290], true⟩)).testBit k =
      ((toInt ⟨[5, 9], false⟩).testBit k || (toInt ⟨[4294967290], true⟩).testBit k)) ∧
    (∀ k, (toInt (bit_xor ⟨[5, 9], false⟩ ⟨[4294967290], true⟩)).testBit k =
      xor ((toInt ⟨[5, 9], false⟩).testBit k) ((toInt ⟨[4294967290], true⟩).testBit k)) ∧
    bit_and (from_int 5) (from_int (-1)) = from_int 5 :=
  ⟨by decide, by decide,
    C6_bitwise_twos_complement ⟨[5, 9], false⟩ ⟨[4294967290], true⟩ (by decide) (by decide)⟩

/-- C7: for every value `v` and shift amount `n`, `shift_right v n` represents the floor
of `v / 2^n`; `-5 >> 1 == -3`; and a negative value shifted by at least as many bits as it
stores yields `-1`. -/
theorem C7_shift_right_floor (v : big_integer) (n : Nat) (hv : wf v) :
    toInt (shift_right v n) = toInt v / 2 ^ n ∧
    toInt (shift_right v n) * 2 ^ n ≤ toInt v ∧
    toInt v < (toInt (shift_right v n) + 1) * 2 ^ n ∧
    (v.sign = true → 32 * v.data.length ≤ n → toInt (shift_right v n) = -1) ∧
    shift_right (from_int (-5)) 1 = from_int (-3) := by
  have hP : (0 : Int) < 2 ^ n := by positivity
  have e := toInt_shift_right hv n
  have h1 : toInt (shift_right v n) * 2 ^ n ≤ toInt v := by
    rw [e]; exact Int.ediv_mul_le _ hP.ne'
  have h2 : toInt v < (toInt (shift_right v n) + 1) * 2 ^ n := by
    rw [e]; exact Int.lt_ediv_add_one_mul_self _ hP
  refine ⟨e, h1, h2, ?_, by decide⟩
  intro hs hn
  have hb := (toInt_bounds hv).2 hs
  have hle : (2 : Int) ^ (32 * v.data.length) ≤ 2 ^ n := pow_le_pow_right₀ (by norm_num) hn
  generalize toInt (shift_right v n) = q at *
  generalize (2 : Int) ^ n = P at *
  by_contra hq
  rcases lt_or_gt_of_ne hq with h | h
  · have : q + 1 ≤ -1 := by omega
    nlinarith
  · have : 0 ≤ q := by omega
    nlinarith

theorem C7_shift_right_floor_witness :
    wf ⟨[4294967291, 7], true⟩ ∧
    toInt (shift_right ⟨[4294967291, 7], true⟩ 70) = toInt ⟨[4294967291, 7], true⟩ / 2 ^ 70 ∧
    toInt (shift_right ⟨[4294967291, 7], true⟩ 70) * 2 ^ 70 ≤ toInt ⟨[4294967291, 7], true⟩ ∧
    toInt ⟨[4294967291, 7], true⟩ <
      (toInt (shift_right ⟨[4294967291, 7], true⟩ 70) + 1) * 2 ^ 70 ∧
    ((⟨[4294967291, 7], true⟩ : big_integer).sign = true →
      32 * (⟨[4294967291, 7], true⟩ : big_integer).data.length ≤ 70 →
      toInt (shift_right ⟨[4294967291, 7], true⟩ 70) = -1) ∧
    shift_right (from_int (-5)) 1 = from_int (-3) :=
  ⟨by decide, C7_shift_right_floor ⟨[4294967291, 7], true⟩ 70 (by decide)⟩

/-- C8: for all values, `comparator a b` is negative, zero or positive exactly when the
integer of `a` is less than, equal to or greater than the integer of `b`; so `<` is a
strict total order (irreflexive, asymmetric, transitive, total) and `==` agrees with
equality of the integers. -/
theorem C8_comparator_total_order (a b c : big_integer) (ha : wf a) (hb : wf b) (hc : wf c) :
    (comparator a b < 0 ↔ toInt a < toInt b) ∧
    (comparator a b = 0 ↔ toInt a = toInt b) ∧
    (comparator a b > 0 ↔ toInt a > toInt b) ∧
    less a a = false ∧
    (less a b = true → less b a = false) ∧
    (less a b = true → less b c = true → less a c = true) ∧
    (less a b = true ∨ equal a b = true ∨ less b a = true) ∧
    (equal a b = true ↔ toInt a = toInt b) ∧
    (not_equal a b = !equal a b) ∧
    (greater a b = less b a) ∧
    (less_equal a b = !less b a) ∧
    (greater_equal a b = !less a b) := by
  have lt_iff : ∀ {x y : big_integer}, wf x → wf y → (less x y = true ↔ toInt x < toInt y) := by
    intro x y hx hy
    unfold less
    rw [decide_eq_true_eq]
    exact comparator_lt_iff hx hy
  have lt_false : ∀ {x y : big_integer}, wf x → wf y →
      (less x y = false ↔ ¬ toInt x < toInt y) := by
    intro x y hx hy
    rw [← lt_iff hx hy]; simp
  have eq_iff : equal a b = true ↔ toInt a = toInt b := by
    unfold equal
    rw [decide_eq_true_eq]
    exact comparator_eq_iff ha hb
  refine ⟨comparator_lt_iff ha hb, comparator_eq_iff ha hb, comparator_gt_iff ha hb, ?_, ?_, ?_,
    ?_, eq_iff, ?_, ?_, ?_, ?_⟩
  · rw [lt_false ha ha]; exact lt_irrefl _
  · rw [lt_iff ha hb, lt_false hb ha]; intro h; omega
  · rw [lt_iff ha hb, lt_iff hb hc, lt_iff ha hc]; intro h1 h2; omega
  · rw [lt_iff ha hb, lt_iff hb ha, eq_iff]; omega
  · unfold not_equal equal; simp
  · have h1 := comparator_gt_iff ha hb
    have h2 := comparator_lt_iff hb ha
    unfold greater less
    rw [decide_eq_decide]
    exact h1.trans h2.symm
  · have h1 := comparator_gt_iff ha hb
    have h2 := comparator_lt_iff hb ha
    unfold less_equal less
    rw [← decide_not, decide_eq_decide]
    constructor
    · intro h h3; have := h2.2 (h1.1 (h2.1 h3 |> h1.2)); omega
    · intro h; by_contra h3; exact h (h2.2 (h1.1 (by omega)))
  · unfold greater_equal less
    rw [← decide_not, decide_eq_decide]
    omega

theorem C8_comparator_total_order_witness :
    wf ⟨[1], true⟩ ∧ wf ⟨[], false⟩ ∧ wf ⟨[0, 1], false⟩ ∧
    (comparator ⟨[1], true⟩ ⟨[], false⟩ < 0 ↔ toInt ⟨[1], true⟩ < toInt ⟨[], false⟩) ∧
    (comparator ⟨[1], true⟩ ⟨[], false⟩ = 0 ↔ toInt ⟨[1], true⟩ = toInt ⟨[], false⟩) ∧
    (comparator ⟨[1], true⟩ ⟨[], false⟩ > 0 ↔ toInt ⟨[1], true⟩ > toInt ⟨[], false⟩) ∧
    less ⟨[1], true⟩ ⟨[1], true⟩ = false ∧
    (less ⟨[1], true⟩ ⟨[], false⟩ = true → less ⟨[], false⟩ ⟨[1], true⟩ = false) ∧
    (less ⟨[1], true⟩ ⟨[], false⟩ = true → less ⟨[], false⟩ ⟨[0, 1], false⟩ = true →
      less ⟨[1], true⟩ ⟨[0, 1], false⟩ = true) ∧
    (less ⟨[1], true⟩ ⟨[], false⟩ = true ∨ equal ⟨[1], true⟩ ⟨[], false⟩ = true ∨
      less ⟨[], false⟩ ⟨[1], true⟩ = true) ∧
    (equal ⟨[1], true⟩ ⟨[], false⟩ = true ↔ toInt ⟨[1], true⟩ = toInt ⟨[], false⟩) ∧
    (not_equal ⟨[1], true⟩ ⟨[], false⟩ = !equal ⟨[1], true⟩ ⟨[], false⟩) ∧
    (greater ⟨[1], true⟩ ⟨[], false⟩ = less ⟨[], false⟩ ⟨[1], true⟩) ∧
    (less_equal ⟨[1], true⟩ ⟨[], false⟩ = !less ⟨[], false⟩ ⟨[1], true⟩) ∧
    (greater_equal ⟨[1], true⟩ ⟨[], false⟩ = !less ⟨[1], true⟩ ⟨[], false⟩) :=
  ⟨by decide, by decide, by decide,
    C8_comparator_total_order ⟨[1], true⟩ ⟨[], false⟩ ⟨[0, 1], false⟩
      (by decide) (by decide) (by decide)⟩

end big_integer

namespace big_integer

/-- C9: for every value `v`, `negate v` represents `-v` and `bitwise_not v` represents
`-v - 1`; `negate (negate v) == v` (and it is `v` itself when `v` is canonical),
`v + negate v` is zero, and `bitwise_not v` is the value `negate v - 1`. -/
theorem C9_negate_and_not (v : big_integer) (hv : wf v) :
    toInt (negate v) = -toInt v ∧
    toInt (bitwise_not v) = -toInt v - 1 ∧
    equal (negate (negate v)) v = true ∧
    (canonical v → negate (negate v) = v) ∧
    add v (negate v) = from_int 0 ∧
    bitwise_not v = subtract (negate v) (from_int 1) := by
  have hnn : toInt (negate (negate v)) = toInt v := by
    rw [toInt_negate (wf_negate v), toInt_negate hv, neg_neg]
  refine ⟨toInt_negate hv, toInt_bitwise_not hv, ?_, ?_, ?_, ?_⟩
  · unfold equal
    rw [decide_eq_true_eq, comparator_eq_iff (wf_negate _) hv]
    exact hnn
  · intro hc
    exact eq_of_toInt_eq (wf_negate _) hv (canonical_add _ _) hc hnn
  · apply eq_of_toInt_eq (wf_add _ _) (wf_from_int 0) (canonical_add _ _)
      (canonical_shrink_to_fit _)
    rw [toInt_add hv (wf_negate v), toInt_negate hv, toInt_zero_from_int]
    ring
  · apply eq_of_toInt_eq (wf_bitwise_not v) (wf_subtract _ _) (canonical_shrink_to_fit _)
      (canonical_add _ _)
    rw [toInt_bitwise_not hv, toInt_subtract (wf_negate v) (wf_from_int 1), toInt_negate hv,
      toInt_from_int (by norm_num) (by norm_num)]

theorem C9_negate_and_not_witness :
    wf ⟨[0, 0], true⟩ ∧
    toInt (negate ⟨[0, 0], true⟩) = -toInt ⟨[0, 0], true⟩ ∧
    toInt (bitwise_not ⟨[0, 0], true⟩) = -toInt ⟨[0, 0], true⟩ - 1 ∧
    equal (negate (negate ⟨[0, 0], true⟩)) ⟨[0, 0], true⟩ = true ∧
    (canonical ⟨[0, 0], true⟩ → negate (negate ⟨[0, 0], true⟩) = ⟨[0, 0], true⟩) ∧
    add ⟨[0, 0], true⟩ (negate ⟨[0, 0], true⟩) = from_int 0 ∧
    bitwise_not ⟨[0, 0], true⟩ = subtract (negate ⟨[0, 0], true⟩) (from_int 1) :=
  ⟨by decide, C9_negate_and_not ⟨[0, 0], true⟩ (by decide)⟩

/-- C10 (counterexample): on the text `-`, which is a sign with no digit after it, the
string constructor does not fail with `invalid_string`: it returns zero. -/
theorem C10_sign_only_not_rejected :
    from_decimal_string ['-'] = .ok zero ∧
    from_decimal_string ['-'] ≠ .error .invalid_string :=
  ⟨rfl, fun h => by cases h⟩

/-- C10 (amended): on a text that consists of only a sign character, `+` or `-`, the
string constructor returns the value zero. -/
theorem C10_sign_only_is_zero :
    from_decimal_string ['+'] = .ok zero ∧ from_decimal_string ['-'] = .ok zero ∧
    toInt zero = 0 :=
  ⟨rfl, rfl, rfl⟩

end big_integer

/-! ## Long division -/

namespace big_integer

/-- The loop of `operator/=` runs `divide_step` for the positions `k`, `k - 1`, ..., `0`. -/
theorem divide_loop_succ (d : big_integer) (n m fill k : Nat) (r : big_integer)
    (result : List Nat) :
    divide_loop d n m fill (k + 1) r result =
      match divide_step d n m fill k r result with
      | .error e => .error e
      | .ok st => divide_loop d n m fill k st.1 st.2 := by
  rw [divide_loop, divide_step]
  simp only []
  split
  · simp only [trial_quotient]
    split
    · rfl
    · rfl
  · rfl

end big_integer

namespace big_integer

/-- On the long path of `operator/=` (nonzero divisor, not larger than the dividend, more
than one digit) the factor is `normalization_factor` of the last digit of the divisor, and
the quotient digits are those of `divide_loop` on the scaled operands. -/
theorem divide_eq_of_long (a rhs : big_integer) (h0 : ¬ comparator rhs (from_int 0) = 0)
    (h1 : ¬ comparator (abs rhs) (abs a) > 0) (h2 : ¬ (abs rhs).data.length = 1) :
    divide a rhs =
      match at_index (abs rhs).data (((abs rhs).data.length : Int) - 1) with
      | .error e => .error e
      | .ok back =>
        match normalization_factor back with
        | .error e => .error e
        | .ok f =>
          if (abs a).data.length + 1 < (abs rhs).data.length then .error .fault
          else
            match divide_loop (mul_by_uint32_t (abs rhs) (u32 f)) (abs rhs).data.length
              (abs a).data.length (abs a).empty_block
              ((abs a).data.length + 1 - (abs rhs).data.length)
              (mul_by_uint32_t (abs a) (u32 f))
              (List.replicate ((abs a).data.length + 1 - (abs rhs).data.length)
                (abs a).empty_block) with
            | .error e => .error e
            | .ok digits =>
              .ok (shrink_to_fit (if xor a.sign rhs.sign then negate ⟨digits, false⟩
                else ⟨digits, false⟩)) := by
  unfold divide
  rw [if_neg h0]
  simp only []
  rw [if_neg h1, if_neg h2]
  split
  · rfl
  · simp only [normalization_factor]
    split
    · rfl
    · rfl

end big_integer

/-! ## Rejected and accepted texts -/

theorem not_is_digit_iff (c : Char) :
    ¬ is_digit c ↔ (c.toNat < '0'.toNat ∨ '9'.toNat < c.toNat) := by
  unfold is_digit
  rw [zero_char_toNat, nine_char_toNat]
  omega

namespace big_integer

/-- The loop of the string constructor fails as soon as the rest of the text holds a
character that is neither a digit nor a sign at index 0 of the text. -/
theorem from_string_loop_invalid (cs : List Char) (i : Nat) (acc : big_integer)
    (h : ∃ j c, cs[j]? = some c ∧ ¬ is_digit c ∧ ¬ (i + j = 0 ∧ (c = '+' ∨ c = '-'))) :
    from_string_loop cs i acc = .error .invalid_string := by
  induction cs generalizing i acc with
  | nil =>
    obtain ⟨j, c, hj, _⟩ := h
    simp at hj
  | cons c0 cs ih =>
    obtain ⟨j, c, hj, hnd, hns⟩ := h
    rw [from_string_loop]
    by_cases hsign : (c0 = '+' ∨ c0 = '-') ∧ i = 0
    · rw [if_pos hsign]
      apply ih
      cases j with
      | zero =>
        simp only [List.getElem?_cons_zero, Option.some.injEq] at hj
        subst hj
        exact absurd ⟨by omega, hsign.1⟩ hns
      | succ j =>
        refine ⟨j, c, by simpa using hj, hnd, by omega⟩
    · rw [if_neg hsign]
      by_cases hd : c0.toNat < '0'.toNat ∨ '9'.toNat < c0.toNat
      · rw [if_pos hd]
      · rw [if_neg hd]
        apply ih
        cases j with
        | zero =>
          simp only [List.getElem?_cons_zero, Option.some.injEq] at hj
          subst hj
          exact absurd ((not_is_digit_iff _).1 hnd) hd
        | succ j =>
          refine ⟨j, c, by simpa using hj, hnd, by omega⟩

theorem from_decimal_string_invalid (s : List Char)
    (h : ∃ j c, s[j]? = some c ∧ ¬ is_digit c ∧ ¬ (j = 0 ∧ (c = '+' ∨ c = '-'))) :
    from_decimal_string s = .error .invalid_string := by
  unfold from_decimal_string
  rw [from_string_loop_invalid s 0 zero (by simpa using h)]

theorem wf_zero : wf zero := by
  intro d hd; simp [zero] at hd

theorem from_decimal_string_digits (cs : List Char) (hcs : ∀ c ∈ cs, is_digit c) :
    ∃ r, from_decimal_string cs = .ok r := by
  obtain ⟨r, hr, _⟩ := from_string_loop_digits cs hcs 0 zero wf_zero rfl
  unfold from_decimal_string
  rw [hr]
  exact ⟨_, rfl⟩

theorem from_decimal_string_signed (c : Char) (cs : List Char) (hc : c = '+' ∨ c = '-')
    (hcs : ∀ x ∈ cs, is_digit x) : ∃ r, from_decimal_string (c :: cs) = .ok r := by
  obtain ⟨r, hr, _⟩ := from_string_loop_digits cs hcs 1 zero wf_zero rfl
  unfold from_decimal_string
  rw [from_string_loop, if_pos ⟨hc, rfl⟩, hr]
  exact ⟨_, rfl⟩

/-- C11: a text with a character that is not a decimal digit, other than a `+` or `-` at
position 0, makes the string constructor fail with `invalid_string` (so it returns no
value), for example `12a3` and `1-2`; a text made of an optional leading sign followed by
decimal digits does not fail. -/
theorem C11_invalid_format (s : List Char) :
    ((∃ j c, s[j]? = some c ∧ ¬ is_digit c ∧ ¬ (j = 0 ∧ (c = '+' ∨ c = '-'))) →
      from_decimal_string s = .error .invalid_string ∧
      ∀ r, from_decimal_string s ≠ .ok r) ∧
    ((∀ c ∈ s, is_digit c) → ∃ r, from_decimal_string s = .ok r) ∧
    (∀ c cs, s = c :: cs → (c = '+' ∨ c = '-') → (∀ x ∈ cs, is_digit x) →
      ∃ r, from_decimal_string s = .ok r) ∧
    from_decimal_string ['1', '2', 'a', '3'] = .error .invalid_string ∧
    from_decimal_string ['1', '-', '2'] = .error .invalid_string := by
  refine ⟨fun h => ?_, from_decimal_string_digits s, ?_, rfl, rfl⟩
  · have e := from_decimal_string_invalid s h
    refine ⟨e, fun r hr => ?_⟩
    rw [e] at hr
    cases hr
  · intro c cs hs hc hcs
    rw [hs]
    exact from_decimal_string_signed c cs hc hcs

/-- C12: for every value `a` and every divisor that is zero, `divide` and `modulo` fail
with `division_by_zero`, and so does `div_by_uint32_t` with the word `0`; none returns a
quotient or a remainder. -/
theorem C12_division_by_zero (a b : big_integer) (hb : wf b) (h0 : toInt b = 0) :
    divide a b = .error .division_by_zero ∧
    modulo a b = .error .division_by_zero ∧
    div_by_uint32_t a 0 = .error .division_by_zero := by
  have hc : comparator b (from_int 0) = 0 := by
    rw [comparator_eq_iff hb (wf_from_int 0), toInt_zero_from_int]
    exact h0
  have hd : divide a b = .error .division_by_zero := by
    unfold divide
    rw [if_pos hc]
  refine ⟨hd, ?_, rfl⟩
  unfold modulo
  rw [hd]

theorem C12_division_by_zero_witness :
    wf zero ∧ toInt zero = 0 ∧
    divide ⟨[7, 4294967295], true⟩ zero = .error .division_by_zero ∧
    modulo ⟨[7, 4294967295], true⟩ zero = .error .division_by_zero ∧
    div_by_uint32_t ⟨[7, 4294967295], true⟩ 0 = .error .division_by_zero :=
  ⟨by decide, by decide, C12_division_by_zero ⟨[7, 4294967295], true⟩ zero (by decide) (by decide)⟩

set_option maxRecDepth 100000 in
/-- C13 (counterexample): the quotient of `1000000000000000000000` by `999999999999` is
not printed as `1000000000001`. -/
theorem C13_example_quotient_differs :
    from_decimal_string ['1', '0', '0', '0', '0', '0', '0', '0', '0', '0', '0', '0', '0', '0',
      '0', '0', '0', '0', '0', '0', '0', '0'] = .ok ⟨[3735027712, 902409669, 54], false⟩ ∧
    from_decimal_string ['9', '9', '9', '9', '9', '9', '9', '9', '9', '9', '9', '9'] =
      .ok ⟨[3567587327, 232], false⟩ ∧
    divide ⟨[3735027712, 902409669, 54], false⟩ ⟨[3567587327, 232], false⟩ =
      .ok ⟨[1000000000], false⟩ ∧
    to_string ⟨[1000000000], false⟩ ≠
      .ok ['1', '0', '0', '0', '0', '0', '0', '0', '0', '0', '0', '0', '1'] :=
  ⟨rfl, rfl, rfl, fun h => by
    have e : to_string ⟨[1000000000], false⟩ =
      .ok ['1', '0', '0', '0', '0', '0', '0', '0', '0', '0'] := rfl
    rw [e] at h
    cases h⟩

set_option maxRecDepth 100000 in
/-- C13 (amended): dividing the value of `1000000000000000000000` (that is `10^21`) by the
value of `999999999999` yields the quotient printed as `1000000000`, and the modulo is the
value `1000000000`; this is the exact integer quotient and remainder. -/
theorem C13_example_quotient_and_remainder :
    from_decimal_string ['1', '0', '0', '0', '0', '0', '0', '0', '0', '0', '0', '0', '0', '0',
      '0', '0', '0', '0', '0', '0', '0', '0'] = .ok ⟨[3735027712, 902409669, 54], false⟩ ∧
    from_decimal_string ['9', '9', '9', '9', '9', '9', '9', '9', '9', '9', '9', '9'] =
      .ok ⟨[3567587327, 232], false⟩ ∧
    divide ⟨[3735027712, 902409669, 54], false⟩ ⟨[3567587327, 232], false⟩ =
      .ok ⟨[1000000000], false⟩ ∧
    to_string ⟨[1000000000], false⟩ = .ok ['1', '0', '0', '0', '0', '0', '0', '0', '0', '0'] ∧
    modulo ⟨[3735027712, 902409669, 54], false⟩ ⟨[3567587327, 232], false⟩ =
      .ok ⟨[1000000000], false⟩ ∧
    toInt ⟨[3735027712, 902409669, 54], false⟩ = 10 ^ 21 ∧
    toInt ⟨[3567587327, 232], false⟩ = 999999999999 ∧
    (10 : Int) ^ 21 = 1000000000 * 999999999999 + 1000000000 :=
  ⟨rfl, rfl, rfl, rfl, rfl, by decide, by decide, by norm_num⟩

/-- C14: for every value `v` and shift amount `n`, `shift_left v n` represents `v * 2^n`
and keeps the sign flag of `v`; in particular a shift by `32 * k` bits multiplies by
`2^(32 k)`. -/
theorem C14_shift_left_exact (v : big_integer) (n k : Nat) (hv : wf v) :
    toInt (shift_left v n) = toInt v * 2 ^ n ∧
    (shift_left v n).sign = v.sign ∧
    (toInt (shift_left v n) < 0 ↔ toInt v < 0) ∧
    toInt (shift_left v (BIT_DEPTH * k)) = toInt v * 2 ^ (32 * k) := by
  have hs : (shift_left v n).sign = v.sign := by
    unfold shift_left; split <;> rfl
  refine ⟨toInt_shift_left hv n, hs, ?_, toInt_shift_left hv _⟩
  rw [← sign_iff_neg (wf_shift_left hv n), ← sign_iff_neg hv, hs]

theorem C14_shift_left_exact_witness :
    wf ⟨[4294967291, 7], true⟩ ∧
    toInt (shift_left ⟨[4294967291, 7], true⟩ 45) = toInt ⟨[4294967291, 7], true⟩ * 2 ^ 45 ∧
    (shift_left ⟨[4294967291, 7], true⟩ 45).sign = (⟨[4294967291, 7], true⟩ : big_integer).sign ∧
    (toInt (shift_left ⟨[4294967291, 7], true⟩ 45) < 0 ↔ toInt ⟨[4294967291, 7], true⟩ < 0) ∧
    toInt (shift_left ⟨[4294967291, 7], true⟩ (BIT_DEPTH * 3)) =
      toInt ⟨[4294967291, 7], true⟩ * 2 ^ (32 * 3) :=
  ⟨by decide, C14_shift_left_exact ⟨[4294967291, 7], true⟩ 45 3 (by decide)⟩

end big_integer

/-! ## Termination of the Karatsuba recursion -/

namespace big_integer

/-- The lengths of the operands of the three recursive calls of `Karatsuba_mul`. -/
theorem karatsuba_operand_lengths (left right : big_integer) (n : Nat)
    (hl : left.data.length ≤ n) (hr : right.data.length ≤ n) :
    (copy left (n / 2) left.data.length).data.length ≤ (n + 1) / 2 ∧
    (copy right (n / 2) right.data.length).data.length ≤ (n + 1) / 2 ∧
    (copy left 0 (min (n / 2) left.data.length)).data.length ≤ (n + 1) / 2 ∧
    (copy right 0 (min (n / 2) right.data.length)).data.length ≤ (n + 1) / 2 ∧
    (add (copy left (n / 2) left.data.length)
      (copy left 0 (min (n / 2) left.data.length))).data.length ≤ (n + 1) / 2 + 1 ∧
    (add (copy right (n / 2) right.data.length)
      (copy right 0 (min (n / 2) right.data.length))).data.length ≤ (n + 1) / 2 + 1 := by
  have h1 : (copy left (n / 2) left.data.length).data.length ≤ (n + 1) / 2 := by
    rw [copy_high, List.length_drop]; omega
  have h2 : (copy right (n / 2) right.data.length).data.length ≤ (n + 1) / 2 := by
    rw [copy_high, List.length_drop]; omega
  have h3 : (copy left 0 (min (n / 2) left.data.length)).data.length ≤ (n + 1) / 2 := by
    rw [copy_low, List.length_take]; omega
  have h4 : (copy right 0 (min (n / 2) right.data.length)).data.length ≤ (n + 1) / 2 := by
    rw [copy_low, List.length_take]; omega
  have h5 := length_add_le (copy left (n / 2) left.data.length)
    (copy left 0 (min (n / 2) left.data.length))
  have h6 := length_add_le (copy right (n / 2) right.data.length)
    (copy right 0 (min (n / 2) right.data.length))
  refine ⟨h1, h2, h3, h4, ?_, ?_⟩ <;> omega

/-- With fuel above the longer operand, `Karatsuba_mul` returns, whatever the digits. -/
theorem Karatsuba_mul_fuel_returns (fuel : Nat) : ∀ (left right : big_integer),
    max left.data.length right.data.length < fuel →
    ∃ p, Karatsuba_mul_fuel fuel left right = .ok p := by
  induction fuel with
  | zero => intro left right h; omega
  | succ fuel ih =>
    intro left right hfuel
    rw [Karatsuba_mul_fuel]
    by_cases hE : left.data.isEmpty ∨ right.data.isEmpty
    · rw [if_pos hE]; exact ⟨_, rfl⟩
    rw [if_neg hE]
    by_cases h1 : left.data.length = 1
    · rw [if_pos h1]; exact ⟨_, rfl⟩
    rw [if_neg h1]
    by_cases h2 : right.data.length = 1
    · rw [if_pos h2]; exact ⟨_, rfl⟩
    rw [if_neg h2]
    by_cases h3 : left.data.length < 16 ∨ right.data.length < 16
    · rw [if_pos h3]; exact ⟨_, rfl⟩
    rw [if_neg h3]
    simp only []
    have hlm := le_max_left left.data.length right.data.length
    have hrm := le_max_right left.data.length right.data.length
    generalize hn : max left.data.length right.data.length = n at *
    obtain ⟨l1, l2, l3, l4, l5, l6⟩ := karatsuba_operand_lengths left right n hlm hrm
    obtain ⟨p1, hp1⟩ := ih (copy left (n / 2) left.data.length)
      (copy right (n / 2) right.data.length) (by omega)
    obtain ⟨p2, hp2⟩ := ih (copy left 0 (min (n / 2) left.data.length))
      (copy right 0 (min (n / 2) right.data.length)) (by omega)
    obtain ⟨p3, hp3⟩ := ih (add (copy left (n / 2) left.data.length)
      (copy left 0 (min (n / 2) left.data.length))) (add (copy right (n / 2) right.data.length)
      (copy right 0 (min (n / 2) right.data.length))) (by omega)
    rw [hp1]
    simp only []
    rw [hp2]
    simp only []
    rw [hp3]
    exact ⟨_, rfl⟩

/-- More fuel does not change the value that `Karatsuba_mul` returns. -/
theorem Karatsuba_mul_fuel_succ (fuel : Nat) : ∀ (left right p : big_integer),
    Karatsuba_mul_fuel fuel left right = .ok p →
    Karatsuba_mul_fuel (fuel + 1) left right = .ok p := by
  induction fuel with
  | zero => intro left right p h; rw [Karatsuba_mul_fuel] at h; cases h
  | succ fuel ih =>
    intro left right p h
    rw [Karatsuba_mul_fuel] at h ⊢
    by_cases hE : left.data.isEmpty ∨ right.data.isEmpty
    · rw [if_pos hE] at h ⊢; exact h
    rw [if_neg hE] at h ⊢
    by_cases h1 : left.data.length = 1
    · rw [if_pos h1] at h ⊢; exact h
    rw [if_neg h1] at h ⊢
    by_cases h2 : right.data.length = 1
    · rw [if_pos h2] at h ⊢; exact h
    rw [if_neg h2] at h ⊢
    by_cases h3 : left.data.length < 16 ∨ right.data.length < 16
    · rw [if_pos h3] at h ⊢; exact h
    rw [if_neg h3] at h ⊢
    simp only [] at h ⊢
    generalize max left.data.length right.data.length = n at *
    cases hp1 : Karatsuba_mul_fuel fuel (copy left (n / 2) left.data.length)
        (copy right (n / 2) right.data.length) with
    | error e => rw [hp1] at h; cases h
    | ok p1 =>
      rw [hp1] at h
      simp only [] at h
      rw [ih _ _ _ hp1]
      simp only []
      cases hp2 : Karatsuba_mul_fuel fuel (copy left 0 (min (n / 2) left.data.length))
          (copy right 0 (min (n / 2) right.data.length)) with
      | error e => rw [hp2] at h; cases h
      | ok p2 =>
        rw [hp2] at h
        simp only [] at h
        rw [ih _ _ _ hp2]
        simp only []
        cases hp3 : Karatsuba_mul_fuel fuel (add (copy left (n / 2) left.data.length)
            (copy left 0 (min (n / 2) left.data.length)))
            (add (copy right (n / 2) right.data.length)
            (copy right 0 (min (n / 2) right.data.length))) with
        | error e => rw [hp3] at h; cases h
        | ok p3 =>
          rw [hp3] at h
          simp only [] at h
          rw [ih _ _ _ hp3]
          exact h

theorem Karatsuba_mul_fuel_mono (left right p : big_integer) (fuel extra : Nat)
    (h : Karatsuba_mul_fuel fuel left right = .ok p) :
    Karatsuba_mul_fuel (fuel + extra) left right = .ok p := by
  induction extra with
  | zero => exact h
  | succ e ih => exact Karatsuba_mul_fuel_succ _ _ _ _ ih

/-- C20: `Karatsuba_mul` terminates on every pair of operands, and its value does not
depend on the recursion bound once that exceeds the longer operand; whenever it recurses
(both operands have at least 16 digits, `n` the longer length) every operand of the three
recursive calls has at most `ceil(n / 2) + 1` digits, which is less than `n`. -/
theorem C20_karatsuba_terminates (left right : big_integer) :
    (∃ p, Karatsuba_mul left right = .ok p) ∧
    (∀ fuel, max left.data.length right.data.length < fuel →
      Karatsuba_mul_fuel fuel left right = Karatsuba_mul left right) ∧
    (16 ≤ left.data.length → 16 ≤ right.data.length →
      ∀ n, n = max left.data.length right.data.length →
      (copy left (n / 2) left.data.length).data.length ≤ (n + 1) / 2 ∧
      (copy right (n / 2) right.data.length).data.length ≤ (n + 1) / 2 ∧
      (copy left 0 (min (n / 2) left.data.length)).data.length ≤ (n + 1) / 2 ∧
      (copy right 0 (min (n / 2) right.data.length)).data.length ≤ (n + 1) / 2 ∧
      (add (copy left (n / 2) left.data.length)
        (copy left 0 (min (n / 2) left.data.length))).data.length ≤ (n + 1) / 2 + 1 ∧
      (add (copy right (n / 2) right.data.length)
        (copy right 0 (min (n / 2) right.data.length))).data.length ≤ (n + 1) / 2 + 1 ∧
      (n + 1) / 2 + 1 < n) := by
  obtain ⟨p, hp⟩ := Karatsuba_mul_fuel_returns _ left right (Nat.lt_succ_self _)
  refine ⟨⟨p, hp⟩, ?_, ?_⟩
  · intro fuel hf
    unfold Karatsuba_mul
    rw [hp]
    obtain ⟨e, he⟩ : ∃ e, fuel = max left.data.length right.data.length + 1 + e :=
      ⟨fuel - (max left.data.length right.data.length + 1), by omega⟩
    rw [he]
    exact Karatsuba_mul_fuel_mono _ _ _ _ _ hp
  · intro h1 h2 n hn
    have hlm := le_max_left left.data.length right.data.length
    have hrm := le_max_right left.data.length right.data.length
    rw [← hn] at hlm hrm
    obtain ⟨l1, l2, l3, l4, l5, l6⟩ := karatsuba_operand_lengths left right n hlm hrm
    exact ⟨l1, l2, l3, l4, l5, l6, by omega⟩

end big_integer

/-! ## Canonical results -/

namespace big_integer

theorem normal_form_of {x : big_integer} (hw : wf x) (hc : canonical x) : normal_form x := by
  refine ⟨hw, hc, fun h0 => ?_⟩
  have e : x = zero := eq_of_toInt_eq hw wf_zero hc (by decide) (by rw [h0]; rfl)
  rw [e]; exact ⟨rfl, rfl⟩

theorem wf_from_string_loop (cs : List Char) (i : Nat) (acc r : big_integer) (hacc : wf acc)
    (h : from_string_loop cs i acc = .ok r) : wf r := by
  induction cs generalizing i acc with
  | nil =>
    rw [from_string_loop] at h
    cases h; exact hacc
  | cons c cs ih =>
    rw [from_string_loop] at h
    split at h
    · exact ih _ _ hacc h
    · split at h
      · cases h
      · exact ih _ _ (wf_add _ _) h

theorem normal_form_from_decimal_string (s : List Char) (r : big_integer)
    (h : from_decimal_string s = .ok r) : normal_form r := by
  unfold from_decimal_string at h
  cases hl : from_string_loop s 0 zero with
  | error e => rw [hl] at h; cases h
  | ok r0 =>
    rw [hl] at h
    simp only [] at h
    have hw := wf_from_string_loop s 0 zero r0 wf_zero hl
    cases h
    refine normal_form_of (wf_shrink_to_fit ?_) (canonical_shrink_to_fit _)
    split
    · exact wf_negate _
    · exact hw

theorem trial_quotient_lt {r2 r1 r0 d1 d0 qt : Nat} (h : trial_quotient r2 r1 r0 d1 d0 = .ok qt) :
    qt < 2 ^ 32 := by
  unfold trial_quotient at h
  simp only [] at h
  split at h
  · cases h
  · cases h; exact u32_lt _

theorem digits_ok_divide_step (d : big_integer) (n m fill k : Nat) (r : big_integer)
    (result : List Nat) (st : big_integer × List Nat) (hres : digits_ok result)
    (h : divide_step d n m fill k r result = .ok st) : digits_ok st.2 := by
  unfold divide_step at h
  simp only [] at h
  split at h
  · split at h
    · cases h
    · rename_i qt hq
      cases h
      apply digits_ok_set hres
      split
      · exact u32_lt _
      · exact trial_quotient_lt hq
  · cases h

theorem digits_ok_divide_loop (d : big_integer) (n m fill : Nat) (cnt : Nat) :
    ∀ (r : big_integer) (result out : List Nat), digits_ok result →
      divide_loop d n m fill cnt r result = .ok out → digits_ok out := by
  induction cnt with
  | zero =>
    intro r result out hres h
    rw [divide_loop] at h
    cases h; exact hres
  | succ k ih =>
    intro r result out hres h
    rw [divide_loop_succ] at h
    cases hs : divide_step d n m fill k r result with
    | error e => rw [hs] at h; cases h
    | ok st =>
      rw [hs] at h
      exact ih st.1 st.2 out (digits_ok_divide_step d n m fill k r result st hres hs) h

theorem wf_div_by_uint32_t {x : big_integer} (hx : wf x) {rhs : Nat} (hr : rhs < 2 ^ 32)
    (qr : big_integer × Nat) (h : div_by_uint32_t x rhs = .ok qr) :
    wf qr.1 ∧ canonical qr.1 := by
  unfold div_by_uint32_t at h
  split at h
  · cases h
  · rename_i h0
    cases h
    exact ⟨wf_shrink_to_fit (div_loop_spec (Nat.pos_of_ne_zero h0) hr x.data hx).2.2.1,
      canonical_shrink_to_fit _⟩

theorem getLastD_lt {l : List Nat} (h : digits_ok l) : l.getLastD 0 < 2 ^ 32 := by
  rw [List.getLastD_eq_getLast?]
  cases hl : l.getLast? with
  | none => simp
  | some d => exact h d (List.mem_of_mem_getLast? hl)

/-- Whatever `operator/=` returns is well-formed and canonical. -/
theorem normal_form_divide {a b : big_integer} (ha : wf a) (hb : wf b) (r : big_integer)
    (h : divide a b = .ok r) : normal_form r := by
  by_cases h0 : comparator b (from_int 0) = 0
  · unfold divide at h; rw [if_pos h0] at h; cases h
  by_cases h1 : comparator (abs b) (abs a) > 0
  · unfold divide at h
    rw [if_neg h0] at h
    simp only [] at h
    rw [if_pos h1] at h
    cases h
    exact normal_form_of (wf_from_int 0) (canonical_shrink_to_fit _)
  by_cases h2 : (abs b).data.length = 1
  · unfold divide at h
    rw [if_neg h0] at h
    simp only [] at h
    rw [if_neg h1, if_pos h2] at h
    cases hq : div_by_uint32_t (abs a) ((abs b).data.getLastD 0) with
    | error e => rw [hq] at h; cases h
    | ok qr =>
      rw [hq] at h
      simp only [] at h
      have hw := wf_div_by_uint32_t (wf_abs ha) (getLastD_lt (wf_abs hb)) qr hq
      cases h
      split
      · exact normal_form_of (wf_negate _) (canonical_add _ _)
      · exact normal_form_of hw.1 hw.2
  · rw [divide_eq_of_long a b h0 h1 h2] at h
    split at h
    · cases h
    · split at h
      · cases h
      · split at h
        · cases h
        · split at h
          · cases h
          · rename_i digits hd
            have hok := digits_ok_divide_loop _ _ _ _ _ _ _ _
              (digits_ok_replicate (empty_block_lt (abs a))) hd
            cases h
            refine normal_form_of (wf_shrink_to_fit ?_) (canonical_shrink_to_fit _)
            split
            · exact wf_negate _
            · exact hok

end big_integer

namespace big_integer

theorem normal_form_add (a b : big_integer) : normal_form (add a b) :=
  normal_form_of (wf_add a b) (canonical_add a b)

theorem normal_form_multiply {a b : big_integer} (ha : wf a) (hb : wf b) (r : big_integer)
    (h : multiply a b = .ok r) : normal_form r := by
  obtain ⟨p, hp, wp, cp, _⟩ := multiply_spec ha hb
  rw [hp] at h
  cases h
  exact normal_form_of wp cp

theorem normal_form_modulo (a b r : big_integer) (h : modulo a b = .ok r) :
    normal_form r := by
  unfold modulo at h
  split at h
  · cases h
  · split at h
    · cases h
    · cases h; exact normal_form_add _ _

/-- C17: every public operation, given canonical operands, returns a canonical value
whenever it returns (its digit vector is empty or ends in a digit other than the fill
word), and a result that is zero is the empty vector with the sign flag cleared. -/
theorem C17_results_canonical (a b : big_integer) (z : Int) (n : Nat) (s : List Char)
    (ha : wf a) (hb : wf b) (hca : canonical a) (_hcb : canonical b) :
    normal_form (from_int z) ∧
    (∀ r, from_decimal_string s = .ok r → normal_form r) ∧
    normal_form (add a b) ∧
    normal_form (subtract a b) ∧
    (∀ r, multiply a b = .ok r → normal_form r) ∧
    (∀ r, divide a b = .ok r → normal_form r) ∧
    (∀ r, modulo a b = .ok r → normal_form r) ∧
    normal_form (negate a) ∧
    normal_form (bitwise_not a) ∧
    normal_form (bit_and a b) ∧
    normal_form (bit_or a b) ∧
    normal_form (bit_xor a b) ∧
    normal_form (shift_left a n) ∧
    normal_form (shift_right a n) ∧
    normal_form (increment a) ∧
    normal_form (decrement a) := by
  refine ⟨normal_form_of (wf_from_int z) (canonical_shrink_to_fit _),
    normal_form_from_decimal_string s, normal_form_add _ _, normal_form_add _ _,
    normal_form_multiply ha hb, normal_form_divide ha hb, normal_form_modulo a b,
    normal_form_add _ _, normal_form_of (wf_bitwise_not a) (canonical_shrink_to_fit _),
    ?_, ?_, ?_, ?_, ?_, normal_form_add _ _, normal_form_add _ _⟩
  · exact normal_form_of (wf_common_fun_bits (fun x y _ hy => Nat.and_lt_two_pow x hy) ha hb)
      (canonical_shrink_to_fit _)
  · exact normal_form_of (wf_common_fun_bits (fun x y hx hy => Nat.or_lt_two_pow hx hy) ha hb)
      (canonical_shrink_to_fit _)
  · exact normal_form_of (wf_common_fun_bits (fun x y hx hy => Nat.xor_lt_two_pow hx hy) ha hb)
      (canonical_shrink_to_fit _)
  · refine normal_form_of (wf_shift_left ha n) ?_
    unfold shift_left
    split
    · exact hca
    · exact canonical_shrink_to_fit _
  · refine normal_form_of (wf_shift_right ha n) ?_
    unfold shift_right
    split
    · exact hca
    · exact canonical_shrink_to_fit _

theorem C17_results_canonical_witness :
    wf ⟨[3735027712, 902409669, 54], true⟩ ∧ wf ⟨[3567587327, 232], false⟩ ∧
    canonical ⟨[3735027712, 902409669, 54], true⟩ ∧ canonical ⟨[3567587327, 232], false⟩ ∧
    (normal_form (from_int (-7)) ∧
    (∀ r, from_decimal_string ['-', '4', '2'] = .ok r → normal_form r) ∧
    normal_form (add ⟨[3735027712, 902409669, 54], true⟩ ⟨[3567587327, 232], false⟩) ∧
    normal_form (subtract ⟨[3735027712, 902409669, 54], true⟩ ⟨[3567587327, 232], false⟩) ∧
    (∀ r, multiply ⟨[3735027712, 902409669, 54], true⟩ ⟨[3567587327, 232], false⟩ = .ok r →
      normal_form r) ∧
    (∀ r, divide ⟨[3735027712, 902409669, 54], true⟩ ⟨[3567587327, 232], false⟩ = .ok r →
      normal_form r) ∧
    (∀ r, modulo ⟨[3735027712, 902409669, 54], true⟩ ⟨[3567587327, 232], false⟩ = .ok r →
      normal_form r) ∧
    normal_form (negate ⟨[3735027712, 902409669, 54], true⟩) ∧
    normal_form (bitwise_not ⟨[3735027712, 902409669, 54], true⟩) ∧
    normal_form (bit_and ⟨[3735027712, 902409669, 54], true⟩ ⟨[3567587327, 232], false⟩) ∧
    normal_form (bit_or ⟨[3735027712, 902409669, 54], true⟩ ⟨[3567587327, 232], false⟩) ∧
    normal_form (bit_xor ⟨[3735027712, 902409669, 54], true⟩ ⟨[3567587327, 232], false⟩) ∧
    normal_form (shift_left ⟨[3735027712, 902409669, 54], true⟩ 33) ∧
    normal_form (shift_right ⟨[3735027712, 902409669, 54], true⟩ 33) ∧
    normal_form (increment ⟨[3735027712, 902409669, 54], true⟩) ∧
    normal_form (decrement ⟨[3735027712, 902409669, 54], true⟩)) :=
  ⟨by decide, by decide, by decide, by decide,
    C17_results_canonical ⟨[3735027712, 902409669, 54], true⟩ ⟨[3567587327, 232], false⟩ (-7) 33
      ['-', '4', '2'] (by decide) (by decide) (by decide) (by decide)⟩

end big_integer

/-! ## The arithmetic of Knuth's division -/

/-- The normalization factor `f = 2^32 / (t + 1)` of a leading digit `t` between `1` and
`2^32 - 2`: it is a nonzero word and it scales `t` to at least `2^31`. -/
theorem knuth_factor {t : Nat} (h1 : 1 ≤ t) (h2 : t + 1 < 2 ^ 32) :
    1 ≤ 2 ^ 32 / (t + 1) ∧ 2 ^ 32 / (t + 1) ≤ 2 ^ 31 ∧
    2 ^ 32 / (t + 1) * (t + 1) ≤ 2 ^ 32 ∧ 2 ^ 31 ≤ t * (2 ^ 32 / (t + 1)) := by
  have hle : 2 ^ 32 / (t + 1) * (t + 1) ≤ 2 ^ 32 := Nat.div_mul_le_self _ _
  have hlt : 2 ^ 32 < (t + 1) * (2 ^ 32 / (t + 1) + 1) := Nat.lt_mul_div_succ _ (by omega)
  generalize 2 ^ 32 / (t + 1) = f at *
  have hf1 : 1 ≤ f := by
    by_contra h
    have : f = 0 := by omega
    subst this
    omega
  have hf2 : f ≤ 2 ^ 31 := by
    have : f * 2 ≤ f * (t + 1) := Nat.mul_le_mul_left _ (by omega)
    omega
  refine ⟨hf1, hf2, hle, ?_⟩
  by_cases ht : 2 ^ 31 ≤ t
  · calc 2 ^ 31 ≤ t := ht
      _ = t * 1 := (Nat.mul_one t).symm
      _ ≤ t * f := Nat.mul_le_mul_left _ hf1
  · by_contra hc
    have hlt' : (2 : Int) ^ 32 < (t + 1) * (f + 1) := by exact_mod_cast hlt
    have hc' : (t : Int) * f < 2 ^ 31 := by exact_mod_cast Nat.lt_of_not_le hc
    have ht' : (t : Int) < 2 ^ 31 := by exact_mod_cast Nat.lt_of_not_le ht
    have h1' : (1 : Int) ≤ t := by exact_mod_cast h1
    have hf' : (2 : Int) ^ 31 - t + 1 ≤ f := by nlinarith
    have hp1 : (0 : Int) ≤ (t - 1) * (2 ^ 31 - t) :=
      mul_nonneg (by linarith) (by linarith)
    have hp2 : (0 : Int) ≤ t * (f - (2 ^ 31 - t + 1)) :=
      mul_nonneg (by linarith) (by linarith)
    nlinarith

/-- Knuth's estimate: with the divisor `Y = V * X + E` normalized (`V >= 2^63`, that is a
leading digit `>= 2^31`) and the remainder `R = T * X + Rlow < Y * 2^32`, the quotient of
the leading parts `T / V`, capped at `2^32 - 1`, is the true quotient digit `R / Y` or that
plus one. -/
theorem knuth_estimate {X T V Rlow E : Nat} (hRlow : Rlow < X) (hE : E < X)
    (hV : 2 ^ 63 ≤ V) (hR : T * X + Rlow < (V * X + E) * 2 ^ 32) :
    (T * X + Rlow) / (V * X + E) ≤ min (T / V) (2 ^ 32 - 1) ∧
    min (T / V) (2 ^ 32 - 1) ≤ (T * X + Rlow) / (V * X + E) + 1 := by
  have hX : 0 < X := by omega
  have hVpos : 0 < V := by omega
  have hY : 0 < V * X + E := by positivity
  have hq1 : (T * X + Rlow) / (V * X + E) * (V * X + E) ≤ T * X + Rlow :=
    Nat.div_mul_le_self _ _
  have hq2 : T * X + Rlow < (V * X + E) * ((T * X + Rlow) / (V * X + E) + 1) :=
    Nat.lt_mul_div_succ _ hY
  have hh1 : T / V * V ≤ T := Nat.div_mul_le_self _ _
  generalize (T * X + Rlow) / (V * X + E) = q at *
  constructor
  · apply Nat.le_min.2
    constructor
    · rw [Nat.le_div_iff_mul_le hVpos]
      by_contra hc
      have hc' : T + 1 ≤ q * V := by omega
      have h3 : (T + 1) * X ≤ q * V * X := Nat.mul_le_mul_right _ hc'
      have h4 : q * V * X ≤ q * (V * X + E) := by
        rw [Nat.mul_assoc]; exact Nat.mul_le_mul_left _ (by omega)
      have h5 : (T + 1) * X = T * X + X := by ring
      omega
    · by_contra hc
      have hc' : 2 ^ 32 ≤ q := by omega
      have h3 : 2 ^ 32 * (V * X + E) ≤ q * (V * X + E) := Nat.mul_le_mul_right _ hc'
      have h4 : (V * X + E) * 2 ^ 32 = 2 ^ 32 * (V * X + E) := Nat.mul_comm _ _
      omega
  · by_contra hc
    have hc' : q + 2 ≤ min (T / V) (2 ^ 32 - 1) := by omega
    have hm1 : q + 2 ≤ T / V := le_trans hc' (Nat.min_le_left _ _)
    have hm2 : q + 2 ≤ 2 ^ 32 - 1 := le_trans hc' (Nat.min_le_right _ _)
    have h3 : (q + 2) * V ≤ T := le_trans (Nat.mul_le_mul_right _ hm1) hh1
    have h4 : (q + 2) * V * X ≤ T * X := Nat.mul_le_mul_right _ h3
    have h5 : (q + 1) * E ≤ (q + 1) * X := Nat.mul_le_mul_left _ hE.le
    have h6 : (q + 1) * X ≤ V * X := Nat.mul_le_mul_right _ (by omega)
    have h7 : (V * X + E) * (q + 1) = (q + 1) * V * X + (q + 1) * E := by ring
    have h8 : (q + 2) * V * X = (q + 1) * V * X + V * X := by ring
    omega

/-- From the estimate to the digit: if the estimate times the divisor exceeds the remainder
the digit is the estimate minus one, else it is the estimate. -/
theorem knuth_correct {R Y q0 : Nat} (hY : 0 < Y) (h1 : R / Y ≤ q0) (h2 : q0 ≤ R / Y + 1) :
    (R < q0 * Y → q0 = R / Y + 1) ∧ (¬ R < q0 * Y → q0 = R / Y) := by
  have hq1 : R / Y * Y ≤ R := Nat.div_mul_le_self _ _
  have hq2 : R < Y * (R / Y + 1) := Nat.lt_mul_div_succ _ hY
  generalize R / Y = q at *
  constructor
  · intro h
    by_contra hc
    have : q0 = q := by omega
    subst this
    omega
  · intro h
    by_contra hc
    have : q0 = q + 1 := by omega
    subst this
    rw [Nat.mul_comm] at hq2
    omega

theorem natVal_split_last (l : List Nat) (hne : l ≠ []) :
    natVal l = natVal l.dropLast + 2 ^ (32 * (l.length - 1)) * l.getLastD 0 ∧
    (digits_ok l → natVal l.dropLast < 2 ^ (32 * (l.length - 1)) ∧ l.getLastD 0 < 2 ^ 32) := by
  obtain ⟨init, top, rfl⟩ : ∃ init top, l = init ++ [top] :=
    ⟨l.dropLast, l.getLast hne, (List.dropLast_append_getLast hne).symm⟩
  have e1 : (init ++ [top]).dropLast = init := by simp
  have e2 : (init ++ [top]).getLastD 0 = top := by simp
  have e3 : (init ++ [top]).length - 1 = init.length := by simp
  rw [e1, e2, e3]
  constructor
  · rw [natVal_append, natVal_cons, natVal_nil]; ring
  · intro h
    have h' := digits_ok_append.1 h
    exact ⟨natVal_lt init h'.1, h'.2 top (List.mem_singleton_self _)⟩

theorem getLastD_eq_getD (l : List Nat) : l.getLastD 0 = l.getD (l.length - 1) 0 := by
  by_cases hne : l = []
  · subst hne; rfl
  · obtain ⟨init, top, rfl⟩ : ∃ init top, l = init ++ [top] :=
      ⟨l.dropLast, l.getLast hne, (List.dropLast_append_getLast hne).symm⟩
    simp [List.getD_eq_getElem?_getD]

namespace big_integer

/-- The last digit of a canonical non-negative value is not zero. -/
theorem last_digit_pos {x : big_integer} (hc : canonical x) (hs : x.sign = false)
    (hne : x.data ≠ []) : 1 ≤ x.data.getLastD 0 := by
  by_contra h
  have h0 : x.data.getLastD 0 = 0 := by omega
  apply hc
  rw [List.getLastD_eq_getLast?, List.getLast?_eq_getLast _ hne] at h0
  rw [List.getLast?_eq_getLast _ hne, empty_block, hs]
  simp only [Option.getD_some] at h0
  simp [h0]

/-- A canonical non-negative value with `n` stored digits is at least `2^(32 (n - 1))`. -/
theorem natVal_ge_of_canonical {x : big_integer} (hc : canonical x) (hs : x.sign = false)
    (hne : x.data ≠ []) : 2 ^ (32 * (x.data.length - 1)) ≤ natVal x.data := by
  have h1 := last_digit_pos hc hs hne
  have h2 := (natVal_split_last x.data hne).1
  have h3 : 2 ^ (32 * (x.data.length - 1)) * 1 ≤
      2 ^ (32 * (x.data.length - 1)) * x.data.getLastD 0 := Nat.mul_le_mul_left _ h1
  omega

/-- A canonical non-negative value below `2^(32 L)` has at most `L` stored digits. -/
theorem length_le_of_canonical {x : big_integer} (hc : canonical x) (hs : x.sign = false)
    {L : Nat} (hlt : natVal x.data < 2 ^ (32 * L)) : x.data.length ≤ L := by
  by_contra h
  have hne : x.data ≠ [] := by
    intro e; rw [e] at h; simp at h
  have h1 := natVal_ge_of_canonical hc hs hne
  have h2 : 2 ^ (32 * L) ≤ 2 ^ (32 * (x.data.length - 1)) :=
    Nat.pow_le_pow_right (by norm_num) (by omega)
  omega

/-- The normalization of `operator/=`: for a canonical positive divisor whose last digit is
not `0xFFFFFFFF`, the factor is `2^32 / (t + 1)`, a nonzero word, and the scaled divisor
has as many digits as the divisor, the last one at least `2^31`. -/
theorem normalization_spec {b : big_integer} (hb : wf b) (hc : canonical b)
    (hs : b.sign = false) (hne : b.data ≠ []) (ht : b.data.getLastD 0 ≠ UINT32_MAX) :
    normalization_factor (b.data.getLastD 0) = .ok (2 ^ 32 / (b.data.getLastD 0 + 1)) ∧
    1 ≤ 2 ^ 32 / (b.data.getLastD 0 + 1) ∧ 2 ^ 32 / (b.data.getLastD 0 + 1) ≤ 2 ^ 31 ∧
    (mul_by_uint32_t b (u32 (2 ^ 32 / (b.data.getLastD 0 + 1)))).data.length = b.data.length ∧
    2 ^ 31 ≤ (mul_by_uint32_t b (u32 (2 ^ 32 / (b.data.getLastD 0 + 1)))).data.getLastD 0 ∧
    natVal (mul_by_uint32_t b (u32 (2 ^ 32 / (b.data.getLastD 0 + 1)))).data =
      natVal b.data * (2 ^ 32 / (b.data.getLastD 0 + 1)) := by
  have hsp := natVal_split_last b.data hne
  obtain ⟨hinit, htlt⟩ := hsp.2 hb
  have hval := hsp.1
  have ht1 := last_digit_pos hc hs hne
  have ht2 : b.data.getLastD 0 + 1 < 2 ^ 32 := by
    unfold UINT32_MAX at ht; omega
  obtain ⟨hf1, hf2, hf3, hf4⟩ := knuth_factor ht1 ht2
  have hnf : normalization_factor (b.data.getLastD 0) =
      .ok (2 ^ 32 / (b.data.getLastD 0 + 1)) := by
    unfold normalization_factor
    simp only [u32_of_lt ht2, u64_of_lt (lt_trans ht2 (by norm_num : 2 ^ 32 < 2 ^ 64)), BASE]
    rw [if_neg (by omega)]
  generalize hfdef : 2 ^ 32 / (b.data.getLastD 0 + 1) = f at *
  generalize htdef : b.data.getLastD 0 = t at *
  have hf32 : f < 2 ^ 32 := by omega
  rw [u32_of_lt hf32]
  have hnv := natVal_mul_by_uint32_t hb hf32
  have hwd := wf_mul_by_uint32_t hb hf32
  have hcd := canonical_mul_by_uint32_t b f
  have hsd := mul_by_uint32_t_sign b f
  obtain ⟨n, hn⟩ : ∃ n, b.data.length = n + 1 :=
    ⟨b.data.length - 1, by have := List.length_pos.2 hne; omega⟩
  rw [hn] at hval hinit ⊢
  simp only [Nat.add_sub_cancel] at hval hinit
  generalize hP : 2 ^ (32 * n) = P at *
  have hPpos : 0 < P := by rw [← hP]; positivity
  -- bounds on the scaled value
  have hlow : P * 2 ^ 31 ≤ natVal b.data * f := by
    have h1 : P * 2 ^ 31 ≤ P * (t * f) := Nat.mul_le_mul_left _ hf4
    have h2 : P * (t * f) = P * t * f := by ring
    have h3 : P * t * f ≤ natVal b.data * f := Nat.mul_le_mul_right _ (by omega)
    omega
  have hupp : natVal b.data * f < P * 2 ^ 32 := by
    have h1 : natVal b.data + 1 ≤ P * (t + 1) := by rw [Nat.mul_add]; omega
    have h2 : (natVal b.data + 1) * f ≤ P * (t + 1) * f := Nat.mul_le_mul_right _ h1
    have h3 : P * (t + 1) * f = P * (f * (t + 1)) := by ring
    have h4 : P * (f * (t + 1)) ≤ P * 2 ^ 32 := Nat.mul_le_mul_left _ hf3
    have h5 : (natVal b.data + 1) * f = natVal b.data * f + f := by ring
    omega
  rw [← hnv] at hlow hupp
  have hlen1 : (mul_by_uint32_t b f).data.length ≤ n + 1 := by
    apply length_le_of_canonical hcd hsd
    rw [pow_succ_32, hP, Nat.mul_comm]; exact hupp
  have hned : (mul_by_uint32_t b f).data ≠ [] := by
    intro e
    rw [e, natVal_nil] at hlow
    have : 0 < P * 2 ^ 31 := by positivity
    omega
  have hlen2 : n + 1 ≤ (mul_by_uint32_t b f).data.length := by
    by_contra h
    have h1 := natVal_lt _ hwd
    have h2 : 2 ^ (32 * (mul_by_uint32_t b f).data.length) ≤ 2 ^ (32 * n) :=
      Nat.pow_le_pow_right (by norm_num) (by omega)
    rw [hP] at h2
    have h3 : P * 1 ≤ P * 2 ^ 31 := Nat.mul_le_mul_left _ (by norm_num)
    omega
  have hlen : (mul_by_uint32_t b f).data.length = n + 1 := by omega
  refine ⟨hnf, hf1, hf2, hlen, ?_, hnv⟩
  have hsp' := natVal_split_last _ hned
  obtain ⟨hinit', _⟩ := hsp'.2 hwd
  have hval' := hsp'.1
  rw [hlen] at hval' hinit'
  simp only [Nat.add_sub_cancel] at hval' hinit'
  rw [hP] at hval' hinit'
  by_contra hc'
  have h1 : (mul_by_uint32_t b f).data.getLastD 0 + 1 ≤ 2 ^ 31 := by omega
  have h2 : P * ((mul_by_uint32_t b f).data.getLastD 0 + 1) ≤ P * 2 ^ 31 :=
    Nat.mul_le_mul_left _ h1
  rw [Nat.mul_add] at h2
  omega

end big_integer

theorem natVal_top_two (l : List Nat) (j : Nat) :
    natVal l = natVal (l.take j) +
      2 ^ (32 * j) * (l.getD j 0 + 2 ^ 32 * (l.getD (j + 1) 0 + 2 ^ 32 * natVal (l.drop (j + 2)))) := by
  rw [natVal_take_drop l j, natVal_drop l j, natVal_drop l (j + 1)]

theorem natVal_take_lt {l : List Nat} (h : digits_ok l) (j : Nat) :
    natVal (l.take j) < 2 ^ (32 * j) := by
  refine lt_of_lt_of_le (natVal_lt _ (digits_ok_take j h)) ?_
  exact Nat.pow_le_pow_right (by norm_num) (by rw [List.length_take]; omega)

namespace big_integer

theorem at_index_ok (v : List Nat) (i : Nat) (h : i < v.length) :
    at_index v (i : Int) = .ok (v.getD i 0) := by
  unfold at_index
  rw [if_pos ⟨by omega, by exact_mod_cast h⟩]
  simp

/-- When all five reads are in range, one iteration of the loop of `operator/=` is the
estimate, the comparison and the subtraction. -/
theorem divide_step_eq (d : big_integer) (n m fill k : Nat) (r : big_integer)
    (result : List Nat) (hn : 2 ≤ n) (hk : n + k ≤ m) (hdn : n ≤ d.data.length) :
    divide_step d n m fill k r result =
      match trial_quotient ((resize r.data (m + n + 1) fill).getD (n + k) 0)
        ((resize r.data (m + n + 1) fill).getD (n + k - 1) 0)
        ((resize r.data (m + n + 1) fill).getD (n + k - 2) 0)
        (d.data.getD (n - 1) 0) (d.data.getD (n - 2) 0) with
      | .error e => .error e
      | .ok qt =>
        .ok (subtract ⟨resize r.data (m + n + 1) fill, r.sign⟩
          (if decide (comparator ⟨resize r.data (m + n + 1) fill, r.sign⟩
              ⟨List.replicate k 0 ++ (mul_by_uint32_t d qt).data, false⟩ < 0) = true then
            shift_left (mul_by_uint32_t d (u32 (qt + UINT32_MAX))) (BIT_DEPTH * k)
          else ⟨List.replicate k 0 ++ (mul_by_uint32_t d qt).data, false⟩),
          result.set k
            (if decide (comparator ⟨resize r.data (m + n + 1) fill, r.sign⟩
              ⟨List.replicate k 0 ++ (mul_by_uint32_t d qt).data, false⟩ < 0) = true then
              u32 (qt + UINT32_MAX) else qt)) := by
  have e1 : ((n : Int) + k - 2) = ((n + k - 2 : Nat) : Int) := by omega
  have e2 : ((n : Int) + k - 1) = ((n + k - 1 : Nat) : Int) := by omega
  have e3 : ((n : Int) + k) = ((n + k : Nat) : Int) := by omega
  have e4 : ((n : Int) - 2) = ((n - 2 : Nat) : Int) := by omega
  have e5 : ((n : Int) - 1) = ((n - 1 : Nat) : Int) := by omega
  have hl := resize_length r.data (m + n + 1) fill
  unfold divide_step
  simp only []
  rw [e1, e2, e3, e4, e5, at_index_ok _ (n + k - 2) (by omega), at_index_ok _ (n + k - 1) (by omega),
    at_index_ok _ (n + k) (by omega), at_index_ok _ (n - 2) (by omega),
    at_index_ok _ (n - 1) (by omega)]
  simp only []
  cases trial_quotient ((resize r.data (m + n + 1) fill).getD (n + k) 0)
      ((resize r.data (m + n + 1) fill).getD (n + k - 1) 0)
      ((resize r.data (m + n + 1) fill).getD (n + k - 2) 0)
      (d.data.getD (n - 1) 0) (d.data.getD (n - 2) 0) with
  | error e => rfl
  | ok qt =>
    simp only []
    by_cases hlt : comparator ⟨resize r.data (m + n + 1) fill, r.sign⟩
        ⟨List.replicate k 0 ++ (mul_by_uint32_t d qt).data, false⟩ < 0
    · simp only [hlt, decide_True, if_true]
    · simp only [hlt, decide_False, Bool.false_eq_true, if_false]

end big_integer

namespace big_integer

/-- With a normalized divisor the estimate of `operator/=` is the quotient of the leading
digits, capped at `2^32 - 1`. -/
theorem trial_quotient_eq {r2 r1 r0 d1 d0 : Nat} (hd1 : d1 < 2 ^ 32) (hd0 : d0 < 2 ^ 32)
    (hpos : 2 ^ 31 ≤ d1) :
    trial_quotient r2 r1 r0 d1 d0 =
      .ok (min (((r2 * 2 ^ 32 + r1) * 2 ^ 32 + r0) / (d1 * 2 ^ 32 + d0)) (2 ^ 32 - 1)) := by
  have h1 : u64 (d1 * 2 ^ 32) = d1 * 2 ^ 32 := u64_of_lt (by omega)
  have h2 : u64 (d1 * 2 ^ 32 + d0) = d1 * 2 ^ 32 + d0 := u64_of_lt (by omega)
  unfold trial_quotient BIT_DEPTH BASE
  rw [Nat.shiftLeft_eq, h1, h2, if_neg (by omega)]
  congr 1
  generalize ((r2 * 2 ^ 32 + r1) * 2 ^ 32 + r0) / (d1 * 2 ^ 32 + d0) = x
  by_cases hx : x > 2 ^ 32 - 1
  · rw [if_pos hx, Nat.min_eq_right (by omega)]; exact u32_of_lt (by norm_num)
  · rw [if_neg hx, Nat.min_eq_left (by omega)]; exact u32_of_lt (by omega)

end big_integer

/-- The decomposition used by the estimate of a quotient digit: three leading digits of
the remainder over two leading digits of the divisor. -/
theorem knuth_digits {P Q Dlow d0 d1 Rlow r0 r1 r2 Z D R : Nat}
    (hD : D = Dlow + P * (d0 + 2 ^ 32 * d1)) (hDlow : Dlow < P)
    (hR : R = Rlow + P * Q * (r0 + 2 ^ 32 * (r1 + 2 ^ 32 * (r2 + 2 ^ 32 * Z))))
    (hRlow : Rlow < P * Q) (hlt : R < D * (Q * 2 ^ 32)) (hd0 : d0 < 2 ^ 32)
    (hd1 : d1 < 2 ^ 32) (htop : 2 ^ 31 ≤ d1) (hQ : 0 < Q) :
    0 < D * Q ∧
    R / (D * Q) ≤ min (((r2 * 2 ^ 32 + r1) * 2 ^ 32 + r0) / (d1 * 2 ^ 32 + d0)) (2 ^ 32 - 1) ∧
    min (((r2 * 2 ^ 32 + r1) * 2 ^ 32 + r0) / (d1 * 2 ^ 32 + d0)) (2 ^ 32 - 1) ≤
      R / (D * Q) + 1 := by
  have hP : 0 < P := by omega
  have hPQ : 0 < P * Q := Nat.mul_pos hP hQ
  have hY : D * Q = (d1 * 2 ^ 32 + d0) * (P * Q) + Dlow * Q := by rw [hD]; ring
  have hE : Dlow * Q < P * Q := Nat.mul_lt_mul_of_pos_right hDlow hQ
  have hZ : Z = 0 := by
    by_contra hz
    have hz1 : 1 ≤ Z := Nat.one_le_iff_ne_zero.2 hz
    have h1 : P * Q * (2 ^ 32 * (2 ^ 32 * (2 ^ 32 * 1))) ≤
        P * Q * (r0 + 2 ^ 32 * (r1 + 2 ^ 32 * (r2 + 2 ^ 32 * Z))) := by
      apply Nat.mul_le_mul_left
      have : 2 ^ 32 * (2 ^ 32 * (2 ^ 32 * 1)) ≤ 2 ^ 32 * (2 ^ 32 * (2 ^ 32 * Z)) :=
        Nat.mul_le_mul_left _ (Nat.mul_le_mul_left _ (Nat.mul_le_mul_left _ hz1))
      have e : 2 ^ 32 * (r1 + 2 ^ 32 * (r2 + 2 ^ 32 * Z)) =
          2 ^ 32 * r1 + 2 ^ 32 * (2 ^ 32 * r2) + 2 ^ 32 * (2 ^ 32 * (2 ^ 32 * Z)) := by ring
      omega
    have h2 : D * Q + 1 ≤ 2 ^ 32 * 2 ^ 32 * (P * Q) := by
      have : (d1 * 2 ^ 32 + d0 + 1) * (P * Q) ≤ 2 ^ 32 * 2 ^ 32 * (P * Q) :=
        Nat.mul_le_mul_right _ (by omega)
      rw [Nat.add_mul, Nat.one_mul] at this
      omega
    have h3 : (D * Q + 1) * 2 ^ 32 ≤ 2 ^ 32 * 2 ^ 32 * (P * Q) * 2 ^ 32 :=
      Nat.mul_le_mul_right _ h2
    have e1 : D * (Q * 2 ^ 32) = D * Q * 2 ^ 32 := by ring
    have e2 : 2 ^ 32 * 2 ^ 32 * (P * Q) * 2 ^ 32 = P * Q * (2 ^ 32 * (2 ^ 32 * (2 ^ 32 * 1))) := by
      ring
    have e3 : (D * Q + 1) * 2 ^ 32 = D * Q * 2 ^ 32 + 2 ^ 32 := by ring
    omega
  subst hZ
  have hRT : R = ((r2 * 2 ^ 32 + r1) * 2 ^ 32 + r0) * (P * Q) + Rlow := by rw [hR]; ring
  have hlt' : ((r2 * 2 ^ 32 + r1) * 2 ^ 32 + r0) * (P * Q) + Rlow <
      ((d1 * 2 ^ 32 + d0) * (P * Q) + Dlow * Q) * 2 ^ 32 := by
    rw [← hRT, ← hY, Nat.mul_assoc]; exact hlt
  have hV : 2 ^ 63 ≤ d1 * 2 ^ 32 + d0 := by omega
  have hest := knuth_estimate hRlow hE hV hlt'
  rw [← hRT, ← hY] at hest
  refine ⟨?_, hest.1, hest.2⟩
  rw [hY]
  have : 0 < (d1 * 2 ^ 32 + d0) * (P * Q) := Nat.mul_pos (by omega) hPQ
  omega

namespace big_integer

/-- One iteration of the quotient-digit loop under normalization: the estimate is the true
digit or one more, the stored digit is the true digit, and the new remainder is the old one
modulo `d * 2^(32 k)`. -/
theorem divide_step_spec {d r : big_integer} {n m k : Nat} (result : List Nat)
    (hd : wf d) (hdn : d.data.length = n) (hn : 2 ≤ n) (htop : 2 ^ 31 ≤ d.data.getD (n - 1) 0)
    (hr : wf r) (hrs : r.sign = false) (hrl : r.data.length ≤ m + n + 1) (hk : n + k ≤ m)
    (hlt : natVal r.data < natVal d.data * 2 ^ (32 * (k + 1))) :
    ∃ qt0 r',
      trial_quotient ((resize r.data (m + n + 1) 0).getD (n + k) 0)
        ((resize r.data (m + n + 1) 0).getD (n + k - 1) 0)
        ((resize r.data (m + n + 1) 0).getD (n + k - 2) 0)
        (d.data.getD (n - 1) 0) (d.data.getD (n - 2) 0) = .ok qt0 ∧
      natVal r.data / (natVal d.data * 2 ^ (32 * k)) ≤ qt0 ∧
      qt0 ≤ natVal r.data / (natVal d.data * 2 ^ (32 * k)) + 1 ∧
      divide_step d n m 0 k r result =
        .ok (r', result.set k (natVal r.data / (natVal d.data * 2 ^ (32 * k)))) ∧
      wf r' ∧ canonical r' ∧ r'.sign = false ∧
      natVal r'.data + natVal r.data / (natVal d.data * 2 ^ (32 * k)) *
        (natVal d.data * 2 ^ (32 * k)) = natVal r.data ∧
      natVal r'.data < natVal d.data * 2 ^ (32 * k) := by
  have hrd_ok : digits_ok (resize r.data (m + n + 1) 0) := digits_ok_resize _ hr (by norm_num)
  have hrd_val : natVal (resize r.data (m + n + 1) 0) = natVal r.data := by
    rw [resize_of_le _ hrl, natVal_append, natVal_replicate_zero, Nat.mul_zero, Nat.add_zero]
  rw [divide_step_eq d n m 0 k r result hn hk (by omega)]
  generalize resize r.data (m + n + 1) 0 = rdata at *
  -- the two leading digits of the divisor
  have hD := natVal_top_two d.data (n - 2)
  rw [List.drop_of_length_le (by omega : d.data.length ≤ n - 2 + 2), natVal_nil,
    show n - 2 + 1 = n - 1 by omega, Nat.mul_zero, Nat.add_zero] at hD
  have hDlow := natVal_take_lt hd (n - 2)
  have hd0 : d.data.getD (n - 2) 0 < 2 ^ 32 := getD_lt_of_digits_ok hd _ (by norm_num)
  have hd1 : d.data.getD (n - 1) 0 < 2 ^ 32 := getD_lt_of_digits_ok hd _ (by norm_num)
  -- the three leading digits of the remainder
  have hR := natVal_top_two rdata (n + k - 2)
  rw [natVal_drop rdata (n + k - 2 + 2), show n + k - 2 + 1 = n + k - 1 by omega,
    show n + k - 2 + 2 = n + k by omega, hrd_val] at hR
  have hRlow := natVal_take_lt hrd_ok (n + k - 2)
  have hX : 2 ^ (32 * (n + k - 2)) = 2 ^ (32 * (n - 2)) * 2 ^ (32 * k) := by
    rw [← pow_add, show 32 * (n + k - 2) = 32 * (n - 2) + 32 * k by omega]
  rw [hX] at hR hRlow
  rw [pow_succ_32, Nat.mul_comm (2 ^ 32)] at hlt
  have hQ : 0 < 2 ^ (32 * k) := by positivity
  obtain ⟨hYpos, hq1, hq2⟩ := knuth_digits hD hDlow hR hRlow hlt hd0 hd1 htop hQ
  rw [trial_quotient_eq hd1 hd0 htop]
  simp only []
  generalize hqt : min (((rdata.getD (n + k) 0 * 2 ^ 32 + rdata.getD (n + k - 1) 0) * 2 ^ 32 +
    rdata.getD (n + k - 2) 0) / (d.data.getD (n - 1) 0 * 2 ^ 32 + d.data.getD (n - 2) 0))
    (2 ^ 32 - 1) = qt0 at *
  have hqt32 : qt0 < 2 ^ 32 := by
    rw [← hqt]
    exact lt_of_le_of_lt (Nat.min_le_right _ _) (by norm_num)
  obtain ⟨hc1, hc2⟩ := knuth_correct hYpos hq1 hq2
  have hdiv1 : natVal r.data / (natVal d.data * 2 ^ (32 * k)) *
      (natVal d.data * 2 ^ (32 * k)) ≤ natVal r.data := Nat.div_mul_le_self _ _
  have hdiv2 : natVal r.data < natVal d.data * 2 ^ (32 * k) *
      (natVal r.data / (natVal d.data * 2 ^ (32 * k)) + 1) := Nat.lt_mul_div_succ _ hYpos
  generalize hq : natVal r.data / (natVal d.data * 2 ^ (32 * k)) = q at *
  -- the comparison `r < dq`
  have hw1 : wf ⟨rdata, r.sign⟩ := hrd_ok
  have hwt := wf_mul_by_uint32_t hd hqt32
  have hw2 : wf ⟨List.replicate k 0 ++ (mul_by_uint32_t d qt0).data, false⟩ :=
    digits_ok_append.2 ⟨digits_ok_replicate (by norm_num), hwt⟩
  have hv1 : toInt ⟨rdata, r.sign⟩ = (natVal r.data : Int) := by
    have hs1 : (⟨rdata, r.sign⟩ : big_integer).sign = false := hrs
    rw [toInt_of_sign_false hs1]; exact_mod_cast hrd_val
  have hv2 : toInt ⟨List.replicate k 0 ++ (mul_by_uint32_t d qt0).data, false⟩ =
      ((qt0 * (natVal d.data * 2 ^ (32 * k)) : Nat) : Int) := by
    rw [toInt_of_sign_false rfl]
    show ((natVal (List.replicate k 0 ++ (mul_by_uint32_t d qt0).data) : Nat) : Int) = _
    rw [natVal_append, natVal_replicate_zero, List.length_replicate,
      natVal_mul_by_uint32_t hd hqt32]
    congr 1; ring
  have hcmp := comparator_lt_iff hw1 hw2
  rw [hv1, hv2] at hcmp
  have hcmp' : comparator ⟨rdata, r.sign⟩
      ⟨List.replicate k 0 ++ (mul_by_uint32_t d qt0).data, false⟩ < 0 ↔
      natVal r.data < qt0 * (natVal d.data * 2 ^ (32 * k)) := by
    rw [hcmp]; exact_mod_cast Iff.rfl
  -- the value subtracted and the digit stored
  have key : ∃ dq, wf dq ∧ toInt dq = ((q * (natVal d.data * 2 ^ (32 * k)) : Nat) : Int) ∧
      (if decide (comparator ⟨rdata, r.sign⟩
          ⟨List.replicate k 0 ++ (mul_by_uint32_t d qt0).data, false⟩ < 0) = true then
        shift_left (mul_by_uint32_t d (u32 (qt0 + UINT32_MAX))) (BIT_DEPTH * k)
      else ⟨List.replicate k 0 ++ (mul_by_uint32_t d qt0).data, false⟩) = dq ∧
      (if decide (comparator ⟨rdata, r.sign⟩
          ⟨List.replicate k 0 ++ (mul_by_uint32_t d qt0).data, false⟩ < 0) = true then
        u32 (qt0 + UINT32_MAX) else qt0) = q := by
    by_cases hlt0 : comparator ⟨rdata, r.sign⟩
        ⟨List.replicate k 0 ++ (mul_by_uint32_t d qt0).data, false⟩ < 0
    · have hq0 := hc1 (hcmp'.1 hlt0)
      have hu : u32 (qt0 + UINT32_MAX) = q := by
        unfold u32 UINT32_MAX
        omega
      have hq32 : q < 2 ^ 32 := by omega
      refine ⟨shift_left (mul_by_uint32_t d q) (BIT_DEPTH * k),
        wf_shift_left (wf_mul_by_uint32_t hd hq32) _, ?_, ?_, ?_⟩
      · rw [toInt_shift_left (wf_mul_by_uint32_t hd hq32), toInt_mul_by_uint32_t hd hq32,
          BIT_DEPTH]
        push_cast; ring
      · rw [decide_eq_true hlt0]
        simp only [if_true, hu]
      · rw [decide_eq_true hlt0]
        simp only [if_true, hu]
    · have hq0 := hc2 (fun h => hlt0 (hcmp'.2 h))
      refine ⟨_, hw2, ?_, ?_, ?_⟩
      · rw [hv2, hq0]
      · rw [decide_eq_false hlt0]
        simp only [Bool.false_eq_true, if_false]
      · rw [decide_eq_false hlt0]
        simp only [Bool.false_eq_true, if_false]
        exact hq0
  obtain ⟨dq, hwdq, hvdq, hedq, heq⟩ := key
  rw [hedq, heq]
  have hsub := toInt_subtract hw1 hwdq
  rw [hv1, hvdq] at hsub
  have hws := wf_subtract ⟨rdata, r.sign⟩ dq
  have hss : (subtract ⟨rdata, r.sign⟩ dq).sign = false := by
    cases hs : (subtract ⟨rdata, r.sign⟩ dq).sign with
    | false => rfl
    | true =>
      have h1 := (sign_iff_neg hws).1 hs
      rw [hsub] at h1
      have h2 : ((q * (natVal d.data * 2 ^ (32 * k)) : Nat) : Int) ≤ natVal r.data := by
        exact_mod_cast hdiv1
      omega
  have hnat : natVal (subtract ⟨rdata, r.sign⟩ dq).data + q * (natVal d.data * 2 ^ (32 * k)) =
      natVal r.data := by
    rw [toInt_of_sign_false hss] at hsub
    have : ((natVal (subtract ⟨rdata, r.sign⟩ dq).data + q * (natVal d.data * 2 ^ (32 * k)) :
        Nat) : Int) = natVal r.data := by
      push_cast; push_cast at hsub; linarith
    exact_mod_cast this
  refine ⟨qt0, subtract ⟨rdata, r.sign⟩ dq, rfl, hq1, hq2, rfl, hws, canonical_add _ _, hss,
    hnat, ?_⟩
  rw [Nat.mul_add, Nat.mul_one, Nat.mul_comm _ q] at hdiv2
  omega

end big_integer

theorem natVal_take_succ (l : List Nat) {k : Nat} (hk : k < l.length) :
    natVal (l.take (k + 1)) = natVal (l.take k) + 2 ^ (32 * k) * l.getD k 0 := by
  rw [List.take_succ, natVal_append, List.length_take, Nat.min_eq_left hk.le,
    List.getElem?_eq_getElem hk, List.getD_eq_getElem _ _ hk]
  simp [natVal_cons, natVal_nil]

namespace big_integer

/-- The quotient-digit loop of `operator/=` under normalization: it returns, it leaves the
digits above the positions it visits untouched, and the digits it stores are the quotient
of the remainder by the divisor. -/
theorem divide_loop_spec {d : big_integer} {n m : Nat} (hd : wf d) (hdn : d.data.length = n)
    (hn : 2 ≤ n) (htop : 2 ^ 31 ≤ d.data.getD (n - 1) 0) (cnt : Nat) :
    ∀ (r : big_integer) (result : List Nat), wf r → canonical r → r.sign = false →
      natVal r.data < natVal d.data * 2 ^ (32 * cnt) → n + cnt ≤ m + 1 →
      cnt ≤ result.length →
      ∃ out, divide_loop d n m 0 cnt r result = .ok out ∧ out.length = result.length ∧
        (∀ i, cnt ≤ i → out.getD i 0 = result.getD i 0) ∧
        natVal (out.take cnt) = natVal r.data / natVal d.data := by
  have hDlt := natVal_lt _ hd
  rw [hdn] at hDlt
  induction cnt with
  | zero =>
    intro r result _ _ _ hlt _ _
    refine ⟨result, by rw [divide_loop], rfl, fun _ _ => rfl, ?_⟩
    rw [List.take_zero, natVal_nil]
    rw [Nat.mul_zero, pow_zero, Nat.mul_one] at hlt
    exact (Nat.div_eq_of_lt hlt).symm
  | succ k ih =>
    intro r result hr hrc hrs hlt hnk hres
    have hrl : r.data.length ≤ m + n + 1 := by
      have h1 : natVal r.data < 2 ^ (32 * (n + (k + 1))) := by
        rw [Nat.mul_add, pow_add]
        exact lt_of_lt_of_le hlt (Nat.mul_le_mul_right _ hDlt.le)
      have := length_le_of_canonical hrc hrs h1
      omega
    obtain ⟨qt0, r', _, _, _, hstep, hw', hc', hs', hval, hlt'⟩ :=
      divide_step_spec result hd hdn hn htop hr hrs hrl (by omega : n + k ≤ m) hlt
    rw [divide_loop_succ, hstep]
    simp only []
    generalize hq : natVal r.data / (natVal d.data * 2 ^ (32 * k)) = q at *
    obtain ⟨out, hout, hlen, hkeep, hnat⟩ := ih r' (result.set k q) hw' hc' hs' hlt'
      (by omega) (by rw [List.length_set]; omega)
    rw [List.length_set] at hlen
    refine ⟨out, hout, hlen, ?_, ?_⟩
    · intro i hi
      rw [hkeep i (by omega), getD_set_ne _ (by omega)]
    · have hk : out.getD k 0 = q := by
        rw [hkeep k (le_refl _), getD_set_self _ (by omega)]
      have hDpos : 0 < natVal d.data := by
        by_contra h0
        have : natVal d.data = 0 := by omega
        rw [this, Nat.zero_mul] at hlt
        omega
      rw [natVal_take_succ out (by omega), hnat, hk, ← hval]
      rw [show q * (natVal d.data * 2 ^ (32 * k)) = q * 2 ^ (32 * k) * natVal d.data by ring,
        Nat.add_mul_div_right _ _ hDpos]
      ring

end big_integer

/-- Truncated division in terms of magnitudes and signs. -/
theorem tdiv_eq_of_signs (a b : Int) :
    Int.tdiv a b =
      if xor (decide (a < 0)) (decide (b < 0)) then -((a.natAbs / b.natAbs : Nat) : Int)
      else ((a.natAbs / b.natAbs : Nat) : Int) := by
  have key : ∀ x y : Int, 0 ≤ x → 0 ≤ y →
      Int.tdiv x y = ((x.natAbs / y.natAbs : Nat) : Int) := by
    intro x y hx hy
    rw [Int.ofNat_tdiv, Int.natAbs_of_nonneg hx, Int.natAbs_of_nonneg hy]
  by_cases ha : a < 0 <;> by_cases hb : b < 0
  · simp only [ha, hb, decide_True, Bool.xor_self, Bool.false_eq_true, if_false]
    have := key (-a) (-b) (by omega) (by omega)
    rw [Int.neg_tdiv_neg, Int.natAbs_neg, Int.natAbs_neg] at this
    exact this
  · simp only [ha, hb, decide_True, decide_False, Bool.xor_false, if_true]
    have := key (-a) b (by omega) (by omega)
    rw [Int.neg_tdiv, Int.natAbs_neg] at this
    omega
  · simp only [ha, hb, decide_True, decide_False, Bool.false_xor, if_true]
    have := key a (-b) (by omega) (by omega)
    rw [Int.tdiv_neg, Int.natAbs_neg] at this
    omega
  · simp only [ha, hb, decide_False, Bool.xor_self, Bool.false_eq_true, if_false]
    exact key a b (by omega) (by omega)

namespace big_integer

theorem canonical_abs {a : big_integer} (hc : canonical a) : canonical (abs a) := by
  unfold abs
  split
  · exact canonical_add _ _
  · exact hc

theorem natVal_abs_eq_natAbs {a : big_integer} (h : wf a) :
    natVal (abs a).data = (toInt a).natAbs := by
  have h1 := natVal_abs h
  rw [← Int.natCast_natAbs] at h1
  exact_mod_cast h1

theorem sign_eq_decide {a : big_integer} (h : wf a) : a.sign = decide (toInt a < 0) := by
  have := sign_iff_neg h
  cases hs : a.sign
  · have h1 : ¬ toInt a < 0 := fun h2 => by
      have := this.2 h2; rw [hs] at this; cases this
    simp [h1]
  · simp [this.1 hs]

/-- The value of the result of `operator/=` once its magnitude is known. -/
theorem toInt_signed_result {a b : big_integer} (ha : wf a) (hb : wf b) {q : big_integer}
    (hq : wf q) (hval : toInt q = (((toInt a).natAbs / (toInt b).natAbs : Nat) : Int)) :
    toInt (if xor a.sign b.sign then negate q else q) = Int.tdiv (toInt a) (toInt b) := by
  rw [tdiv_eq_of_signs, ← sign_eq_decide ha, ← sign_eq_decide hb]
  cases xor a.sign b.sign
  · simp only [Bool.false_eq_true, if_false]; exact hval
  · simp only [if_true]; rw [toInt_negate hq, hval]

end big_integer

namespace big_integer

/-- `operator/=` on the long path: canonical operands, a divisor of at least two digits
whose last digit is not `0xFFFFFFFF` and is not larger than the dividend. -/
theorem divide_long_spec {a b : big_integer} (ha : wf a) (hb : wf b) (hca : canonical a)
    (hcb : canonical b) (h0 : ¬ comparator b (from_int 0) = 0)
    (h1 : ¬ comparator (abs b) (abs a) > 0) (h2 : ¬ (abs b).data.length = 1)
    (hmax : (abs b).data.getLastD 0 ≠ UINT32_MAX) :
    ∃ q, divide a b = .ok q ∧ wf q ∧ canonical q ∧
      toInt q = Int.tdiv (toInt a) (toInt b) := by
  have hwa := wf_abs ha
  have hwb := wf_abs hb
  have hsa := abs_sign ha
  have hsb := abs_sign hb
  have hcA := canonical_abs hca
  have hcB := canonical_abs hcb
  have hb0 : toInt b ≠ 0 := by
    rw [comparator_eq_iff hb (wf_from_int 0), toInt_zero_from_int] at h0; exact h0
  have hBpos : 0 < natVal (abs b).data := by
    rw [natVal_abs_eq_natAbs hb]; exact Int.natAbs_pos.2 hb0
  have hle : natVal (abs b).data ≤ natVal (abs a).data := by
    rw [comparator_gt_iff hwb hwa, toInt_of_sign_false hsa, toInt_of_sign_false hsb] at h1
    have : ¬ natVal (abs a).data < natVal (abs b).data := by exact_mod_cast h1
    omega
  have hne : (abs b).data ≠ [] := by
    intro e; rw [e, natVal_nil] at hBpos; omega
  have hn2 : 2 ≤ (abs b).data.length := by
    have := List.length_pos.2 hne; omega
  obtain ⟨hnf, hf1, hf2, hlen, htop, hnv⟩ := normalization_spec hwb hcB hsb hne hmax
  have hge := natVal_ge_of_canonical hcB hsb hne
  have hAlt := natVal_lt _ hwa
  have hmn : (abs b).data.length ≤ (abs a).data.length := by
    by_contra h
    have : 2 ^ (32 * (abs a).data.length) ≤ 2 ^ (32 * ((abs b).data.length - 1)) :=
      Nat.pow_le_pow_right (by norm_num) (by omega)
    omega
  have hfill : (abs a).empty_block = 0 := by unfold empty_block; rw [hsa]; rfl
  rw [divide_eq_of_long a b h0 h1 h2]
  have hidx : (((abs b).data.length : Int) - 1) = (((abs b).data.length - 1 : Nat) : Int) := by
    omega
  rw [hidx, at_index_ok _ _ (by omega), ← getLastD_eq_getD]
  simp only []
  rw [hnf]
  simp only []
  rw [if_neg (by omega), hfill]
  generalize hfdef : 2 ^ 32 / ((abs b).data.getLastD 0 + 1) = f at *
  have hf32 : f < 2 ^ 32 := by omega
  rw [u32_of_lt hf32] at hlen htop hnv ⊢
  generalize hn : (abs b).data.length = n at *
  generalize hm : (abs a).data.length = m at *
  have hwd := wf_mul_by_uint32_t hwb hf32
  have hwr := wf_mul_by_uint32_t hwa hf32
  have hrv := natVal_mul_by_uint32_t hwa hf32
  -- the scaled dividend is below the scaled divisor shifted to the top position
  have hned : (mul_by_uint32_t (abs b) f).data ≠ [] := by
    intro e; rw [e] at hlen; simp at hlen; omega
  have hsplit := (natVal_split_last _ hned).1
  rw [hlen] at hsplit
  have hbound : natVal (mul_by_uint32_t (abs a) f).data <
      natVal (mul_by_uint32_t (abs b) f).data * 2 ^ (32 * (m + 1 - n)) := by
    have e1 : 2 ^ (32 * (n - 1)) * 2 ^ (32 * (m + 1 - n)) = 2 ^ (32 * m) := by
      rw [← pow_add, show 32 * (n - 1) + 32 * (m + 1 - n) = 32 * m by omega]
    have h3 : 2 ^ (32 * (n - 1)) * 2 ^ 31 ≤ natVal (mul_by_uint32_t (abs b) f).data := by
      have := Nat.mul_le_mul_left (2 ^ (32 * (n - 1))) htop
      omega
    have h4 : 2 ^ (32 * (n - 1)) * 2 ^ 31 * 2 ^ (32 * (m + 1 - n)) ≤
        natVal (mul_by_uint32_t (abs b) f).data * 2 ^ (32 * (m + 1 - n)) :=
      Nat.mul_le_mul_right _ h3
    have h5 : 2 ^ (32 * (n - 1)) * 2 ^ 31 * 2 ^ (32 * (m + 1 - n)) = 2 ^ (32 * m) * 2 ^ 31 := by
      rw [← e1]; ring
    have h6 : natVal (abs a).data * f ≤ natVal (abs a).data * 2 ^ 31 :=
      Nat.mul_le_mul_left _ hf2
    have h7 : natVal (abs a).data * 2 ^ 31 < 2 ^ (32 * m) * 2 ^ 31 :=
      Nat.mul_lt_mul_of_pos_right hAlt (by norm_num)
    rw [hrv]
    omega
  have htop' : 2 ^ 31 ≤ (mul_by_uint32_t (abs b) f).data.getD (n - 1) 0 := by
    rw [getLastD_eq_getD, hlen] at htop; exact htop
  obtain ⟨out, hout, hol, _, hnat⟩ := divide_loop_spec (m := m) hwd hlen (by omega) htop'
    (m + 1 - n) (mul_by_uint32_t (abs a) f) (List.replicate (m + 1 - n) 0) hwr
    (canonical_mul_by_uint32_t _ _) (mul_by_uint32_t_sign _ _) hbound (by omega)
    (by rw [List.length_replicate])
  rw [hout]
  simp only []
  have hok := digits_ok_divide_loop _ _ _ _ _ _ _ _ (digits_ok_replicate (by norm_num)) hout
  have hwq : wf ⟨out, false⟩ := hok
  rw [List.length_replicate] at hol
  have hqv : toInt ⟨out, false⟩ = (((toInt a).natAbs / (toInt b).natAbs : Nat) : Int) := by
    rw [toInt_of_sign_false rfl]
    congr 1
    show natVal out = _
    rw [← hol, List.take_length, hrv, hnv, Nat.mul_div_mul_right _ _ (by omega)] at hnat
    rw [hnat, natVal_abs_eq_natAbs ha, natVal_abs_eq_natAbs hb]
  have hv := toInt_signed_result ha hb hwq hqv
  refine ⟨_, rfl, wf_shrink_to_fit ?_, canonical_shrink_to_fit _, ?_⟩
  · split
    · exact wf_negate _
    · exact hwq
  · rw [toInt_shrink_to_fit]; exact hv

end big_integer

namespace big_integer

/-- `operator/=` returns the quotient truncated toward zero, for canonical operands and a
nonzero divisor whose magnitude has one digit or a last digit other than `0xFFFFFFFF`. -/
theorem divide_spec {a b : big_integer} (ha : wf a) (hb : wf b) (hca : canonical a)
    (hcb : canonical b) (hb0 : toInt b ≠ 0)
    (hdom : (abs b).data.length = 1 ∨ (abs b).data.getLastD 0 ≠ UINT32_MAX) :
    ∃ q, divide a b = .ok q ∧ wf q ∧ canonical q ∧
      toInt q = Int.tdiv (toInt a) (toInt b) := by
  have hwa := wf_abs ha
  have hwb := wf_abs hb
  have hsa := abs_sign ha
  have hsb := abs_sign hb
  have h0 : ¬ comparator b (from_int 0) = 0 := by
    rw [comparator_eq_iff hb (wf_from_int 0), toInt_zero_from_int]; exact hb0
  have hBpos : 0 < natVal (abs b).data := by
    rw [natVal_abs_eq_natAbs hb]; exact Int.natAbs_pos.2 hb0
  by_cases h1 : comparator (abs b) (abs a) > 0
  · refine ⟨from_int 0, ?_, wf_from_int 0, canonical_shrink_to_fit _, ?_⟩
    · unfold divide
      rw [if_neg h0]
      simp only []
      rw [if_pos h1]
    · rw [comparator_gt_iff hwb hwa, toInt_of_sign_false hsa, toInt_of_sign_false hsb] at h1
      have hlt : natVal (abs a).data < natVal (abs b).data := by exact_mod_cast h1
      rw [natVal_abs_eq_natAbs ha, natVal_abs_eq_natAbs hb] at hlt
      rw [toInt_zero_from_int, tdiv_eq_of_signs, Nat.div_eq_of_lt hlt]
      simp
  by_cases h2 : (abs b).data.length = 1
  · obtain ⟨t, ht⟩ := List.length_eq_one.1 h2
    have ht32 : t < 2 ^ 32 := hwb t (by rw [ht]; simp)
    have htv : natVal (abs b).data = t := by rw [ht, natVal_cons, natVal_nil]; omega
    have htpos : 0 < t := by omega
    obtain ⟨q, r, hdiv, wq, cq, sq, eq, _⟩ := div_by_uint32_t_spec hwa htpos ht32
    have hqv : toInt q = (((toInt a).natAbs / (toInt b).natAbs : Nat) : Int) := by
      rw [eq, natVal_abs_eq_natAbs ha, ← natVal_abs_eq_natAbs hb, htv]
    have hv := toInt_signed_result ha hb wq hqv
    refine ⟨if xor a.sign b.sign then negate q else q, ?_, ?_, ?_, hv⟩
    · unfold divide
      rw [if_neg h0]
      simp only []
      rw [if_neg h1, if_pos h2, ht]
      simp only [List.getLastD_cons, List.getLastD_nil]
      rw [hdiv]
    · split
      · exact wf_negate _
      · exact wq
    · split
      · exact canonical_add _ _
      · exact cq
  · rcases hdom with h | h
    · exact absurd h h2
    · exact divide_long_spec ha hb hca hcb h0 h1 h2 h

end big_integer

namespace big_integer

/-- C16 (the code at the failing input): for the positive two-digit divisor `2^64 - 1`,
whose last digit is `0xFFFFFFFF`, the factor `BASE / (t + 1)` that `divide` computes is not
defined, because `t + 1` is taken in 32 bits and is `0`; `divide` faults there. -/
theorem C16_factor_undefined_on_full_top_digit :
    wf ⟨[4294967295, 4294967295], false⟩ ∧ canonical ⟨[4294967295, 4294967295], false⟩ ∧
    0 < toInt ⟨[4294967295, 4294967295], false⟩ ∧
    2 ≤ (⟨[4294967295, 4294967295], false⟩ : big_integer).data.length ∧
    (abs ⟨[4294967295, 4294967295], false⟩).data.getLastD 0 = 4294967295 ∧
    normalization_factor 4294967295 = .error .fault ∧
    divide ⟨[0, 0, 1], false⟩ ⟨[4294967295, 4294967295], false⟩ = .error .fault := by
  refine ⟨by decide, by decide, by decide, by decide, by decide, rfl, rfl⟩

/-- C19: for canonical `a` and canonical `b != 0` such that `|b|` has one digit or its last
digit is not `0xFFFFFFFF`, `operator/=` returns (no fault) the quotient truncated toward
zero: its magnitude is `|a| / |b|` rounded down and it is negative exactly when the operand
signs differ and the quotient is nonzero. -/
theorem C19_divide_truncates (a b : big_integer) (ha : wf a) (hb : wf b) (hca : canonical a)
    (hcb : canonical b) (hb0 : toInt b ≠ 0)
    (hdom : (abs b).data.length = 1 ∨ (abs b).data.getLastD 0 ≠ UINT32_MAX) :
    ∃ q, divide a b = .ok q ∧ normal_form q ∧
      toInt q = Int.tdiv (toInt a) (toInt b) ∧
      (toInt q).natAbs = (toInt a).natAbs / (toInt b).natAbs ∧
      (q.sign = true ↔ (a.sign ≠ b.sign ∧ toInt q ≠ 0)) := by
  obtain ⟨q, hq, wq, cq, eq⟩ := divide_spec ha hb hca hcb hb0 hdom
  refine ⟨q, hq, normal_form_of wq cq, eq, ?_, ?_⟩
  · rw [eq, Int.natAbs_tdiv]; rfl
  · rw [sign_iff_neg wq]
    have hform := tdiv_eq_of_signs (toInt a) (toInt b)
    rw [← sign_eq_decide ha, ← sign_eq_decide hb, ← eq] at hform
    have hnn : (0 : Int) ≤ (((toInt a).natAbs / (toInt b).natAbs : Nat) : Int) :=
      Int.natCast_nonneg _
    cases hsa : a.sign <;> cases hsb : b.sign <;>
      simp only [hsa, hsb, Bool.xor_self, Bool.xor_false, Bool.false_xor, Bool.xor_true,
        Bool.not_false, Bool.not_true, Bool.false_eq_true, if_false, if_true, ne_eq,
        not_true_eq_false, false_and, iff_false, not_lt, true_and, not_false_eq_true,
        Bool.true_eq_false] at hform ⊢
    · omega
    · omega
    · omega
    · omega

theorem C19_divide_truncates_witness :
    wf ⟨[3735027712, 902409669, 54], true⟩ ∧ wf ⟨[3567587327, 232], false⟩ ∧
    canonical ⟨[3735027712, 902409669, 54], true⟩ ∧ canonical ⟨[3567587327, 232], false⟩ ∧
    toInt ⟨[3567587327, 232], false⟩ ≠ 0 ∧
    ((abs ⟨[3567587327, 232], false⟩).data.length = 1 ∨
      (abs ⟨[3567587327, 232], false⟩).data.getLastD 0 ≠ UINT32_MAX) ∧
    ∃ q, divide ⟨[3735027712, 902409669, 54], true⟩ ⟨[3567587327, 232], false⟩ = .ok q ∧
      normal_form q ∧
      toInt q = Int.tdiv (toInt ⟨[3735027712, 902409669, 54], true⟩)
        (toInt ⟨[3567587327, 232], false⟩) ∧
      (toInt q).natAbs = (toInt ⟨[3735027712, 902409669, 54], true⟩).natAbs /
        (toInt ⟨[3567587327, 232], false⟩).natAbs ∧
      (q.sign = true ↔
        ((⟨[3735027712, 902409669, 54], true⟩ : big_integer).sign ≠
          (⟨[3567587327, 232], false⟩ : big_integer).sign ∧ toInt q ≠ 0)) :=
  ⟨by decide, by decide, by decide, by decide, by decide, by decide,
    C19_divide_truncates ⟨[3735027712, 902409669, 54], true⟩ ⟨[3567587327, 232], false⟩
      (by decide) (by decide) (by decide) (by decide) (by decide) (by decide)⟩

end big_integer

namespace big_integer

/-- C15: within the long division, under normalization (the scaled divisor `d` has
`n >= 2` digits, the last one `>= 2^31`, and the running remainder `r` is non-negative and
below `d * 2^(32 (k + 1))`), the iteration of `divide_loop` for the digit position `k`
computes the estimate `min (top three digits of r / top two digits of d) (2^32 - 1)`, which
is the true quotient digit `r / (d * 2^(32 k))` or one more; after the one conditional
decrement the loop stores the true digit at position `k` and goes on with the new remainder
`r - digit * d * 2^(32 k)`, which is non-negative and below `d * 2^(32 k)`; the loop
returns, and the digit at position `k` of what it returns is the true digit. -/
theorem C15_knuth_estimate (d r : big_integer) (n m k : Nat) (result : List Nat)
    (hd : wf d) (hdn : d.data.length = n) (hn : 2 ≤ n) (htop : 2 ^ 31 ≤ d.data.getLastD 0)
    (hr : wf r) (hrs : r.sign = false) (hrl : r.data.length ≤ m + n + 1) (hk : n + k ≤ m)
    (hlt : natVal r.data < natVal d.data * 2 ^ (32 * (k + 1))) (hres : k < result.length) :
    ∃ qt r' out,
      trial_quotient ((resize r.data (m + n + 1) 0).getD (n + k) 0)
        ((resize r.data (m + n + 1) 0).getD (n + k - 1) 0)
        ((resize r.data (m + n + 1) 0).getD (n + k - 2) 0)
        (d.data.getD (n - 1) 0) (d.data.getD (n - 2) 0) = .ok qt ∧
      qt = min ((((resize r.data (m + n + 1) 0).getD (n + k) 0 * 2 ^ 32 +
          (resize r.data (m + n + 1) 0).getD (n + k - 1) 0) * 2 ^ 32 +
          (resize r.data (m + n + 1) 0).getD (n + k - 2) 0) /
        (d.data.getD (n - 1) 0 * 2 ^ 32 + d.data.getD (n - 2) 0)) (2 ^ 32 - 1) ∧
      natVal r.data / (natVal d.data * 2 ^ (32 * k)) ≤ qt ∧
      qt ≤ natVal r.data / (natVal d.data * 2 ^ (32 * k)) + 1 ∧
      divide_loop d n m 0 (k + 1) r result =
        divide_loop d n m 0 k r'
          (result.set k (natVal r.data / (natVal d.data * 2 ^ (32 * k)))) ∧
      (result.set k (natVal r.data / (natVal d.data * 2 ^ (32 * k))))[k]? =
        some (natVal r.data / (natVal d.data * 2 ^ (32 * k))) ∧
      r'.sign = false ∧
      toInt r' = toInt r -
        (natVal r.data / (natVal d.data * 2 ^ (32 * k)) : Nat) * (natVal d.data * 2 ^ (32 * k)) ∧
      0 ≤ toInt r' ∧ toInt r' < natVal d.data * 2 ^ (32 * k) ∧
      divide_loop d n m 0 (k + 1) r result = .ok out ∧
      out.length = result.length ∧
      out[k]? = some (natVal r.data / (natVal d.data * 2 ^ (32 * k))) ∧
      (∀ i, k < i → out[i]? = result[i]?) := by
  have htop' : 2 ^ 31 ≤ d.data.getD (n - 1) 0 := by
    rw [getLastD_eq_getD, hdn] at htop; exact htop
  obtain ⟨qt, r', hq, h1, h2, hstep, hw', hc', hs', hval, hlt'⟩ :=
    divide_step_spec result hd hdn hn htop' hr hrs hrl hk hlt
  have hd1 : d.data.getD (n - 1) 0 < 2 ^ 32 := getD_lt_of_digits_ok hd _ (by norm_num)
  have hd0 : d.data.getD (n - 2) 0 < 2 ^ 32 := getD_lt_of_digits_ok hd _ (by norm_num)
  have hqe := @trial_quotient_eq ((resize r.data (m + n + 1) 0).getD (n + k) 0)
    ((resize r.data (m + n + 1) 0).getD (n + k - 1) 0)
    ((resize r.data (m + n + 1) 0).getD (n + k - 2) 0) _ _ hd1 hd0 htop'
  rw [hq] at hqe
  have hloop : divide_loop d n m 0 (k + 1) r result =
      divide_loop d n m 0 k r'
        (result.set k (natVal r.data / (natVal d.data * 2 ^ (32 * k)))) := by
    rw [divide_loop_succ, hstep]
  have hlen : (result.set k (natVal r.data / (natVal d.data * 2 ^ (32 * k)))).length =
      result.length := List.length_set _ _ _
  obtain ⟨out, hout, holen, hkeep, _⟩ := @divide_loop_spec d n m hd hdn hn htop' k r'
    (result.set k (natVal r.data / (natVal d.data * 2 ^ (32 * k)))) hw' hc' hs' hlt'
    (by omega) (by rw [hlen]; omega)
  rw [hlen] at holen
  have hget : ∀ i, i < result.length → out[i]? = some (out.getD i 0) := by
    intro i hi
    rw [List.getD_eq_getElem?_getD, List.getElem?_eq_getElem (by rw [holen]; exact hi)]
    rfl
  have hset : (result.set k (natVal r.data / (natVal d.data * 2 ^ (32 * k))))[k]? =
      some (natVal r.data / (natVal d.data * 2 ^ (32 * k))) := by
    rw [List.getElem?_set_self hres]
  refine ⟨qt, r', out, hq, by injection hqe, h1, h2, hloop, hset, hs', ?_, ?_, ?_,
    hloop.trans hout, holen, ?_, ?_⟩
  · rw [toInt_of_sign_false hs', toInt_of_sign_false hrs]
    generalize natVal r.data / (natVal d.data * 2 ^ (32 * k)) = q at hval ⊢
    have h' : ((natVal r'.data + q * (natVal d.data * 2 ^ (32 * k)) : Nat) : Int) =
        natVal r.data := by rw [hval]
    push_cast at h' ⊢
    linarith
  · rw [toInt_of_sign_false hs']; exact Int.natCast_nonneg _
  · rw [toInt_of_sign_false hs']
    have h' : ((natVal r'.data : Nat) : Int) < ((natVal d.data * 2 ^ (32 * k) : Nat) : Int) :=
      Int.ofNat_lt.2 hlt'
    push_cast at h'
    exact h'
  · rw [hget k hres, hkeep k (le_refl _), List.getD_eq_getElem?_getD, hset]
    rfl
  · intro i hi
    by_cases hil : i < result.length
    · rw [hget i hil, hkeep i (by omega), List.getD_eq_getElem?_getD,
        List.getElem?_set_ne (by omega), List.getElem?_eq_getElem hil]
      rfl
    · rw [List.getElem?_eq_none (by omega), List.getElem?_eq_none (by omega)]

theorem C15_knuth_estimate_witness :
    wf (⟨[7, 2147483648], false⟩ : big_integer) ∧
      (⟨[7, 2147483648], false⟩ : big_integer).data.length = 2 ∧
    2 ≤ 2 ∧ 2 ^ 31 ≤ (⟨[7, 2147483648], false⟩ : big_integer).data.getLastD 0 ∧
    wf (⟨[5, 6, 4294967295, 2147483647], false⟩ : big_integer) ∧
    (⟨[5, 6, 4294967295, 2147483647], false⟩ : big_integer).sign = false ∧
    (⟨[5, 6, 4294967295, 2147483647], false⟩ : big_integer).data.length ≤ 3 + 2 + 1 ∧
    2 + 1 ≤ 3 ∧
    natVal (⟨[5, 6, 4294967295, 2147483647], false⟩ : big_integer).data <
      natVal (⟨[7, 2147483648], false⟩ : big_integer).data * 2 ^ (32 * (1 + 1)) ∧
    1 < [0, 0].length ∧
    ∃ qt r' out,
      trial_quotient
        ((resize (⟨[5, 6, 4294967295, 2147483647], false⟩ : big_integer).data (3 + 2 + 1) 0).getD
          (2 + 1) 0)
        ((resize (⟨[5, 6, 4294967295, 2147483647], false⟩ : big_integer).data (3 + 2 + 1) 0).getD
          (2 + 1 - 1) 0)
        ((resize (⟨[5, 6, 4294967295, 2147483647], false⟩ : big_integer).data (3 + 2 + 1) 0).getD
          (2 + 1 - 2) 0)
        ((⟨[7, 2147483648], false⟩ : big_integer).data.getD (2 - 1) 0)
        ((⟨[7, 2147483648], false⟩ : big_integer).data.getD (2 - 2) 0) = .ok qt ∧
      qt = min ((((resize (⟨[5, 6, 4294967295, 2147483647], false⟩ : big_integer).data
            (3 + 2 + 1) 0).getD (2 + 1) 0 * 2 ^ 32 +
          (resize (⟨[5, 6, 4294967295, 2147483647], false⟩ : big_integer).data
            (3 + 2 + 1) 0).getD (2 + 1 - 1) 0) * 2 ^ 32 +
          (resize (⟨[5, 6, 4294967295, 2147483647], false⟩ : big_integer).data
            (3 + 2 + 1) 0).getD (2 + 1 - 2) 0) /
        ((⟨[7, 2147483648], false⟩ : big_integer).data.getD (2 - 1) 0 * 2 ^ 32 +
          (⟨[7, 2147483648], false⟩ : big_integer).data.getD (2 - 2) 0)) (2 ^ 32 - 1) ∧
      (natVal (⟨[5, 6, 4294967295, 2147483647], false⟩ : big_integer).data /
          (natVal (⟨[7, 2147483648], false⟩ : big_integer).data * 2 ^ (32 * 1))) ≤ qt ∧
      qt ≤ (natVal (⟨[5, 6, 4294967295, 2147483647], false⟩ : big_integer).data /
          (natVal (⟨[7, 2147483648], false⟩ : big_integer).data * 2 ^ (32 * 1))) + 1 ∧
      divide_loop (⟨[7, 2147483648], false⟩ : big_integer) 2 3 0 (1 + 1)
        (⟨[5, 6, 4294967295, 2147483647], false⟩ : big_integer) [0, 0] =
        divide_loop (⟨[7, 2147483648], false⟩ : big_integer) 2 3 0 1 r'
          ([0, 0].set 1 (natVal (⟨[5, 6, 4294967295, 2147483647], false⟩ : big_integer).data /
          (natVal (⟨[7, 2147483648], false⟩ : big_integer).data * 2 ^ (32 * 1)))) ∧
      ([0, 0].set 1 (natVal (⟨[5, 6, 4294967295, 2147483647], false⟩ : big_integer).data /
          (natVal (⟨[7, 2147483648], false⟩ : big_integer).data * 2 ^ (32 * 1))))[1]? =
        some (natVal (⟨[5, 6, 4294967295, 2147483647], false⟩ : big_integer).data /
          (natVal (⟨[7, 2147483648], false⟩ : big_integer).data * 2 ^ (32 * 1))) ∧
      r'.sign = false ∧
      toInt r' = toInt (⟨[5, 6, 4294967295, 2147483647], false⟩ : big_integer) -
        ((natVal (⟨[5, 6, 4294967295, 2147483647], false⟩ : big_integer).data /
          (natVal (⟨[7, 2147483648], false⟩ : big_integer).data * 2 ^ (32 * 1))) : Nat) *
          (natVal (⟨[7, 2147483648], false⟩ : big_integer).data * 2 ^ (32 * 1)) ∧
      0 ≤ toInt r' ∧
      toInt r' < natVal (⟨[7, 2147483648], false⟩ : big_integer).data * 2 ^ (32 * 1) ∧
      divide_loop (⟨[7, 2147483648], false⟩ : big_integer) 2 3 0 (1 + 1)
        (⟨[5, 6, 4294967295, 2147483647], false⟩ : big_integer) [0, 0] = .ok out ∧
      out.length = [0, 0].length ∧
      out[1]? = some (natVal (⟨[5, 6, 4294967295, 2147483647], false⟩ : big_integer).data /
          (natVal (⟨[7, 2147483648], false⟩ : big_integer).data * 2 ^ (32 * 1))) ∧
      (∀ i, 1 < i → out[i]? = [0, 0][i]?) :=
  ⟨by decide, by decide, by decide, by decide, by decide, by decide, by decide, by decide,
    by decide, by decide,
    C15_knuth_estimate ⟨[7, 2147483648], false⟩ ⟨[5, 6, 4294967295, 2147483647], false⟩ 2 3 1
      [0, 0] (by decide) (by decide) (by decide) (by decide) (by decide) (by decide)
      (by decide) (by decide) (by decide) (by decide)⟩

end big_integer

namespace big_integer

end big_integer

namespace big_integer

end big_integer
